import Mathlib

/-!
# btstack_crypto: queue, dispatcher and AES-CMAC engine

A shallow embedding of `src/btstack_crypto.c`.

Modelling choices (each definition below names the source lines it embeds):

* Bytes are natural numbers; a store into a `uint8_t` is reduced `% 256` where the C
  expression can exceed eight bits.  `uint16_t` and `int` values are natural numbers, with
  the conversion `% 65536` written where a value is passed as `uint16_t`.  `int` is taken
  to be at least 32 bits wide.
* The static globals of the file are the fields of `Core`.  Caller memory reached through
  pointers (keys, plaintexts, output buffers) is the byte-addressed map `Core.mem`;
  pointers are addresses.
* The operation list holds the request records by value, in list order.  This is the
  ownership rule of the specification: a record belongs to the list from its submission
  until its callback has fired.
* The transport is external.  Every `hci_send_cmd` is appended to `Core.sent`, every
  completion callback invocation is appended to `Core.fired` (the record, as it is at
  that moment), and the answer of `hci_can_send_command_packet_now` is an input.
  A callback is recorded, not run.
-/

namespace BtstackCrypto

/-! ## Types -/

/-- Phases of the CMAC engine (source lines 49-57), in declaration order. -/
inductive cmac_state_t
  | CMAC_IDLE
  | CMAC_CALC_SUBKEYS
  | CMAC_W4_SUBKEYS
  | CMAC_CALC_MI
  | CMAC_W4_MI
  | CMAC_CALC_MLAST
  | CMAC_W4_MLAST
  deriving DecidableEq, Repr

open cmac_state_t

/-- Modelled from the spec: the operation kind tag of a request record
(`btstack_crypto.h` is not part of the sources). -/
inductive btstack_crypto_operation_t
  | BTSTACK_CRYPTO_RANDOM
  | BTSTACK_CRYPTO_AES128
  | BTSTACK_CRYPTO_CMAC_GENERATOR
  | BTSTACK_CRYPTO_CMAC_MESSAGE
  deriving DecidableEq, Repr

open btstack_crypto_operation_t

/-- Modelled from the spec: the common part of every request record: the list linkage
(here the address of the record, its identity), the completion callback and its
context. The operation tag is the variant of `Request`. -/
structure btstack_crypto_t where
  item : Nat
  callback : Nat
  context : Nat
  deriving DecidableEq, Repr

/-- Modelled from the spec: a Random Request: destination pointer and remaining count. -/
structure btstack_crypto_random_t where
  btstack_crypto : btstack_crypto_t
  buffer : Nat
  size : Nat
  deriving DecidableEq, Repr

/-- Modelled from the spec: an AES128 Request: pointers to key, plaintext and
ciphertext. -/
structure btstack_crypto_aes128_t where
  btstack_crypto : btstack_crypto_t
  key : Nat
  plaintext : Nat
  ciphertext : Nat
  deriving DecidableEq, Repr

/-- Modelled from the spec: a CMAC Request: key pointer, message length, byte source
(`get_byte_callback`, read by `btstack_crypto_run`), the generator pair written by the
second API, and the hash pointer. -/
structure btstack_crypto_aes128_cmac_t where
  btstack_crypto : btstack_crypto_t
  key : Nat
  size : Nat
  get_byte_callback : Nat → Nat
  generator : Nat
  generator_arg : Nat
  hash : Nat

/-- A queued request record together with its operation tag. -/
inductive Request
  | random (r : btstack_crypto_random_t)
  | aes128 (r : btstack_crypto_aes128_t)
  | cmac_generator (r : btstack_crypto_aes128_cmac_t)
  | cmac_message (r : btstack_crypto_aes128_cmac_t)

/-- The tag `btstack_crypto->operation` of a record. -/
def Request.operation : Request → btstack_crypto_operation_t
  | .random _ => BTSTACK_CRYPTO_RANDOM
  | .aes128 _ => BTSTACK_CRYPTO_AES128
  | .cmac_generator _ => BTSTACK_CRYPTO_CMAC_GENERATOR
  | .cmac_message _ => BTSTACK_CRYPTO_CMAC_MESSAGE

/-- The common part of a record. -/
def Request.base : Request → btstack_crypto_t
  | .random r => r.btstack_crypto
  | .aes128 r => r.btstack_crypto
  | .cmac_generator r => r.btstack_crypto
  | .cmac_message r => r.btstack_crypto

/-- The address of a record. -/
def Request.addr (r : Request) : Nat := r.base.item

/-- A command handed to `hci_send_cmd`, with its arguments. -/
inductive hci_cmd
  | hci_le_rand
  | hci_le_encrypt (key : List Nat) (plaintext : List Nat)
  deriving DecidableEq, Repr

/-- What the HCI macros of `btstack_crypto_event_handler` see in a packet: a command
complete event for `hci_le_encrypt` or for `hci_le_rand`, with the bytes from
`packet[6]` on, or anything else. -/
inductive hci_packet
  | le_encrypt_complete (data : List Nat)
  | le_rand_complete (data : List Nat)
  | other
  deriving DecidableEq, Repr

/-- The value of `HCI_EVENT_PACKET`. -/
def HCI_EVENT_PACKET : Nat := 4

/-- The static state of the file (source lines 61-75), caller memory and the two
effect logs. `sm_cmac_done_handler` is assigned once and never read; it is left out.
`hci_event_handlers` counts the handlers registered with the transport. -/
structure Core where
  btstack_crypto_initialized : Bool
  btstack_crypto_operations : List Request
  btstack_crypto_wait_for_hci_result : Bool
  sm_cmac_state : cmac_state_t
  sm_cmac_message_len : Nat
  sm_cmac_k : List Nat
  sm_cmac_x : List Nat
  sm_cmac_m_last : List Nat
  sm_cmac_block_current : Nat
  sm_cmac_block_count : Nat
  sm_cmac_get_byte : Nat → Nat
  mem : Nat → Nat
  sent : List hci_cmd
  fired : List Request
  hci_event_handlers : Nat

/-! ## External helpers -/

/-- Modelled from the spec: `reverse_128`, the pure byte-order inversion of a 16-byte
block (`btstack_util.c` is not part of the sources). -/
def reverse_128 (src : List Nat) : List Nat :=
  (List.range 16).map (fun i => src.getD (15 - i) 0)

/-- Reading `n` bytes of caller memory from address `p`. -/
def mem_read (mem : Nat → Nat) (p n : Nat) : List Nat :=
  (List.range n).map (fun i => mem (p + i))

/-- The effect of `memcpy(dst, src, n)` on caller memory, `src` being a local array. -/
def mem_write (mem : Nat → Nat) (dst : Nat) (src : List Nat) (n : Nat) : Nat → Nat :=
  fun a => if dst ≤ a ∧ a < dst + n then src.getD (a - dst) 0 else mem a

/-- The call `hci_send_cmd(...)`: the command is logged. -/
def hci_send_cmd (c : hci_cmd) (s : Core) : Core :=
  { s with sent := s.sent ++ [c] }

/-- Invoking the completion callback of a record: the record is logged. -/
def fire_callback (r : Request) (s : Core) : Core :=
  { s with fired := s.fired ++ [r] }

/-- The call `btstack_linked_list_pop(&btstack_crypto_operations)`. -/
def btstack_linked_list_pop (s : Core) : Core :=
  { s with btstack_crypto_operations := s.btstack_crypto_operations.tail }

/-! ## CMAC engine (source lines 77-231) -/

/-- Source lines 77-79: the next enumerator. Called in the three CALC phases only. -/
def sm_cmac_next_state : cmac_state_t → cmac_state_t
  | CMAC_IDLE => CMAC_CALC_SUBKEYS
  | CMAC_CALC_SUBKEYS => CMAC_W4_SUBKEYS
  | CMAC_W4_SUBKEYS => CMAC_CALC_MI
  | CMAC_CALC_MI => CMAC_W4_MI
  | CMAC_W4_MI => CMAC_CALC_MLAST
  | CMAC_CALC_MLAST => CMAC_W4_MLAST
  | CMAC_W4_MLAST => CMAC_W4_MLAST

/-- Source lines 81-84. -/
def sm_cmac_last_block_complete (s : Core) : Bool :=
  if s.sm_cmac_message_len = 0 then false
  else (s.sm_cmac_message_len &&& 0x0f) == 0

/-- Source lines 86-93. -/
def sm_aes128_start (key plaintext : List Nat) (s : Core) : Core :=
  hci_send_cmd (.hci_le_encrypt (reverse_128 key) (reverse_128 plaintext))
    { s with btstack_crypto_wait_for_hci_result := true }

/-- Source lines 95-130. -/
def sm_cmac_handle_aes_engine_ready (s : Core) : Core :=
  match s.sm_cmac_state with
  | CMAC_CALC_SUBKEYS =>
    let const_zero := List.replicate 16 0
    let s1 := { s with sm_cmac_state := sm_cmac_next_state s.sm_cmac_state }
    sm_aes128_start s1.sm_cmac_k const_zero s1
  | CMAC_CALC_MI =>
    let y := (List.range 16).map (fun j =>
      s.sm_cmac_x.getD j 0 ^^^ s.sm_cmac_get_byte ((s.sm_cmac_block_current * 16 + j) % 65536))
    let s1 := { s with sm_cmac_block_current := (s.sm_cmac_block_current + 1) % 256,
                       sm_cmac_state := sm_cmac_next_state s.sm_cmac_state }
    sm_aes128_start s1.sm_cmac_k y s1
  | CMAC_CALC_MLAST =>
    let y := (List.range 16).map (fun i => s.sm_cmac_x.getD i 0 ^^^ s.sm_cmac_m_last.getD i 0)
    let s1 := { s with sm_cmac_block_current := (s.sm_cmac_block_current + 1) % 256,
                       sm_cmac_state := sm_cmac_next_state s.sm_cmac_state }
    sm_aes128_start s1.sm_cmac_k y s1
  | _ => s

/-- The loop of source lines 136-140 over the bytes it visits, last byte first:
the result is the carry left at the end and the shifted bytes. -/
def shift_loop : List Nat → Nat × List Nat
  | [] => (0, [])
  | d :: ds =>
    let r := shift_loop ds
    (d >>> 7, ((d <<< 1 ||| r.1) % 256) :: r.2)

/-- Source lines 133-141: the first `len` bytes of `data` are shifted in place. -/
def sm_shift_left_by_one_bit_inplace (len : Nat) (data : List Nat) : List Nat :=
  (shift_loop (data.take len)).2 ++ data.drop len

/-- Source lines 146-151 (and again 152-157): copy, shift, and XOR 0x87 into byte 15 when
bit 7 of byte 0 of the source block is set. -/
def sm_cmac_subkey (data : List Nat) : List Nat :=
  let k := sm_shift_left_by_one_bit_inplace 16 (data.take 16)
  if data.getD 0 0 &&& 0x80 ≠ 0 then k.set 15 (k.getD 15 0 ^^^ 0x87) else k

/-- Source lines 163-182: the value stored in `sm_cmac_m_last`. -/
def sm_cmac_calc_m_last (k1 k2 : List Nat) (s : Core) : List Nat :=
  if sm_cmac_last_block_complete s then
    (List.range 16).map (fun i =>
      s.sm_cmac_get_byte ((s.sm_cmac_message_len - 16 + i) % 65536) ^^^ k1.getD i 0)
  else
    let valid_octets_in_last_block := s.sm_cmac_message_len &&& 0x0f
    (List.range 16).map (fun i =>
      if i < valid_octets_in_last_block then
        s.sm_cmac_get_byte (((s.sm_cmac_message_len &&& 0xfff0) + i) % 65536) ^^^ k2.getD i 0
      else if i = valid_octets_in_last_block then 0x80 ^^^ k2.getD i 0
      else k2.getD i 0)

/-- Source lines 185 and 190: the phase after a subkey or block result. -/
def sm_cmac_phase_after_result (s : Core) : cmac_state_t :=
  if s.sm_cmac_block_current + 1 < s.sm_cmac_block_count then CMAC_CALC_MI else CMAC_CALC_MLAST

/-- Source lines 143-205. `btstack_crypto_cmac` is the record the caller took from the
head of the list, `tag_message` says under which of the two CMAC tags. -/
def sm_cmac_handle_encryption_result (btstack_crypto_cmac : btstack_crypto_aes128_cmac_t)
    (tag_message : Bool) (data : List Nat) (s : Core) : Core :=
  match s.sm_cmac_state with
  | CMAC_W4_SUBKEYS =>
    let k1 := sm_cmac_subkey data
    let k2 := sm_cmac_subkey k1
    { s with sm_cmac_m_last := sm_cmac_calc_m_last k1 k2 s,
             sm_cmac_state := sm_cmac_phase_after_result s }
  | CMAC_W4_MI =>
    { s with sm_cmac_x := data.take 16,
             sm_cmac_state := sm_cmac_phase_after_result s }
  | CMAC_W4_MLAST =>
    let s1 := { s with sm_cmac_state := CMAC_IDLE,
                       mem := mem_write s.mem btstack_crypto_cmac.hash data 16 }
    let s2 := btstack_linked_list_pop s1
    fire_callback (if tag_message then .cmac_message btstack_crypto_cmac
                   else .cmac_generator btstack_crypto_cmac) s2
  | _ => s

/-- Source lines 208-231. `key` is the array the key pointer refers to. -/
def sm_cmac_general_start (key : List Nat) (message_len : Nat)
    (get_byte_callback : Nat → Nat) (s : Core) : Core :=
  let count := ((message_len + 15) / 16) % 256
  sm_cmac_handle_aes_engine_ready
    { s with sm_cmac_k := key.take 16,
             sm_cmac_x := List.replicate 16 0,
             sm_cmac_block_current := 0,
             sm_cmac_message_len := message_len,
             sm_cmac_get_byte := get_byte_callback,
             sm_cmac_block_count := if count = 0 then 1 else count,
             sm_cmac_state := CMAC_CALC_SUBKEYS }

/-! ## Dispatcher and completion router (source lines 236-346) -/

/-- Source lines 236-280. `can_send` is the answer of
`hci_can_send_command_packet_now()`. -/
def btstack_crypto_run (can_send : Bool) (s : Core) : Core :=
  if s.btstack_crypto_wait_for_hci_result then s
  else match s.btstack_crypto_operations with
    | [] => s
    | btstack_crypto :: _ =>
      if !can_send then s
      else match btstack_crypto with
        | .random _ =>
          hci_send_cmd .hci_le_rand { s with btstack_crypto_wait_for_hci_result := true }
        | .aes128 r =>
          hci_send_cmd
            (.hci_le_encrypt (reverse_128 (mem_read s.mem r.key 16))
              (reverse_128 (mem_read s.mem r.plaintext 16)))
            { s with btstack_crypto_wait_for_hci_result := true }
        | .cmac_message r | .cmac_generator r =>
          let s1 := { s with btstack_crypto_wait_for_hci_result := true }
          if s1.sm_cmac_state = CMAC_IDLE then
            sm_cmac_general_start (mem_read s1.mem r.key 16) r.size r.get_byte_callback s1
          else
            sm_cmac_handle_aes_engine_ready s1

/-- Source lines 282-299. -/
def btstack_crypto_handle_random_data (data : List Nat) (len : Nat) (can_send : Bool)
    (s : Core) : Core :=
  let s0 := { s with btstack_crypto_wait_for_hci_result := false }
  match s0.btstack_crypto_operations with
  | .random r :: rest =>
    let bytes_to_copy := min r.size len
    let s1 := { s0 with mem := mem_write s0.mem r.buffer data bytes_to_copy }
    let r1 : btstack_crypto_random_t :=
      { r with buffer := r.buffer + bytes_to_copy, size := r.size - bytes_to_copy }
    let s2 :=
      if r1.size = 0 then
        fire_callback (.random r1) (btstack_linked_list_pop s1)
      else
        { s1 with btstack_crypto_operations := .random r1 :: rest }
    btstack_crypto_run can_send s2
  | _ => s0

/-- Source lines 301-325. -/
def btstack_crypto_handle_encryption_result (data : List Nat) (s : Core) : Core :=
  let s0 := { s with btstack_crypto_wait_for_hci_result := false }
  match s0.btstack_crypto_operations with
  | [] => s0
  | .aes128 r :: _ =>
    let s1 := { s0 with mem := mem_write s0.mem r.ciphertext (reverse_128 data) 16 }
    fire_callback (.aes128 r) (btstack_linked_list_pop s1)
  | .cmac_generator r :: _ =>
    sm_cmac_handle_encryption_result r false (reverse_128 data) s0
  | .cmac_message r :: _ =>
    sm_cmac_handle_encryption_result r true (reverse_128 data) s0
  | .random _ :: _ => s0

/-- Source lines 327-346. `hci_working` says whether `hci_get_state()` is
`HCI_STATE_WORKING`. -/
def btstack_crypto_event_handler (packet_type : Nat) (hci_working : Bool)
    (packet : hci_packet) (can_send : Bool) (s : Core) : Core :=
  if packet_type ≠ HCI_EVENT_PACKET then s
  else if !hci_working then s
  else
    let s1 := match packet with
      | .le_encrypt_complete data => btstack_crypto_handle_encryption_result data s
      | .le_rand_complete data => btstack_crypto_handle_random_data data 8 can_send s
      | .other => s
    btstack_crypto_run can_send s1

/-- Source lines 348-354. -/
def btstack_crypto_init (s : Core) : Core :=
  if s.btstack_crypto_initialized then s
  else { s with btstack_crypto_initialized := true,
                hci_event_handlers := s.hci_event_handlers + 1 }

/-! ## Submission API (source lines 356-415) -/

/-- The call `btstack_linked_list_add_tail(&btstack_crypto_operations, request)`. -/
def btstack_linked_list_add_tail (r : Request) (s : Core) : Core :=
  { s with btstack_crypto_operations := s.btstack_crypto_operations ++ [r] }

/-- Source lines 356-364. -/
def btstack_crypto_random_generate (request : btstack_crypto_random_t) (buffer size : Nat)
    (callback callback_arg : Nat) (can_send : Bool) (s : Core) : Core :=
  let request1 : btstack_crypto_random_t :=
    { btstack_crypto := { item := request.btstack_crypto.item,
                          callback := callback, context := callback_arg },
      buffer := buffer, size := size }
  btstack_crypto_run can_send (btstack_linked_list_add_tail (.random request1) s)

/-- Source lines 366-375. -/
def btstack_crypto_aes128_encrypt (request : btstack_crypto_aes128_t)
    (key plaintext ciphertext : Nat) (callback callback_arg : Nat) (can_send : Bool)
    (s : Core) : Core :=
  let request1 : btstack_crypto_aes128_t :=
    { btstack_crypto := { item := request.btstack_crypto.item,
                          callback := callback, context := callback_arg },
      key := key, plaintext := plaintext, ciphertext := ciphertext }
  btstack_crypto_run can_send (btstack_linked_list_add_tail (.aes128 request1) s)

/-- Source lines 379-389 (the variant under `CMAC_TEMP_API`). -/
def btstack_crypto_aes128_cmac_generator_temp (request : btstack_crypto_aes128_cmac_t)
    (key size : Nat) (get_byte_callback : Nat → Nat) (hash : Nat)
    (callback callback_arg : Nat) (can_send : Bool) (s : Core) : Core :=
  let request1 : btstack_crypto_aes128_cmac_t :=
    { request with
      btstack_crypto := { item := request.btstack_crypto.item,
                          callback := callback, context := callback_arg },
      key := key, size := size, get_byte_callback := get_byte_callback, hash := hash }
  btstack_crypto_run can_send (btstack_linked_list_add_tail (.cmac_generator request1) s)

/-- Source lines 392-403. -/
def btstack_crypto_aes128_cmac_generator (request : btstack_crypto_aes128_cmac_t)
    (key size : Nat) (generator generator_arg : Nat) (hash : Nat)
    (callback callback_arg : Nat) (can_send : Bool) (s : Core) : Core :=
  let request1 : btstack_crypto_aes128_cmac_t :=
    { request with
      btstack_crypto := { item := request.btstack_crypto.item,
                          callback := callback, context := callback_arg },
      key := key, size := size, hash := hash,
      generator := generator, generator_arg := generator_arg }
  btstack_crypto_run can_send (btstack_linked_list_add_tail (.cmac_generator request1) s)

/-- Source lines 405-415. The parameter `size` is not stored. -/
def btstack_crypto_aes128_cmac_message (request : btstack_crypto_aes128_cmac_t)
    (key _size : Nat) (message : Nat) (hash : Nat)
    (callback callback_arg : Nat) (can_send : Bool) (s : Core) : Core :=
  let request1 : btstack_crypto_aes128_cmac_t :=
    { request with
      btstack_crypto := { item := request.btstack_crypto.item,
                          callback := callback, context := callback_arg },
      key := key, hash := hash, generator := 0, generator_arg := message }
  btstack_crypto_run can_send (btstack_linked_list_add_tail (.cmac_message request1) s)

/-! ## Big-endian reading of byte arrays -/

/-- The value of a byte array read as a big-endian integer, index 0 most significant. -/
def be_value : List Nat → Nat
  | [] => 0
  | d :: ds => d * 256 ^ ds.length + be_value ds

/-- The `n`-byte big-endian encoding of `v` (of `v` modulo `256 ^ n`). -/
def be_bytes : Nat → Nat → List Nat
  | 0, _ => []
  | n + 1, v => (v / 256 ^ n % 256) :: be_bytes n v

/-- Every entry is a byte. -/
def is_bytes (l : List Nat) : Prop := ∀ b ∈ l, b < 256

/-- RFC 4493, subkey generation step: doubling of a 128-bit value in GF(2^128):
shift left by one bit, and XOR the constant `Rb = 0x87` when the top bit was set. -/
def rfc_double (v : Nat) : Nat :=
  (2 * v % 2 ^ 128) ^^^ (if 2 ^ 127 ≤ v then 0x87 else 0)

/-! ## The initial state -/

/-- The state at program start: every static is zero, nothing is queued, sent or fired. -/
def core_init : Core :=
  { btstack_crypto_initialized := false,
    btstack_crypto_operations := [],
    btstack_crypto_wait_for_hci_result := false,
    sm_cmac_state := CMAC_IDLE,
    sm_cmac_message_len := 0,
    sm_cmac_k := List.replicate 16 0,
    sm_cmac_x := List.replicate 16 0,
    sm_cmac_m_last := List.replicate 16 0,
    sm_cmac_block_current := 0,
    sm_cmac_block_count := 0,
    sm_cmac_get_byte := fun _ => 0,
    mem := fun _ => 0,
    sent := [],
    fired := [],
    hci_event_handlers := 0 }

/-! ## RFC 4493 (AES-CMAC), written from the standard over a block function `E` -/

/-- Bytewise XOR of two 16-byte blocks. -/
def xor_block (a b : List Nat) : List Nat :=
  (List.range 16).map (fun i => a.getD i 0 ^^^ b.getD i 0)

/-- RFC 4493: the message block `M_(i+1)`, bytes `16*i .. 16*i+15` of the message. -/
def rfc_block (m : Nat → Nat) (i : Nat) : List Nat :=
  (List.range 16).map (fun j => m (16 * i + j))

/-- RFC 4493, `padding(x)`: the `r` message bytes from `base` on, then the byte `0x80`
(a single 1 bit), then zero bytes, 16 bytes in all. -/
def rfc_padding (m : Nat → Nat) (base r : Nat) : List Nat :=
  (List.range 16).map (fun j => if j < r then m (base + j) else if j = r then 0x80 else 0)

/-- RFC 4493, `Generate_Subkey`: `L = E(K, 0^128)`, `K1` the doubling of `L`, `K2` the
doubling of `K1`. -/
def rfc_subkeys (E : List Nat → List Nat → List Nat) (K : List Nat) : List Nat × List Nat :=
  let L := be_value (E K (List.replicate 16 0))
  (be_bytes 16 (rfc_double L), be_bytes 16 (rfc_double (rfc_double L)))

/-- RFC 4493, steps 5 and 6: the chaining value after `i` blocks, from `X = 0^128`,
`X := E(K, X XOR M_i)`. -/
def rfc_cbc (E : List Nat → List Nat → List Nat) (K : List Nat) (m : Nat → Nat) :
    Nat → List Nat
  | 0 => List.replicate 16 0
  | i + 1 => E K (xor_block (rfc_cbc E K m i) (rfc_block m i))

/-- RFC 4493, steps 2 and 3: the number of blocks, `n = ceil(len/16)`, and `n = 1` when
that is 0. -/
def rfc_n (len : Nat) : Nat :=
  if (len + 15) / 16 = 0 then 1 else (len + 15) / 16

/-- RFC 4493, step 3: the last block is complete when `n` was not 0 and
`len mod 16 = 0`. -/
def rfc_flag (len : Nat) : Bool :=
  if (len + 15) / 16 = 0 then false else decide (len % 16 = 0)

/-- RFC 4493, step 4: `M_last` is `M_n XOR K1` for a complete last block and
`padding(M_n) XOR K2` otherwise. -/
def rfc_m_last (E : List Nat → List Nat → List Nat) (K : List Nat) (len : Nat)
    (m : Nat → Nat) : List Nat :=
  if rfc_flag len then xor_block (rfc_block m (rfc_n len - 1)) (rfc_subkeys E K).1
  else
    xor_block (rfc_padding m (16 * (rfc_n len - 1)) (len - 16 * (rfc_n len - 1)))
      (rfc_subkeys E K).2

/-- RFC 4493, `AES-CMAC(K, M, len)` with the block cipher `E`: after the `n - 1` chained
blocks, `T = E(K, M_last XOR X)`. -/
def rfc4493_cmac (E : List Nat → List Nat → List Nat) (K : List Nat) (len : Nat)
    (m : Nat → Nat) : List Nat :=
  E K (xor_block (rfc_m_last E K len m) (rfc_cbc E K m (rfc_n len - 1)))

/-! ## AES-128 (FIPS 197)
The block cipher the peripheral implements. It is no part of `btstack_crypto.c`; it is
written here from the standard, only to instantiate the block function `E` at the test
vectors of RFC 4493. The state is held column by column, as the 16 input bytes. -/

/-- FIPS 197, figure 7: the S-box. -/
def aes_sbox : List Nat :=
  [0x63, 0x7c, 0x77, 0x7b, 0xf2, 0x6b, 0x6f, 0xc5, 0x30, 0x01, 0x67, 0x2b, 0xfe, 0xd7, 0xab, 0x76,
  0xca, 0x82, 0xc9, 0x7d, 0xfa, 0x59, 0x47, 0xf0, 0xad, 0xd4, 0xa2, 0xaf, 0x9c, 0xa4, 0x72, 0xc0,
  0xb7, 0xfd, 0x93, 0x26, 0x36, 0x3f, 0xf7, 0xcc, 0x34, 0xa5, 0xe5, 0xf1, 0x71, 0xd8, 0x31, 0x15,
  0x04, 0xc7, 0x23, 0xc3, 0x18, 0x96, 0x05, 0x9a, 0x07, 0x12, 0x80, 0xe2, 0xeb, 0x27, 0xb2, 0x75,
  0x09, 0x83, 0x2c, 0x1a, 0x1b, 0x6e, 0x5a, 0xa0, 0x52, 0x3b, 0xd6, 0xb3, 0x29, 0xe3, 0x2f, 0x84,
  0x53, 0xd1, 0x00, 0xed, 0x20, 0xfc, 0xb1, 0x5b, 0x6a, 0xcb, 0xbe, 0x39, 0x4a, 0x4c, 0x58, 0xcf,
  0xd0, 0xef, 0xaa, 0xfb, 0x43, 0x4d, 0x33, 0x85, 0x45, 0xf9, 0x02, 0x7f, 0x50, 0x3c, 0x9f, 0xa8,
  0x51, 0xa3, 0x40, 0x8f, 0x92, 0x9d, 0x38, 0xf5, 0xbc, 0xb6, 0xda, 0x21, 0x10, 0xff, 0xf3, 0xd2,
  0xcd, 0x0c, 0x13, 0xec, 0x5f, 0x97, 0x44, 0x17, 0xc4, 0xa7, 0x7e, 0x3d, 0x64, 0x5d, 0x19, 0x73,
  0x60, 0x81, 0x4f, 0xdc, 0x22, 0x2a, 0x90, 0x88, 0x46, 0xee, 0xb8, 0x14, 0xde, 0x5e, 0x0b, 0xdb,
  0xe0, 0x32, 0x3a, 0x0a, 0x49, 0x06, 0x24, 0x5c, 0xc2, 0xd3, 0xac, 0x62, 0x91, 0x95, 0xe4, 0x79,
  0xe7, 0xc8, 0x37, 0x6d, 0x8d, 0xd5, 0x4e, 0xa9, 0x6c, 0x56, 0xf4, 0xea, 0x65, 0x7a, 0xae, 0x08,
  0xba, 0x78, 0x25, 0x2e, 0x1c, 0xa6, 0xb4, 0xc6, 0xe8, 0xdd, 0x74, 0x1f, 0x4b, 0xbd, 0x8b, 0x8a,
  0x70, 0x3e, 0xb5, 0x66, 0x48, 0x03, 0xf6, 0x0e, 0x61, 0x35, 0x57, 0xb9, 0x86, 0xc1, 0x1d, 0x9e,
  0xe1, 0xf8, 0x98, 0x11, 0x69, 0xd9, 0x8e, 0x94, 0x9b, 0x1e, 0x87, 0xe9, 0xce, 0x55, 0x28, 0xdf,
  0x8c, 0xa1, 0x89, 0x0d, 0xbf, 0xe6, 0x42, 0x68, 0x41, 0x99, 0x2d, 0x0f, 0xb0, 0x54, 0xbb, 0x16]

/-- Multiplication by `x` in GF(2^8) modulo `x^8 + x^4 + x^3 + x + 1`. -/
def aes_xtime (b : Nat) : Nat :=
  ((b <<< 1) ^^^ (if b &&& 0x80 ≠ 0 then 0x1b else 0)) &&& 0xff

/-- FIPS 197, `SubBytes`. -/
def aes_sub_bytes (st : List Nat) : List Nat :=
  st.map (fun b => aes_sbox.getD b 0)

/-- FIPS 197, `ShiftRows`: row `r` is rotated left by `r` columns. -/
def aes_shift_rows (st : List Nat) : List Nat :=
  (List.range 16).map (fun i => st.getD (i % 4 + 4 * ((i / 4 + i % 4) % 4)) 0)

/-- FIPS 197, `MixColumns`: each column is multiplied by the matrix
`02 03 01 01 / 01 02 03 01 / 01 01 02 03 / 03 01 01 02`. -/
def aes_mix_columns (st : List Nat) : List Nat :=
  (List.range 16).map (fun i =>
    let a := fun k => st.getD (4 * (i / 4) + (i % 4 + k) % 4) 0
    aes_xtime (a 0) ^^^ (aes_xtime (a 1) ^^^ a 1) ^^^ a 2 ^^^ a 3)

/-- FIPS 197, `AddRoundKey`. -/
def aes_add_round_key (st rk : List Nat) : List Nat :=
  List.zipWith (fun a b => a ^^^ b) st rk

/-- FIPS 197, the round constants of the key expansion. -/
def aes_rcon : List Nat := [0x01, 0x02, 0x04, 0x08, 0x10, 0x20, 0x40, 0x80, 0x1b, 0x36]

/-- FIPS 197, `KeyExpansion`: the next round key from the previous one. -/
def aes_next_key (rk : List Nat) (rc : Nat) : List Nat :=
  let t := [aes_sbox.getD (rk.getD 13 0) 0 ^^^ rc, aes_sbox.getD (rk.getD 14 0) 0,
            aes_sbox.getD (rk.getD 15 0) 0, aes_sbox.getD (rk.getD 12 0) 0]
  let w0 := List.zipWith (fun a b => a ^^^ b) (rk.take 4) t
  let w1 := List.zipWith (fun a b => a ^^^ b) ((rk.drop 4).take 4) w0
  let w2 := List.zipWith (fun a b => a ^^^ b) ((rk.drop 8).take 4) w1
  let w3 := List.zipWith (fun a b => a ^^^ b) ((rk.drop 12).take 4) w2
  w0 ++ w1 ++ w2 ++ w3

/-- FIPS 197, `Cipher`: the rounds, one per round constant; the last one has no
`MixColumns`. -/
def aes_rounds (st rk : List Nat) : List Nat → List Nat
  | [] => st
  | [rc] => aes_add_round_key (aes_shift_rows (aes_sub_bytes st)) (aes_next_key rk rc)
  | rc :: rcs =>
    aes_rounds
      (aes_add_round_key (aes_mix_columns (aes_shift_rows (aes_sub_bytes st)))
        (aes_next_key rk rc))
      (aes_next_key rk rc) rcs

/-- AES-128 encryption of one block, as a block function on byte lists: the result is
read as 16 bytes. -/
def aes128 (key plaintext : List Nat) : List Nat :=
  (List.range 16).map (fun i =>
    (aes_rounds (aes_add_round_key plaintext key) key aes_rcon).getD i 0 % 256)

/-- RFC 4493, section 4: the key of the test vectors. -/
def rfc4493_key : List Nat :=
  [0x2b, 0x7e, 0x15, 0x16, 0x28, 0xae, 0xd2, 0xa6, 0xab, 0xf7, 0x15, 0x88, 0x09, 0xcf, 0x4f, 0x3c]

/-- RFC 4493, section 4: the 64 message bytes of the test vectors (zero beyond). -/
def rfc4493_message (i : Nat) : Nat :=
  [0x6b, 0xc1, 0xbe, 0xe2, 0x2e, 0x40, 0x9f, 0x96, 0xe9, 0x3d, 0x7e, 0x11, 0x73, 0x93, 0x17, 0x2a,
   0xae, 0x2d, 0x8a, 0x57, 0x1e, 0x03, 0xac, 0x9c, 0x9e, 0xb7, 0x6f, 0xac, 0x45, 0xaf, 0x8e, 0x51,
   0x30, 0xc8, 0x1c, 0x46, 0xa3, 0x5c, 0xe4, 0x11, 0xe5, 0xfb, 0xc1, 0x19, 0x1a, 0x0a, 0x52, 0xef,
   0xf6, 0x9f, 0x24, 0x45, 0xdf, 0x4f, 0x9b, 0x17, 0xad, 0x2b, 0x41, 0x7b, 0xe6, 0x6c, 0x37,
   0x10].getD i 0

/-! ## Driving one CMAC computation -/

/-- The key and plaintext handed to `sm_aes128_start` for the last command sent. -/
def last_encryption (s : Core) : Option (List Nat × List Nat) :=
  match s.sent.getLast? with
  | some (.hci_le_encrypt k p) => some (reverse_128 k, reverse_128 p)
  | _ => none

/-- The engine after `sm_cmac_general_start`: each issued encryption `(key, plaintext)`
is answered with `E key plaintext` through `sm_cmac_handle_encryption_result`, followed
by `sm_cmac_handle_aes_engine_ready`, until the engine is idle again (at most `fuel`
answers). -/
def cmac_drive (E : List Nat → List Nat → List Nat)
    (btstack_crypto_cmac : btstack_crypto_aes128_cmac_t) (tag_message : Bool) :
    Nat → Core → Core
  | 0, s => s
  | fuel + 1, s =>
    match last_encryption s with
    | none => s
    | some (k, p) =>
      let s1 := sm_cmac_handle_encryption_result btstack_crypto_cmac tag_message (E k p) s
      if s1.sm_cmac_state = CMAC_IDLE then s1
      else cmac_drive E btstack_crypto_cmac tag_message fuel (sm_cmac_handle_aes_engine_ready s1)

/-- The engine between two encryptions, `i` blocks of the chain done. -/
def calc_inv (E : List Nat → List Nat → List Nat) (K : List Nat) (L : Nat) (m : Nat → Nat)
    (s : Core) (i : Nat) (t : Core) : Prop :=
  t.sm_cmac_state = (if i + 1 < rfc_n L then CMAC_CALC_MI else CMAC_CALC_MLAST) ∧
  t.sm_cmac_k = K ∧ t.sm_cmac_x = rfc_cbc E K m i ∧
  t.sm_cmac_m_last = rfc_m_last E K L m ∧
  t.sm_cmac_block_current = i ∧ t.sm_cmac_block_count = rfc_n L ∧
  t.sm_cmac_get_byte = m ∧ t.mem = s.mem ∧ t.fired = s.fired ∧
  t.btstack_crypto_operations = s.btstack_crypto_operations

/-- What a finished computation leaves behind. -/
def cmac_done (E : List Nat → List Nat → List Nat) (K : List Nat) (L : Nat) (m : Nat → Nat)
    (r : btstack_crypto_aes128_cmac_t) (tag : Bool) (s sf : Core) : Prop :=
  sf.sm_cmac_state = CMAC_IDLE ∧
  sf.mem = mem_write s.mem r.hash (rfc4493_cmac E K L m) 16 ∧
  sf.fired = s.fired ++ [if tag then .cmac_message r else .cmac_generator r] ∧
  sf.btstack_crypto_operations = s.btstack_crypto_operations.tail

/-! ## Calls from outside, one after the other -/

/-- One call into the file from outside: a submission or a packet for the event
handler, each with the transport's answer to `hci_can_send_command_packet_now`. -/
inductive Input
  | random_generate (request : btstack_crypto_random_t) (buffer size : Nat)
      (callback callback_arg : Nat) (can_send : Bool)
  | aes128_encrypt (request : btstack_crypto_aes128_t) (key plaintext ciphertext : Nat)
      (callback callback_arg : Nat) (can_send : Bool)
  | cmac_generator_temp (request : btstack_crypto_aes128_cmac_t) (key size : Nat)
      (get_byte_callback : Nat → Nat) (hash : Nat) (callback callback_arg : Nat)
      (can_send : Bool)
  | cmac_generator (request : btstack_crypto_aes128_cmac_t) (key size : Nat)
      (generator generator_arg : Nat) (hash : Nat) (callback callback_arg : Nat)
      (can_send : Bool)
  | cmac_message (request : btstack_crypto_aes128_cmac_t) (key size : Nat) (message : Nat)
      (hash : Nat) (callback callback_arg : Nat) (can_send : Bool)
  | event (packet_type : Nat) (hci_working : Bool) (packet : hci_packet) (can_send : Bool)

/-- The effect of one call. -/
def step : Input → Core → Core
  | .random_generate request buffer size callback callback_arg can_send, s =>
    btstack_crypto_random_generate request buffer size callback callback_arg can_send s
  | .aes128_encrypt request key plaintext ciphertext callback callback_arg can_send, s =>
    btstack_crypto_aes128_encrypt request key plaintext ciphertext callback callback_arg
      can_send s
  | .cmac_generator_temp request key size get_byte_callback hash callback callback_arg
      can_send, s =>
    btstack_crypto_aes128_cmac_generator_temp request key size get_byte_callback hash callback
      callback_arg can_send s
  | .cmac_generator request key size generator generator_arg hash callback callback_arg
      can_send, s =>
    btstack_crypto_aes128_cmac_generator request key size generator generator_arg hash callback
      callback_arg can_send s
  | .cmac_message request key size message hash callback callback_arg can_send, s =>
    btstack_crypto_aes128_cmac_message request key size message hash callback callback_arg
      can_send s
  | .event packet_type hci_working packet can_send, s =>
    btstack_crypto_event_handler packet_type hci_working packet can_send s

/-- The state after a sequence of calls. -/
def exec (inputs : List Input) (s : Core) : Core :=
  inputs.foldl (fun t i => step i t) s

/-- The address of the record a call submits (none for a packet). -/
def Input.submitted : Input → List Nat
  | .random_generate request _ _ _ _ _ => [request.btstack_crypto.item]
  | .aes128_encrypt request _ _ _ _ _ _ => [request.btstack_crypto.item]
  | .cmac_generator_temp request _ _ _ _ _ _ _ => [request.btstack_crypto.item]
  | .cmac_generator request _ _ _ _ _ _ _ _ => [request.btstack_crypto.item]
  | .cmac_message request _ _ _ _ _ _ _ => [request.btstack_crypto.item]
  | .event _ _ _ _ => []

/-- The addresses of the submitted records, in submission order. -/
def submissions : List Input → List Nat
  | [] => []
  | i :: is => i.submitted ++ submissions is

/-- Whether a call delivers a completion event that the handler takes up: an event
packet, the transport working, a command complete event of one of the two commands. -/
def Input.completion : Input → Bool
  | .event packet_type hci_working (.le_encrypt_complete _) _ =>
    packet_type == HCI_EVENT_PACKET && hci_working
  | .event packet_type hci_working (.le_rand_complete _) _ =>
    packet_type == HCI_EVENT_PACKET && hci_working
  | _ => false

/-- The number of completion events handled in a sequence of calls. -/
def completions : List Input → Nat
  | [] => 0
  | i :: is => (if i.completion then 1 else 0) + completions is

/-- Every completion event of the sequence answers a command: when it is delivered, in
the state reached from `s` with `handled` events handled before, more commands have been
sent than events handled. -/
def answers_commands : List Input → Core → Nat → Prop
  | [], _, _ => True
  | i :: is, s, handled =>
    (i.completion = true → handled < s.sent.length) ∧
      answers_commands is (step i s) (handled + (if i.completion then 1 else 0))

/-- A call of the engine or of the dispatcher sends nothing, or sends one command and
sets the flag. -/
def sends_at_most_one (s t : Core) : Prop :=
  t.sent = s.sent ∨
    (∃ cmd, t.sent = s.sent ++ [cmd]) ∧ t.btstack_crypto_wait_for_hci_result = true

/-! ## Relations between states, used in the theorems -/

/-- From `s` to `t` at most one record left the list, from its head, and exactly the
records that left had their callback fired (a record may have been updated in place). -/
def pops (s t : Core) : Prop :=
  ∃ popped : List Request, popped.length ≤ 1 ∧ t.fired = s.fired ++ popped ∧
    popped.map Request.addr ++ t.btstack_crypto_operations.map Request.addr
      = s.btstack_crypto_operations.map Request.addr

/-- With `handled` completion events handled so far, every command sent has been
answered, except one when the flag is set. -/
def outstanding_bound (s : Core) (handled : Nat) : Prop :=
  s.sent.length ≤ handled + (if s.btstack_crypto_wait_for_hci_result then 1 else 0)

/-- A request for 10 random bytes at address 100, then the two random events that
answer its two commands. -/
def example_random_trace : List Input :=
  [.random_generate { btstack_crypto := { item := 1, callback := 0, context := 0 },
                      buffer := 0, size := 0 } 100 10 7 8 true,
   .event HCI_EVENT_PACKET true (.le_rand_complete [1, 2, 3, 4, 5, 6, 7, 8]) true,
   .event HCI_EVENT_PACKET true (.le_rand_complete [9, 10, 11, 12, 13, 14, 15, 16]) true]

/-- The three phases in which the engine waits for a result. -/
def is_w4 : cmac_state_t → Bool
  | CMAC_W4_SUBKEYS => true
  | CMAC_W4_MI => true
  | CMAC_W4_MLAST => true
  | _ => false

/-- The head of the list is a CMAC request. -/
def head_is_cmac (s : Core) : Bool :=
  match s.btstack_crypto_operations with
  | .cmac_generator _ :: _ => true
  | .cmac_message _ :: _ => true
  | _ => false

/-- A CMAC request record for the examples. -/
def example_cmac_request : btstack_crypto_aes128_cmac_t :=
  { btstack_crypto := { item := 1, callback := 2, context := 3 }, key := 0, size := 16,
    get_byte_callback := fun i => i, generator := 0, generator_arg := 0, hash := 100 }

/-! ## Random events for one request -/

/-- The first `n` event payloads, one after the other: `p 0 ++ p 1 ++ ... ++ p (n-1)`. -/
def payloads (p : Nat → List Nat) : Nat → List Nat
  | 0 => []
  | n + 1 => payloads p n ++ p n

/-- Byte `i` of the payloads of 8 bytes each, laid end to end. -/
def payload_byte (p : Nat → List Nat) (i : Nat) : Nat := (p (i / 8)).getD (i % 8) 0

/-- The dispatcher is called with the transport ready, then `k` random events with the
payloads `p 0`, ..., `p (k-1)` are delivered to the event handler, the transport always
ready. -/
def random_events (p : Nat → List Nat) : Nat → Core → Core
  | 0, s => btstack_crypto_run true s
  | k + 1, s =>
    btstack_crypto_event_handler HCI_EVENT_PACKET true (.le_rand_complete (p k)) true
      (random_events p k s)

/-- The state while a Random request of `N` bytes is being served, `j` events handled and
more bytes still to come. -/
def random_inv (p : Nat → List Nat) (s : Core) (r : btstack_crypto_random_t)
    (rest : List Request) (j : Nat) (t : Core) : Prop :=
  t.btstack_crypto_operations
      = .random { r with buffer := r.buffer + 8 * j, size := r.size - 8 * j } :: rest ∧
    t.fired = s.fired ∧
    t.sent = s.sent ++ List.replicate (j + 1) hci_cmd.hci_le_rand ∧
    t.btstack_crypto_wait_for_hci_result = true ∧
    (∀ i, i < 8 * j → t.mem (r.buffer + i) = payload_byte p i) ∧
    (∀ a, a < r.buffer ∨ r.buffer + 8 * j ≤ a → t.mem a = s.mem a)

/-! ## Events no request takes up, and initialisation -/

/-- A completion event that finds no request of its kind at the head of the list: a
random event with the list empty or an AES128 or CMAC request at the head, or a
block-encrypted event with the list empty or a Random request at the head. -/
def event_unmatched (packet : hci_packet) (s : Core) : Prop :=
  match packet with
  | .le_rand_complete _ => ∀ r rest, s.btstack_crypto_operations ≠ .random r :: rest
  | .le_encrypt_complete _ =>
    s.btstack_crypto_operations = [] ∨ ∃ r rest, s.btstack_crypto_operations = .random r :: rest
  | .other => False

/-- An AES128 request record for the examples: key at 0, plaintext at 16, ciphertext
at 32. -/
def example_aes128_request : btstack_crypto_aes128_t :=
  { btstack_crypto := { item := 1, callback := 2, context := 3 },
    key := 0, plaintext := 16, ciphertext := 32 }

/-- Modelled from the spec: the transport delivers an event by invoking every registered
handler once (`hci.c` is not part of the sources); the only handler this file registers
is `btstack_crypto_event_handler`, `hci_event_handlers` times. -/
def hci_emit_event (packet_type : Nat) (hci_working : Bool) (packet : hci_packet)
    (can_send : Bool) (s : Core) : Core :=
  Nat.iterate (btstack_crypto_event_handler packet_type hci_working packet can_send)
    s.hci_event_handlers s

/-! ## The commands of one CMAC computation -/

/-- The command `sm_aes128_start key plaintext` sends (source lines 88-92). -/
def aes128_cmd (key plaintext : List Nat) : hci_cmd :=
  .hci_le_encrypt (reverse_128 key) (reverse_128 plaintext)

/-- The command for block `i` of the chain: key `K`, plaintext `X XOR block_i`, `X` the
chaining value after `i` blocks. -/
def cmac_block_cmd (E : List Nat → List Nat → List Nat) (K : List Nat) (m : Nat → Nat)
    (i : Nat) : hci_cmd :=
  aes128_cmd K (xor_block (rfc_cbc E K m i) (rfc_block m i))

/-- The command for the last block: key `K`, plaintext `X XOR M_last`, `X` the chaining
value after `n - 1` blocks. -/
def cmac_last_cmd (E : List Nat → List Nat → List Nat) (K : List Nat) (L : Nat)
    (m : Nat → Nat) : hci_cmd :=
  aes128_cmd K (xor_block (rfc_cbc E K m (rfc_n L - 1)) (rfc_m_last E K L m))

/-! ## The offsets handed to the byte source -/

/-- The arguments of the calls `sm_cmac_get_byte(...)` that
`sm_cmac_handle_aes_engine_ready` makes in state `s`, in call order (source line 108;
the other phases make no call). -/
def sm_cmac_get_byte_offsets_ready (s : Core) : List Nat :=
  match s.sm_cmac_state with
  | CMAC_CALC_MI =>
    (List.range 16).map (fun j => (s.sm_cmac_block_current * 16 + j) % 65536)
  | _ => []

/-- The arguments of the calls `sm_cmac_get_byte(...)` that
`sm_cmac_handle_encryption_result` makes in state `s`, in call order (source lines 167
and 173; the other phases make no call). -/
def sm_cmac_get_byte_offsets_result (s : Core) : List Nat :=
  match s.sm_cmac_state with
  | CMAC_W4_SUBKEYS =>
    if sm_cmac_last_block_complete s then
      (List.range 16).map (fun i => (s.sm_cmac_message_len - 16 + i) % 65536)
    else
      ((List.range 16).filter (fun i => decide (i < s.sm_cmac_message_len &&& 0x0f))).map
        (fun i => ((s.sm_cmac_message_len &&& 0xfff0) + i) % 65536)
  | _ => []

/-- The arguments of all calls of the byte source during `cmac_drive`, in call order. -/
def cmac_drive_offsets (E : List Nat → List Nat → List Nat)
    (btstack_crypto_cmac : btstack_crypto_aes128_cmac_t) (tag_message : Bool) :
    Nat → Core → List Nat
  | 0, _ => []
  | fuel + 1, s =>
    match last_encryption s with
    | none => []
    | some (k, p) =>
      let s1 := sm_cmac_handle_encryption_result btstack_crypto_cmac tag_message (E k p) s
      sm_cmac_get_byte_offsets_result s ++
        (if s1.sm_cmac_state = CMAC_IDLE then []
         else sm_cmac_get_byte_offsets_ready s1 ++
           cmac_drive_offsets E btstack_crypto_cmac tag_message fuel
             (sm_cmac_handle_aes_engine_ready s1))

/-- What the offsets of a computation of length `L` rest on: the stored length, a block
count with `16 * (count - 1) <= L`, and in phase `CMAC_CALC_MI` a block still to come
before the last. -/
def offsets_inv (L : Nat) (t : Core) : Prop :=
  t.sm_cmac_message_len = L ∧ 16 * (t.sm_cmac_block_count - 1) ≤ L ∧
    (t.sm_cmac_state = CMAC_CALC_MI → t.sm_cmac_block_current + 1 < t.sm_cmac_block_count)

/-! ## Completion events that answer the pending command -/

/-- The last command sent is an `hci_le_encrypt`. -/
def last_is_encrypt (s : Core) : Bool :=
  match s.sent.getLast? with
  | some (.hci_le_encrypt _ _) => true
  | _ => false

/-- The last command sent is an `hci_le_rand`. -/
def last_is_rand (s : Core) : Bool :=
  match s.sent.getLast? with
  | some .hci_le_rand => true
  | _ => false

/-- A call that delivers a completion event to the handler delivers the answer of the one
pending command: with `handled` events handled before, exactly one command more has been
sent, and the last command sent is of the kind the event completes. Every other call is
free. -/
def Input.answers (i : Input) (s : Core) (handled : Nat) : Prop :=
  match i with
  | .event packet_type hci_working (.le_encrypt_complete _) _ =>
    (packet_type == HCI_EVENT_PACKET && hci_working) = true →
      handled + 1 = s.sent.length ∧ last_is_encrypt s = true
  | .event packet_type hci_working (.le_rand_complete _) _ =>
    (packet_type == HCI_EVENT_PACKET && hci_working) = true →
      handled + 1 = s.sent.length ∧ last_is_rand s = true
  | _ => True

/-- Every completion event of the sequence answers the one pending command. -/
def answers_pending : List Input → Core → Nat → Prop
  | [], _, _ => True
  | i :: is, s, handled =>
    i.answers s handled ∧
      answers_pending is (step i s) (handled + (if i.completion then 1 else 0))

/-- With the flag set, the pending command is the one the head request needs: an
`hci_le_rand` for a Random request, an `hci_le_encrypt` for an AES128 request, both with
the engine idle, and an `hci_le_encrypt` with the engine in a W4 phase for a CMAC
request. -/
def pending_matches (s : Core) : Prop :=
  match s.btstack_crypto_operations with
  | [] => False
  | .random _ :: _ => last_is_rand s = true ∧ s.sm_cmac_state = CMAC_IDLE
  | .aes128 _ :: _ => last_is_encrypt s = true ∧ s.sm_cmac_state = CMAC_IDLE
  | .cmac_generator _ :: _ => last_is_encrypt s = true ∧ is_w4 s.sm_cmac_state = true
  | .cmac_message _ :: _ => last_is_encrypt s = true ∧ is_w4 s.sm_cmac_state = true

/-- Flag, phase and head of the list fit together. -/
def phase_inv (s : Core) : Prop :=
  (s.btstack_crypto_wait_for_hci_result = true → pending_matches s) ∧
    (s.btstack_crypto_wait_for_hci_result = false →
      s.sm_cmac_state = CMAC_IDLE ∨ s.sm_cmac_state = CMAC_CALC_MI ∨
        s.sm_cmac_state = CMAC_CALC_MLAST) ∧
    (s.sm_cmac_state ≠ CMAC_IDLE → head_is_cmac s = true)

/-- A CMAC request of 16 bytes submitted with the transport ready, then the answer to
its first command delivered while the transport cannot accept a command. -/
def example_cmac_trace : List Input :=
  [.cmac_generator_temp example_cmac_request 0 16 (fun i => i) 100 2 3 true,
   .event HCI_EVENT_PACKET true (.le_encrypt_complete (List.replicate 16 7)) false]

/-- Whether a call delivers a block-encrypted event that the handler takes up. -/
def Input.encrypt_completion : Input → Bool
  | .event packet_type hci_working (.le_encrypt_complete _) _ =>
    packet_type == HCI_EVENT_PACKET && hci_working
  | _ => false

/-- The number of block-encrypted events handled in a sequence of calls. -/
def encrypt_completions : List Input → Nat
  | [] => 0
  | i :: is => (if i.encrypt_completion then 1 else 0) + encrypt_completions is

/-- An AES128 request submitted with the transport ready, then a random-bytes event. -/
def example_unanswered_trace : List Input :=
  [.aes128_encrypt example_aes128_request 0 16 32 2 3 true,
   .event HCI_EVENT_PACKET true (.le_rand_complete [1, 2, 3, 4, 5, 6, 7, 8]) true]

/-! # Theorems -/

/-! ## Big-endian reading of byte arrays -/

theorem be_bytes_length (n v : Nat) : (be_bytes n v).length = n := by
  induction n with
  | zero => rfl
  | succ n ih => simp [be_bytes, ih]

theorem be_bytes_is_bytes (n v : Nat) : is_bytes (be_bytes n v) := by
  induction n with
  | zero => intro b hb; simp [be_bytes] at hb
  | succ n ih =>
    intro b hb
    simp only [be_bytes, List.mem_cons] at hb
    rcases hb with rfl | hb
    · exact Nat.mod_lt _ (by norm_num)
    · exact ih b hb

theorem be_value_be_bytes (n v : Nat) : be_value (be_bytes n v) = v % 256 ^ n := by
  induction n with
  | zero => simp [be_bytes, be_value, Nat.mod_one]
  | succ n ih =>
    simp only [be_bytes, be_value, be_bytes_length, ih]
    rw [Nat.mod_pow_succ]
    ring

theorem be_value_lt (l : List Nat) (h : is_bytes l) : be_value l < 256 ^ l.length := by
  induction l with
  | nil => simp [be_value]
  | cons d ds ih =>
    have hd : d < 256 := h d (List.mem_cons_self _ _)
    have hds : be_value ds < 256 ^ ds.length := ih (fun b hb => h b (List.mem_cons_of_mem _ hb))
    simp only [be_value, List.length_cons, pow_succ]
    have hpos : 0 < 256 ^ ds.length := pow_pos (by norm_num) _
    nlinarith [hpos]

theorem be_value_inj (l1 l2 : List Nat) (hlen : l1.length = l2.length)
    (h1 : is_bytes l1) (h2 : is_bytes l2) (hv : be_value l1 = be_value l2) : l1 = l2 := by
  induction l1 generalizing l2 with
  | nil =>
    cases l2 with
    | nil => rfl
    | cons _ _ => simp at hlen
  | cons d ds ih =>
    cases l2 with
    | nil => simp at hlen
    | cons e es =>
      have hl : ds.length = es.length := by simpa using hlen
      have b1 := be_value_lt ds (fun b hb => h1 b (List.mem_cons_of_mem _ hb))
      have b2 := be_value_lt es (fun b hb => h2 b (List.mem_cons_of_mem _ hb))
      simp only [be_value] at hv
      rw [hl] at hv b1
      have hpos : 0 < 256 ^ es.length := pow_pos (by norm_num) _
      have hde : d = e := by
        have e1 : (d * 256 ^ es.length + be_value ds) / 256 ^ es.length = d := by
          rw [Nat.add_comm, Nat.add_mul_div_right _ _ hpos, Nat.div_eq_of_lt b1]; simp
        have e2 : (e * 256 ^ es.length + be_value es) / 256 ^ es.length = e := by
          rw [Nat.add_comm, Nat.add_mul_div_right _ _ hpos, Nat.div_eq_of_lt b2]; simp
        rw [← e1, ← e2, hv]
      subst hde
      have hvs : be_value ds = be_value es := by omega
      rw [ih es hl (fun b hb => h1 b (List.mem_cons_of_mem _ hb))
        (fun b hb => h2 b (List.mem_cons_of_mem _ hb)) hvs]

/-! ## The one-bit shift -/

theorem shift_byte (d c : Nat) (hd : d < 256) (hc : c ≤ 1) :
    (d <<< 1 ||| c) % 256 + 256 * (d >>> 7) = 2 * d + c ∧ (d <<< 1 ||| c) % 256 < 256
      ∧ d >>> 7 ≤ 1 := by
  have h1 : d <<< 1 ||| c = 2 * d + c := by
    have := Nat.mul_add_lt_is_or (i := 1) (b := c) (by omega) d
    simp only [pow_one] at this
    rw [Nat.shiftLeft_eq, pow_one, Nat.mul_comm d 2, ← this]
  have h2 : d >>> 7 = d / 128 := by rw [Nat.shiftRight_eq_div_pow]
  rw [h1, h2]
  omega

theorem shift_loop_spec (l : List Nat) (h : is_bytes l) :
    (shift_loop l).2.length = l.length ∧ is_bytes (shift_loop l).2 ∧ (shift_loop l).1 ≤ 1 ∧
      be_value (shift_loop l).2 + (shift_loop l).1 * 256 ^ l.length = 2 * be_value l := by
  induction l with
  | nil => simp [shift_loop, be_value, is_bytes]
  | cons d ds ih =>
    have hd : d < 256 := h d (List.mem_cons_self _ _)
    obtain ⟨hlen, hb, hc, hv⟩ := ih (fun b hb => h b (List.mem_cons_of_mem _ hb))
    obtain ⟨e1, e2, e3⟩ := shift_byte d (shift_loop ds).1 hd hc
    refine ⟨by simp [shift_loop, hlen], ?_, by simpa [shift_loop] using e3, ?_⟩
    · intro b hb0
      simp only [shift_loop, List.mem_cons] at hb0
      rcases hb0 with rfl | hb0
      · exact e2
      · exact hb b hb0
    · simp only [shift_loop, be_value, hlen, List.length_cons, pow_succ]
      have hmul : ((d <<< 1 ||| (shift_loop ds).1) % 256 + 256 * (d >>> 7)) * 256 ^ ds.length
          = (2 * d + (shift_loop ds).1) * 256 ^ ds.length := by rw [e1]
      nlinarith [hmul, hv]

theorem add_xor_low (a x c k : Nat) (hx : x < 2 ^ k) (hc : c < 2 ^ k) :
    2 ^ k * a + (x ^^^ c) = (2 ^ k * a + x) ^^^ c := by
  apply Nat.eq_of_testBit_eq
  intro j
  rw [Nat.testBit_xor, Nat.testBit_mul_pow_two_add a (Nat.xor_lt_two_pow hx hc),
    Nat.testBit_mul_pow_two_add a hx]
  by_cases hj : j < k
  · simp [hj]
  · have hcj : c.testBit j = false := by
      apply Nat.testBit_lt_two_pow
      exact lt_of_lt_of_le hc (Nat.pow_le_pow_right (by norm_num) (by omega))
    simp [hj, hcj]

theorem be_value_set_last (l : List Nat) (n c : Nat) (hlen : l.length = n + 1)
    (h : is_bytes l) (hc : c < 256) :
    be_value (l.set n (l.getD n 0 ^^^ c)) = be_value l ^^^ c := by
  induction l generalizing n with
  | nil => simp at hlen
  | cons d ds ih =>
    cases n with
    | zero =>
      have hds : ds = [] := by
        cases ds with
        | nil => rfl
        | cons _ _ => simp at hlen
      subst hds
      simp [be_value]
    | succ m =>
      have hl : ds.length = m + 1 := by simpa using hlen
      have hds : is_bytes ds := fun b hb => h b (List.mem_cons_of_mem _ hb)
      have hx := be_value_lt ds hds
      have e := ih m hl hds
      simp only [List.set_cons_succ, List.getD_cons_succ, be_value, List.length_set, e]
      have hp : (256 : Nat) ^ ds.length = 2 ^ (8 * ds.length) := by
        rw [show (256 : Nat) = 2 ^ 8 by norm_num, ← pow_mul]
      rw [hp] at hx ⊢
      have hc2 : c < 2 ^ (8 * ds.length) :=
        lt_of_lt_of_le hc (by
          rw [show (256 : Nat) = 2 ^ 8 by norm_num]
          exact Nat.pow_le_pow_right (by norm_num) (by omega))
      rw [Nat.mul_comm d, add_xor_low d (be_value ds) c _ hx hc2]

theorem is_bytes_set (l : List Nat) (n v : Nat) (h : is_bytes l) (hv : v < 256) :
    is_bytes (l.set n v) := by
  intro b hb
  rcases List.mem_or_eq_of_mem_set hb with hb | rfl
  · exact h b hb
  · exact hv

set_option maxRecDepth 100000 in
theorem and_0x80_all : ∀ d < 256, ((d &&& 0x80 ≠ 0) ↔ d >>> 7 = 1) := by decide

theorem and_0x80 (d : Nat) (hd : d < 256) : (d &&& 0x80 ≠ 0) ↔ d >>> 7 = 1 :=
  and_0x80_all d hd

theorem shift_loop_carry (l : List Nat) : (shift_loop l).1 = l.getD 0 0 >>> 7 := by
  cases l with
  | nil => simp [shift_loop]
  | cons d ds => simp [shift_loop]

/-- The subkey step of the source computes the RFC 4493 doubling on 16-byte blocks. -/
theorem sm_cmac_subkey_spec (data : List Nat) (hlen : data.length = 16) (h : is_bytes data) :
    (sm_cmac_subkey data).length = 16 ∧ is_bytes (sm_cmac_subkey data) ∧
      be_value (sm_cmac_subkey data) = rfc_double (be_value data) := by
  obtain ⟨hl, hb, hc, hv⟩ := shift_loop_spec data h
  have hlt := be_value_lt _ hb
  rw [hl, hlen] at hlt
  rw [hlen] at hv
  have htake : data.take 16 = data := by rw [← hlen]; exact List.take_length _
  have hk : sm_shift_left_by_one_bit_inplace 16 (data.take 16) = (shift_loop data).2 := by
    simp [sm_shift_left_by_one_bit_inplace, htake, hlen]
  have hd0 : data.getD 0 0 < 256 := by
    cases data with
    | nil => simp
    | cons d ds => simpa using h d (List.mem_cons_self _ _)
  have hcarry := shift_loop_carry data
  have hmsb := and_0x80 _ hd0
  have hdl := be_value_lt data h
  rw [hlen] at hdl
  unfold sm_cmac_subkey
  simp only [hk]
  by_cases hm : data.getD 0 0 &&& 0x80 ≠ 0
  · have hc1 : (shift_loop data).1 = 1 := by rw [hcarry]; exact hmsb.mp hm
    rw [if_pos hm]
    refine ⟨by simp [hl, hlen], ?_, ?_⟩
    · apply is_bytes_set _ _ _ hb
      have hx : (shift_loop data).2.getD 15 0 < 2 ^ 8 := by
        rw [List.getD_eq_getElem _ _ (by rw [hl, hlen]; norm_num)]
        exact hb _ (List.getElem_mem _)
      exact Nat.xor_lt_two_pow hx (by norm_num)
    · rw [be_value_set_last _ 15 0x87 (by rw [hl, hlen]) hb (by norm_num)]
      unfold rfc_double
      have h127 : 2 ^ 127 ≤ be_value data := by rw [hc1] at hv; omega
      rw [if_pos h127]
      congr 1
      rw [hc1] at hv
      omega
  · have hc0 : (shift_loop data).1 = 0 := by
      have : ¬ ((shift_loop data).1 = 1) := by rw [hcarry]; exact fun e => hm (hmsb.mpr e)
      omega
    rw [if_neg hm]
    refine ⟨by rw [hl, hlen], hb, ?_⟩
    unfold rfc_double
    rw [hc0] at hv
    have h127 : ¬ (2 ^ 127 ≤ be_value data) := by omega
    rw [if_neg h127, Nat.xor_zero]
    omega

theorem land_0x0f (L : Nat) : L &&& 0x0f = L % 16 := by
  have := Nat.and_pow_two_sub_one_eq_mod L 4
  simpa using this

theorem land_0xfff0 (L : Nat) (hL : L < 65536) : L &&& 0xfff0 = L - L % 16 := by
  have h1 : L &&& 0xffff = L :=
    Nat.and_pow_two_sub_one_of_lt_two_pow (n := 16) (by simpa using hL)
  have h2 : (0xfff0 : Nat) = 0xffff ^^^ 0x0f := by decide
  rw [h2, Nat.and_xor_distrib_left, h1, land_0x0f]
  have h3 : L = 2 ^ 4 * (L / 16) + L % 16 := by omega
  have h4 := add_xor_low (L / 16) (L % 16) (L % 16) 4 (by omega) (by omega)
  rw [Nat.xor_self] at h4
  rw [← h3] at h4
  rw [← h4]
  omega

/-! ## Block count -/

theorem sm_cmac_general_start_block_count (key : List Nat) (L : Nat) (m : Nat → Nat)
    (s : Core) :
    (sm_cmac_general_start key L m s).sm_cmac_block_count =
      if ((L + 15) / 16) % 256 = 0 then 1 else ((L + 15) / 16) % 256 := by
  simp [sm_cmac_general_start, sm_cmac_handle_aes_engine_ready, sm_aes128_start, hci_send_cmd]

theorem sm_cmac_general_start_block_count_small (key : List Nat) (L : Nat) (m : Nat → Nat)
    (s : Core) (hL : L ≤ 4080) :
    (sm_cmac_general_start key L m s).sm_cmac_block_count = max 1 ((L + 15) / 16) := by
  rw [sm_cmac_general_start_block_count]
  split <;> omega

/-- C2 (the code at a failing input): for the message length 4081 the API accepts,
`sm_cmac_general_start` leaves `sm_cmac_block_count = 1`, while
`max(1, ceil(4081/16)) = 256`: the count is stored in eight bits. -/
theorem C2_block_count_wraps (key : List Nat) (m : Nat → Nat) (s : Core) :
    (sm_cmac_general_start key 4081 m s).sm_cmac_block_count = 1 ∧
      max 1 ((4081 + 15) / 16) = 256 ∧ 4081 ≤ 65535 := by
  rw [sm_cmac_general_start_block_count]
  decide

/-! ## Subkeys and the last block -/

/-- C3: for every 16-byte block `data` received in phase `CMAC_W4_SUBKEYS`, the subkeys
from which `sm_cmac_handle_encryption_result` builds `sm_cmac_m_last` are the RFC 4493
doublings: read as 128-bit big-endian integers, `K1 = (2*L mod 2^128) XOR (0x87 if
L >= 2^127)` and `K2` is the same doubling of `K1`; both are 16 bytes. For
`L = 7df76b0c1ab899b33e42f047b91b546f` they are
`fbeed618357133667c85e08f7236a8de` and `f7ddac306ae266ccf90bc11ee46d513b`. -/
theorem C3_subkeys_are_rfc4493_doublings :
    (∀ (btstack_crypto_cmac : btstack_crypto_aes128_cmac_t) (tag_message : Bool)
        (data : List Nat) (s : Core),
        data.length = 16 → is_bytes data → s.sm_cmac_state = CMAC_W4_SUBKEYS →
        ∃ k1 k2 : List Nat,
          (sm_cmac_handle_encryption_result btstack_crypto_cmac tag_message data s).sm_cmac_m_last
              = sm_cmac_calc_m_last k1 k2 s ∧
          k1 = sm_cmac_subkey data ∧ k2 = sm_cmac_subkey k1 ∧
          k1.length = 16 ∧ is_bytes k1 ∧ k2.length = 16 ∧ is_bytes k2 ∧
          be_value k1 = (2 * be_value data % 2 ^ 128)
              ^^^ (if 2 ^ 127 ≤ be_value data then 0x87 else 0) ∧
          be_value k2 = (2 * be_value k1 % 2 ^ 128)
              ^^^ (if 2 ^ 127 ≤ be_value k1 then 0x87 else 0)) ∧
    sm_cmac_subkey [0x7d, 0xf7, 0x6b, 0x0c, 0x1a, 0xb8, 0x99, 0xb3,
                    0x3e, 0x42, 0xf0, 0x47, 0xb9, 0x1b, 0x54, 0x6f]
      = [0xfb, 0xee, 0xd6, 0x18, 0x35, 0x71, 0x33, 0x66,
         0x7c, 0x85, 0xe0, 0x8f, 0x72, 0x36, 0xa8, 0xde] ∧
    sm_cmac_subkey [0xfb, 0xee, 0xd6, 0x18, 0x35, 0x71, 0x33, 0x66,
                    0x7c, 0x85, 0xe0, 0x8f, 0x72, 0x36, 0xa8, 0xde]
      = [0xf7, 0xdd, 0xac, 0x30, 0x6a, 0xe2, 0x66, 0xcc,
         0xf9, 0x0b, 0xc1, 0x1e, 0xe4, 0x6d, 0x51, 0x3b] := by
  refine ⟨?_, by decide, by decide⟩
  intro r t data s hlen hb hst
  obtain ⟨l1, b1, v1⟩ := sm_cmac_subkey_spec data hlen hb
  obtain ⟨l2, b2, v2⟩ := sm_cmac_subkey_spec (sm_cmac_subkey data) l1 b1
  refine ⟨sm_cmac_subkey data, sm_cmac_subkey (sm_cmac_subkey data), ?_, rfl, rfl, l1, b1,
    l2, b2, v1, v2⟩
  simp [sm_cmac_handle_encryption_result, hst]

/-- Witness of C3 at the block `7df76b0c1ab899b33e42f047b91b546f`. -/
theorem C3_subkeys_witness :
    ∃ k1 k2 : List Nat,
      (sm_cmac_handle_encryption_result
          { btstack_crypto := { item := 1, callback := 2, context := 3 }, key := 0, size := 0,
            get_byte_callback := fun _ => 0, generator := 0, generator_arg := 0, hash := 16 }
          false
          [0x7d, 0xf7, 0x6b, 0x0c, 0x1a, 0xb8, 0x99, 0xb3,
           0x3e, 0x42, 0xf0, 0x47, 0xb9, 0x1b, 0x54, 0x6f]
          { core_init with sm_cmac_state := CMAC_W4_SUBKEYS }).sm_cmac_m_last
        = sm_cmac_calc_m_last k1 k2 { core_init with sm_cmac_state := CMAC_W4_SUBKEYS } ∧
      k1 = sm_cmac_subkey [0x7d, 0xf7, 0x6b, 0x0c, 0x1a, 0xb8, 0x99, 0xb3,
                           0x3e, 0x42, 0xf0, 0x47, 0xb9, 0x1b, 0x54, 0x6f] ∧
      k2 = sm_cmac_subkey k1 ∧
      k1.length = 16 ∧ is_bytes k1 ∧ k2.length = 16 ∧ is_bytes k2 ∧
      be_value k1 = (2 * be_value [0x7d, 0xf7, 0x6b, 0x0c, 0x1a, 0xb8, 0x99, 0xb3,
                                   0x3e, 0x42, 0xf0, 0x47, 0xb9, 0x1b, 0x54, 0x6f] % 2 ^ 128)
          ^^^ (if 2 ^ 127 ≤ be_value [0x7d, 0xf7, 0x6b, 0x0c, 0x1a, 0xb8, 0x99, 0xb3,
                                      0x3e, 0x42, 0xf0, 0x47, 0xb9, 0x1b, 0x54, 0x6f]
               then 0x87 else 0) ∧
      be_value k2 = (2 * be_value k1 % 2 ^ 128)
          ^^^ (if 2 ^ 127 ≤ be_value k1 then 0x87 else 0) :=
  C3_subkeys_are_rfc4493_doublings.1 _ false _ _ (by decide) (by unfold is_bytes; decide) rfl

/-- C4: in phase `CMAC_W4_SUBKEYS`, for message length `L` (16 bits), byte source `m` and
the subkeys `K1`, `K2` of the received block, the stored `sm_cmac_m_last` has, at each
index `i` of 0..15: `m(L-16+i) XOR K1[i]` when `L > 0` and `L mod 16 = 0`; otherwise, with
`v = L mod 16`, `m(L-v+i) XOR K2[i]` for `i < v`, `0x80 XOR K2[i]` for `i = v` and `K2[i]`
for `i > v`. For `L = 0` it is `K2` with `0x80` XORed into byte 0, whatever `m` is. -/
theorem C4_m_last (btstack_crypto_cmac : btstack_crypto_aes128_cmac_t) (tag_message : Bool)
    (data : List Nat) (s : Core)
    (hstate : s.sm_cmac_state = CMAC_W4_SUBKEYS) (hL : s.sm_cmac_message_len < 65536) :
    (sm_cmac_handle_encryption_result btstack_crypto_cmac tag_message data s).sm_cmac_m_last =
      (List.range 16).map (fun i =>
        if 0 < s.sm_cmac_message_len ∧ s.sm_cmac_message_len % 16 = 0 then
          s.sm_cmac_get_byte (s.sm_cmac_message_len - 16 + i) ^^^ (sm_cmac_subkey data).getD i 0
        else if i < s.sm_cmac_message_len % 16 then
          s.sm_cmac_get_byte (s.sm_cmac_message_len - s.sm_cmac_message_len % 16 + i)
            ^^^ (sm_cmac_subkey (sm_cmac_subkey data)).getD i 0
        else if i = s.sm_cmac_message_len % 16 then
          0x80 ^^^ (sm_cmac_subkey (sm_cmac_subkey data)).getD i 0
        else (sm_cmac_subkey (sm_cmac_subkey data)).getD i 0) ∧
    (s.sm_cmac_message_len = 0 →
      (sm_cmac_handle_encryption_result btstack_crypto_cmac tag_message data s).sm_cmac_m_last =
        (List.range 16).map (fun i =>
          if i = 0 then 0x80 ^^^ (sm_cmac_subkey (sm_cmac_subkey data)).getD i 0
          else (sm_cmac_subkey (sm_cmac_subkey data)).getD i 0)) := by
  have hm : (sm_cmac_handle_encryption_result btstack_crypto_cmac tag_message data s).sm_cmac_m_last
      = sm_cmac_calc_m_last (sm_cmac_subkey data) (sm_cmac_subkey (sm_cmac_subkey data)) s := by
    simp [sm_cmac_handle_encryption_result, hstate]
  rw [hm]
  constructor
  · unfold sm_cmac_calc_m_last sm_cmac_last_block_complete
    simp only [land_0x0f, land_0xfff0 _ hL]
    by_cases h0 : s.sm_cmac_message_len = 0
    · simp [h0]
    · by_cases h16 : s.sm_cmac_message_len % 16 = 0
      · simp only [h0, h16, if_false, beq_self_eq_true, if_true]
        apply List.map_congr_left
        intro i hi
        have hi16 : i < 16 := List.mem_range.mp hi
        have hpos : 0 < s.sm_cmac_message_len := Nat.pos_of_ne_zero h0
        have hc : 0 < s.sm_cmac_message_len ∧ True := ⟨hpos, trivial⟩
        rw [if_pos hc, Nat.mod_eq_of_lt (by omega)]
      · have hb : (s.sm_cmac_message_len % 16 == 0) = false := by simpa using h16
        simp only [h0, hb, if_false, Bool.false_eq_true]
        apply List.map_congr_left
        intro i hi
        have hi16 : i < 16 := List.mem_range.mp hi
        have hc : ¬ (0 < s.sm_cmac_message_len ∧ s.sm_cmac_message_len % 16 = 0) :=
          fun h => h16 h.2
        rw [if_neg hc]
        by_cases hlt : i < s.sm_cmac_message_len % 16
        · rw [if_pos hlt, if_pos hlt, Nat.mod_eq_of_lt (by omega)]
        · rw [if_neg hlt, if_neg hlt]
  · intro h0
    unfold sm_cmac_calc_m_last sm_cmac_last_block_complete
    simp [h0]

/-- Witness of C4: a 3-byte message. -/
theorem C4_m_last_witness :
    ((sm_cmac_handle_encryption_result
          { btstack_crypto := { item := 1, callback := 2, context := 3 }, key := 0, size := 3,
            get_byte_callback := fun i => i + 1, generator := 0, generator_arg := 0,
            hash := 16 }
          false (List.replicate 16 1)
          { core_init with sm_cmac_state := CMAC_W4_SUBKEYS, sm_cmac_message_len := 3,
                           sm_cmac_get_byte := fun i => i + 1 }).sm_cmac_m_last
        = [1 ^^^ 4, 2 ^^^ 4, 3 ^^^ 4, 0x80 ^^^ 4, 4, 4, 4, 4, 4, 4, 4, 4, 4, 4, 4, 4]) := by
  have h := (C4_m_last
    { btstack_crypto := { item := 1, callback := 2, context := 3 }, key := 0, size := 3,
      get_byte_callback := fun i => i + 1, generator := 0, generator_arg := 0, hash := 16 }
    false (List.replicate 16 1)
    { core_init with sm_cmac_state := CMAC_W4_SUBKEYS, sm_cmac_message_len := 3,
                     sm_cmac_get_byte := fun i => i + 1 } rfl (by decide)).1
  rw [h]
  decide

/-! ### Lists of sixteen bytes -/

theorem getD_range_map (f : Nat → Nat) (n i : Nat) (h : i < n) :
    ((List.range n).map f).getD i 0 = f i := by
  rw [List.getD_eq_getElem _ _ (by simpa using h)]
  simp

theorem range_map_getD (l : List Nat) (n : Nat) (h : l.length = n) :
    (List.range n).map (fun i => l.getD i 0) = l := by
  apply List.ext_getElem
  · simp [h]
  · intro i h1 h2
    simp only [List.getElem_map, List.getElem_range]
    exact List.getD_eq_getElem _ _ h2

theorem reverse_128_length (l : List Nat) : (reverse_128 l).length = 16 := by
  simp [reverse_128]

theorem reverse_128_reverse_128 (l : List Nat) (h : l.length = 16) :
    reverse_128 (reverse_128 l) = l := by
  have : reverse_128 (reverse_128 l) = (List.range 16).map (fun i => l.getD i 0) := by
    unfold reverse_128
    apply List.map_congr_left
    intro i hi
    have hi16 : i < 16 := List.mem_range.mp hi
    rw [getD_range_map _ 16 (15 - i) (by omega)]
    congr 1
    omega
  rw [this, range_map_getD l 16 h]

theorem xor_block_length (a b : List Nat) : (xor_block a b).length = 16 := by
  simp [xor_block]

theorem xor_block_comm (a b : List Nat) : xor_block a b = xor_block b a := by
  unfold xor_block
  apply List.map_congr_left
  intro i _
  exact Nat.xor_comm _ _

theorem mem_read_mem_write (mem : Nat → Nat) (p : Nat) (data : List Nat)
    (h : data.length = 16) : mem_read (mem_write mem p data 16) p 16 = data := by
  have : mem_read (mem_write mem p data 16) p 16 = (List.range 16).map (fun i => data.getD i 0) := by
    unfold mem_read mem_write
    apply List.map_congr_left
    intro i hi
    have hi16 : i < 16 := List.mem_range.mp hi
    simp [hi16]
  rw [this, range_map_getD data 16 h]

/-! ### The engine, phase by phase -/

theorem engine_ready_calc_subkeys (t : Core) (h : t.sm_cmac_state = CMAC_CALC_SUBKEYS) :
    sm_cmac_handle_aes_engine_ready t =
      { t with sm_cmac_state := CMAC_W4_SUBKEYS,
               btstack_crypto_wait_for_hci_result := true,
               sent := t.sent ++ [.hci_le_encrypt (reverse_128 t.sm_cmac_k)
                                   (reverse_128 (List.replicate 16 0))] } := by
  simp [sm_cmac_handle_aes_engine_ready, h, sm_aes128_start, hci_send_cmd, sm_cmac_next_state]

theorem engine_ready_calc_mi (t : Core) (h : t.sm_cmac_state = CMAC_CALC_MI) :
    sm_cmac_handle_aes_engine_ready t =
      { t with sm_cmac_state := CMAC_W4_MI,
               sm_cmac_block_current := (t.sm_cmac_block_current + 1) % 256,
               btstack_crypto_wait_for_hci_result := true,
               sent := t.sent ++ [.hci_le_encrypt (reverse_128 t.sm_cmac_k)
                 (reverse_128 ((List.range 16).map (fun j => t.sm_cmac_x.getD j 0 ^^^
                   t.sm_cmac_get_byte ((t.sm_cmac_block_current * 16 + j) % 65536))))] } := by
  simp [sm_cmac_handle_aes_engine_ready, h, sm_aes128_start, hci_send_cmd, sm_cmac_next_state]

theorem engine_ready_calc_mlast (t : Core) (h : t.sm_cmac_state = CMAC_CALC_MLAST) :
    sm_cmac_handle_aes_engine_ready t =
      { t with sm_cmac_state := CMAC_W4_MLAST,
               sm_cmac_block_current := (t.sm_cmac_block_current + 1) % 256,
               btstack_crypto_wait_for_hci_result := true,
               sent := t.sent ++ [.hci_le_encrypt (reverse_128 t.sm_cmac_k)
                 (reverse_128 (xor_block t.sm_cmac_x t.sm_cmac_m_last))] } := by
  simp [sm_cmac_handle_aes_engine_ready, h, sm_aes128_start, hci_send_cmd, sm_cmac_next_state,
    xor_block]

theorem last_encryption_append (t : Core) (snt : List hci_cmd) (k p : List Nat)
    (hs : t.sent = snt ++ [.hci_le_encrypt (reverse_128 k) (reverse_128 p)])
    (hk : k.length = 16) (hp : p.length = 16) :
    last_encryption t = some (k, p) := by
  simp [last_encryption, hs, reverse_128_reverse_128 k hk, reverse_128_reverse_128 p hp]

/-! ### Subkeys and last block against RFC 4493 -/

theorem rfc_double_lt (v : Nat) : rfc_double v < 2 ^ 128 := by
  unfold rfc_double
  apply Nat.xor_lt_two_pow (Nat.mod_lt _ (by norm_num))
  split <;> norm_num

theorem sm_cmac_subkey_eq_be_bytes (data : List Nat) (hlen : data.length = 16)
    (h : is_bytes data) :
    sm_cmac_subkey data = be_bytes 16 (rfc_double (be_value data)) := by
  obtain ⟨l1, b1, v1⟩ := sm_cmac_subkey_spec data hlen h
  apply be_value_inj _ _ (by rw [l1, be_bytes_length]) b1 (be_bytes_is_bytes _ _)
  rw [v1, be_value_be_bytes]
  have := rfc_double_lt (be_value data)
  rw [Nat.mod_eq_of_lt (by norm_num at this ⊢; exact this)]

theorem be_value_be_bytes_double (v : Nat) :
    be_value (be_bytes 16 (rfc_double v)) = rfc_double v := by
  rw [be_value_be_bytes]
  have := rfc_double_lt v
  rw [Nat.mod_eq_of_lt (by norm_num at this ⊢; exact this)]

theorem sm_cmac_subkeys_eq_rfc (E : List Nat → List Nat → List Nat) (K : List Nat)
    (hE : ∀ k p, (E k p).length = 16 ∧ is_bytes (E k p)) :
    sm_cmac_subkey (E K (List.replicate 16 0)) = (rfc_subkeys E K).1 ∧
      sm_cmac_subkey (sm_cmac_subkey (E K (List.replicate 16 0))) = (rfc_subkeys E K).2 := by
  obtain ⟨hl, hb⟩ := hE K (List.replicate 16 0)
  have e1 := sm_cmac_subkey_eq_be_bytes _ hl hb
  refine ⟨e1, ?_⟩
  obtain ⟨l1, b1, _⟩ := sm_cmac_subkey_spec _ hl hb
  rw [sm_cmac_subkey_eq_be_bytes _ l1 b1, e1, be_value_be_bytes_double]
  rfl

theorem sm_cmac_calc_m_last_eq_rfc (K1 K2 : List Nat) (t : Core)
    (hL : t.sm_cmac_message_len < 65536) :
    sm_cmac_calc_m_last K1 K2 t =
      if rfc_flag t.sm_cmac_message_len then
        xor_block (rfc_block t.sm_cmac_get_byte (rfc_n t.sm_cmac_message_len - 1)) K1
      else
        xor_block (rfc_padding t.sm_cmac_get_byte (16 * (rfc_n t.sm_cmac_message_len - 1))
          (t.sm_cmac_message_len - 16 * (rfc_n t.sm_cmac_message_len - 1))) K2 := by
  unfold sm_cmac_calc_m_last sm_cmac_last_block_complete rfc_flag rfc_n xor_block
  simp only [land_0x0f, land_0xfff0 _ hL]
  by_cases h0 : t.sm_cmac_message_len = 0
  · have hn : (t.sm_cmac_message_len + 15) / 16 = 0 := by omega
    simp only [h0, hn, if_true, Bool.false_eq_true, if_false]
    apply List.map_congr_left
    intro i hi
    have hi16 : i < 16 := List.mem_range.mp hi
    unfold rfc_padding
    rw [getD_range_map _ 16 i hi16]
    by_cases hi0 : i = 0 <;> simp [hi0]
  · have hn : ¬ ((t.sm_cmac_message_len + 15) / 16 = 0) := by omega
    by_cases h16 : t.sm_cmac_message_len % 16 = 0
    · simp only [h0, hn, h16, if_false, beq_self_eq_true, if_true, decide_True]
      apply List.map_congr_left
      intro i hi
      have hi16 : i < 16 := List.mem_range.mp hi
      unfold rfc_block
      rw [getD_range_map _ 16 i hi16, Nat.mod_eq_of_lt (by omega)]
      congr 2
      omega
    · have hb : (t.sm_cmac_message_len % 16 == 0) = false := by simpa using h16
      simp only [h0, hn, hb, h16, if_false, Bool.false_eq_true, decide_False]
      apply List.map_congr_left
      intro i hi
      have hi16 : i < 16 := List.mem_range.mp hi
      unfold rfc_padding
      rw [getD_range_map _ 16 i hi16]
      have hr : t.sm_cmac_message_len - 16 * ((t.sm_cmac_message_len + 15) / 16 - 1)
          = t.sm_cmac_message_len % 16 := by omega
      have hbase : 16 * ((t.sm_cmac_message_len + 15) / 16 - 1)
          = t.sm_cmac_message_len - t.sm_cmac_message_len % 16 := by omega
      rw [hr, hbase]
      by_cases hlt : i < t.sm_cmac_message_len % 16
      · rw [if_pos hlt, if_pos hlt, Nat.mod_eq_of_lt (by omega)]
      · rw [if_neg hlt, if_neg hlt]
        by_cases he : i = t.sm_cmac_message_len % 16
        · rw [if_pos he, if_pos he]
        · rw [if_neg he, if_neg he, Nat.zero_xor]

/-! ### The computation as a whole -/

theorem result_w4_subkeys (r : btstack_crypto_aes128_cmac_t) (tag : Bool) (data : List Nat)
    (t : Core) (h : t.sm_cmac_state = CMAC_W4_SUBKEYS) :
    sm_cmac_handle_encryption_result r tag data t =
      { t with sm_cmac_m_last :=
                 sm_cmac_calc_m_last (sm_cmac_subkey data) (sm_cmac_subkey (sm_cmac_subkey data)) t,
               sm_cmac_state := sm_cmac_phase_after_result t } := by
  simp [sm_cmac_handle_encryption_result, h]

theorem result_w4_mi (r : btstack_crypto_aes128_cmac_t) (tag : Bool) (data : List Nat)
    (t : Core) (h : t.sm_cmac_state = CMAC_W4_MI) :
    sm_cmac_handle_encryption_result r tag data t =
      { t with sm_cmac_x := data.take 16,
               sm_cmac_state := sm_cmac_phase_after_result t } := by
  simp [sm_cmac_handle_encryption_result, h]

theorem result_w4_mlast (r : btstack_crypto_aes128_cmac_t) (tag : Bool) (data : List Nat)
    (t : Core) (h : t.sm_cmac_state = CMAC_W4_MLAST) :
    sm_cmac_handle_encryption_result r tag data t =
      { t with sm_cmac_state := CMAC_IDLE,
               mem := mem_write t.mem r.hash data 16,
               btstack_crypto_operations := t.btstack_crypto_operations.tail,
               fired := t.fired ++ [if tag then .cmac_message r else .cmac_generator r] } := by
  simp [sm_cmac_handle_encryption_result, h, fire_callback, btstack_linked_list_pop]

theorem phase_after_result_ne_idle (t : Core) : sm_cmac_phase_after_result t ≠ CMAC_IDLE := by
  unfold sm_cmac_phase_after_result
  split <;> simp

theorem cmac_drive_step (E : List Nat → List Nat → List Nat)
    (r : btstack_crypto_aes128_cmac_t) (tag : Bool) (fuel : Nat) (t : Core) (k p : List Nat)
    (hle : last_encryption t = some (k, p))
    (hne : (sm_cmac_handle_encryption_result r tag (E k p) t).sm_cmac_state ≠ CMAC_IDLE) :
    cmac_drive E r tag (fuel + 1) t =
      cmac_drive E r tag fuel
        (sm_cmac_handle_aes_engine_ready (sm_cmac_handle_encryption_result r tag (E k p) t)) := by
  simp [cmac_drive, hle, hne]

theorem cmac_drive_stop (E : List Nat → List Nat → List Nat)
    (r : btstack_crypto_aes128_cmac_t) (tag : Bool) (fuel : Nat) (t : Core) (k p : List Nat)
    (hle : last_encryption t = some (k, p))
    (he : (sm_cmac_handle_encryption_result r tag (E k p) t).sm_cmac_state = CMAC_IDLE) :
    cmac_drive E r tag (fuel + 1) t = sm_cmac_handle_encryption_result r tag (E k p) t := by
  simp [cmac_drive, hle, he]

theorem rfc_n_bounds (L : Nat) (hL : L ≤ 4080) : 1 ≤ rfc_n L ∧ rfc_n L ≤ 255 := by
  unfold rfc_n
  split <;> omega

theorem rfc_cbc_length (E : List Nat → List Nat → List Nat) (K : List Nat) (m : Nat → Nat)
    (hE : ∀ k p, (E k p).length = 16 ∧ is_bytes (E k p)) (i : Nat) :
    (rfc_cbc E K m i).length = 16 := by
  cases i with
  | zero => simp [rfc_cbc]
  | succ i => exact (hE _ _).1

theorem cmac_drive_from_calc (E : List Nat → List Nat → List Nat)
    (r : btstack_crypto_aes128_cmac_t) (tag : Bool) (K : List Nat) (L : Nat) (m : Nat → Nat)
    (s : Core) (hK : K.length = 16)
    (hE : ∀ k p, (E k p).length = 16 ∧ is_bytes (E k p)) (hL : L ≤ 4080) :
    ∀ (fuel i : Nat) (t : Core), calc_inv E K L m s i t → i + 1 ≤ rfc_n L →
      rfc_n L - i ≤ fuel →
      cmac_done E K L m r tag s (cmac_drive E r tag fuel (sm_cmac_handle_aes_engine_ready t)) ∧
      (cmac_drive E r tag fuel (sm_cmac_handle_aes_engine_ready t)).sent.length
        = t.sent.length + (rfc_n L - i) := by
  obtain ⟨hn1, hn255⟩ := rfc_n_bounds L hL
  intro fuel
  induction fuel with
  | zero => intro i t _ h1 h2; omega
  | succ fuel ih =>
    intro i t hinv h1 h2
    obtain ⟨hst, hk, hx, hml, hcur, hcnt, hgb, hmem, hfired, hops⟩ := hinv
    by_cases hi : i + 1 < rfc_n L
    · rw [if_pos hi] at hst
      have e1 := engine_ready_calc_mi t hst
      have hy : (List.range 16).map (fun j => t.sm_cmac_x.getD j 0 ^^^
          t.sm_cmac_get_byte ((t.sm_cmac_block_current * 16 + j) % 65536))
          = xor_block (rfc_cbc E K m i) (rfc_block m i) := by
        unfold xor_block rfc_block
        apply List.map_congr_left
        intro j hj
        have hj16 : j < 16 := List.mem_range.mp hj
        rw [getD_range_map _ 16 j hj16, hx, hgb, hcur, Nat.mod_eq_of_lt (by omega),
          Nat.mul_comm i 16]
      have hle : last_encryption (sm_cmac_handle_aes_engine_ready t)
          = some (K, xor_block (rfc_cbc E K m i) (rfc_block m i)) := by
        apply last_encryption_append _ t.sent
        · rw [e1, hk, hy]
        · exact hK
        · exact xor_block_length _ _
      have hs1 : (sm_cmac_handle_aes_engine_ready t).sm_cmac_state = CMAC_W4_MI := by rw [e1]
      have e2 := result_w4_mi r tag
        (E K (xor_block (rfc_cbc E K m i) (rfc_block m i))) _ hs1
      have hne : (sm_cmac_handle_encryption_result r tag
          (E K (xor_block (rfc_cbc E K m i) (rfc_block m i)))
          (sm_cmac_handle_aes_engine_ready t)).sm_cmac_state ≠ CMAC_IDLE := by
        rw [e2]; exact phase_after_result_ne_idle _
      rw [cmac_drive_step E r tag fuel _ _ _ hle hne]
      have hmod : (i + 1) % 256 = i + 1 := Nat.mod_eq_of_lt (by omega)
      have hinv2 : calc_inv E K L m s (i + 1) (sm_cmac_handle_encryption_result r tag
          (E K (xor_block (rfc_cbc E K m i) (rfc_block m i)))
          (sm_cmac_handle_aes_engine_ready t)) := by
        rw [e2, e1]
        refine ⟨?_, hk, ?_, hml, ?_, hcnt, hgb, hmem, hfired, hops⟩
        · simp only [sm_cmac_phase_after_result, hcur, hcnt, hmod]
        · show List.take 16 _ = rfc_cbc E K m (i + 1)
          rw [rfc_cbc, ← (hE _ _).1, List.take_length]
        · show (t.sm_cmac_block_current + 1) % 256 = i + 1
          rw [hcur, hmod]
      obtain ⟨hd, hsent⟩ := ih (i + 1) _ hinv2 (by omega) (by omega)
      refine ⟨hd, ?_⟩
      rw [hsent, e2, e1]
      simp only [List.length_append, List.length_singleton]
      omega
    · rw [if_neg hi] at hst
      have hin : i + 1 = rfc_n L := by omega
      have e1 := engine_ready_calc_mlast t hst
      have hle : last_encryption (sm_cmac_handle_aes_engine_ready t)
          = some (K, xor_block (rfc_m_last E K L m) (rfc_cbc E K m i)) := by
        apply last_encryption_append _ t.sent
        · rw [e1, hk, hx, hml, xor_block_comm]
        · exact hK
        · exact xor_block_length _ _
      have hs1 : (sm_cmac_handle_aes_engine_ready t).sm_cmac_state = CMAC_W4_MLAST := by
        rw [e1]
      have e2 := result_w4_mlast r tag
        (E K (xor_block (rfc_m_last E K L m) (rfc_cbc E K m i))) _ hs1
      have he : (sm_cmac_handle_encryption_result r tag
          (E K (xor_block (rfc_m_last E K L m) (rfc_cbc E K m i)))
          (sm_cmac_handle_aes_engine_ready t)).sm_cmac_state = CMAC_IDLE := by
        rw [e2]
      rw [cmac_drive_stop E r tag fuel _ _ _ hle he]
      have hi1 : rfc_n L - 1 = i := by omega
      refine ⟨⟨he, ?_, ?_, ?_⟩, ?_⟩
      · rw [e2, e1]
        show mem_write t.mem r.hash _ 16 = _
        rw [hmem, rfc4493_cmac, hi1]
      · rw [e2, e1]
        show t.fired ++ _ = _
        rw [hfired]
      · rw [e2, e1]
        show t.btstack_crypto_operations.tail = _
        rw [hops]
      · rw [e2, e1]
        simp only [List.length_append, List.length_singleton]
        omega

theorem sm_cmac_general_start_eq (key : List Nat) (L : Nat) (m : Nat → Nat) (s : Core) :
    sm_cmac_general_start key L m s =
      { s with sm_cmac_k := key.take 16,
               sm_cmac_x := List.replicate 16 0,
               sm_cmac_block_current := 0,
               sm_cmac_message_len := L,
               sm_cmac_get_byte := m,
               sm_cmac_block_count :=
                 if ((L + 15) / 16) % 256 = 0 then 1 else ((L + 15) / 16) % 256,
               sm_cmac_state := CMAC_W4_SUBKEYS,
               btstack_crypto_wait_for_hci_result := true,
               sent := s.sent ++ [.hci_le_encrypt (reverse_128 (key.take 16))
                                   (reverse_128 (List.replicate 16 0))] } := by
  unfold sm_cmac_general_start
  rw [engine_ready_calc_subkeys _ rfl]

/-- C1: for every block function `E` (16-byte blocks), 16-byte key `K`, length
`0 <= L <= 4080` and byte source `m`: the CMAC engine started by `sm_cmac_general_start`
and driven by alternating `sm_cmac_handle_encryption_result` (each issued encryption
`(key, plaintext)` answered with `E key plaintext`) and `sm_cmac_handle_aes_engine_ready`
comes back to `CMAC_IDLE` within `n + 1` answers, `n = max(1, ceil(L/16))`, having written
into the hash buffer of the request exactly the RFC 4493 CMAC of `m(0..L-1)` under `K`
computed with `E`, popped the request and fired its callback once. -/
theorem C1_cmac_engine_computes_rfc4493 (E : List Nat → List Nat → List Nat)
    (r : btstack_crypto_aes128_cmac_t) (tag_message : Bool) (K : List Nat) (L : Nat)
    (m : Nat → Nat) (s : Core) (fuel : Nat)
    (hK : K.length = 16)
    (hE : ∀ k p, (E k p).length = 16 ∧ is_bytes (E k p))
    (hL : L ≤ 4080) (hfuel : max 1 ((L + 15) / 16) + 1 ≤ fuel) :
    mem_read (cmac_drive E r tag_message fuel (sm_cmac_general_start K L m s)).mem r.hash 16
        = rfc4493_cmac E K L m ∧
      (cmac_drive E r tag_message fuel (sm_cmac_general_start K L m s)).mem
        = mem_write s.mem r.hash (rfc4493_cmac E K L m) 16 ∧
      (cmac_drive E r tag_message fuel (sm_cmac_general_start K L m s)).sm_cmac_state
        = CMAC_IDLE ∧
      (cmac_drive E r tag_message fuel (sm_cmac_general_start K L m s)).fired
        = s.fired ++ [if tag_message then .cmac_message r else .cmac_generator r] ∧
      (cmac_drive E r tag_message fuel (sm_cmac_general_start K L m s)).btstack_crypto_operations
        = s.btstack_crypto_operations.tail ∧
      (cmac_drive E r tag_message fuel (sm_cmac_general_start K L m s)).sent.length
        = s.sent.length + (max 1 ((L + 15) / 16) + 1) := by
  obtain ⟨hn1, hn255⟩ := rfc_n_bounds L hL
  have hn : rfc_n L = max 1 ((L + 15) / 16) := by
    unfold rfc_n; split <;> omega
  rw [← hn] at hfuel ⊢
  have hcount : (if ((L + 15) / 16) % 256 = 0 then 1 else ((L + 15) / 16) % 256) = rfc_n L := by
    unfold rfc_n; split <;> split <;> omega
  have e0 := sm_cmac_general_start_eq K L m s
  have hKt : K.take 16 = K := by rw [← hK]; exact List.take_length _
  rw [hKt, hcount] at e0
  obtain ⟨fuel1, rfl⟩ : ∃ f, fuel = f + 1 := ⟨fuel - 1, by omega⟩
  have hle : last_encryption (sm_cmac_general_start K L m s)
      = some (K, List.replicate 16 0) := by
    apply last_encryption_append _ s.sent
    · rw [e0]
    · exact hK
    · simp
  have hs0 : (sm_cmac_general_start K L m s).sm_cmac_state = CMAC_W4_SUBKEYS := by rw [e0]
  have e1 := result_w4_subkeys r tag_message (E K (List.replicate 16 0)) _ hs0
  have hne : (sm_cmac_handle_encryption_result r tag_message (E K (List.replicate 16 0))
      (sm_cmac_general_start K L m s)).sm_cmac_state ≠ CMAC_IDLE := by
    rw [e1]; exact phase_after_result_ne_idle _
  rw [cmac_drive_step E r tag_message fuel1 _ _ _ hle hne]
  obtain ⟨hk1, hk2⟩ := sm_cmac_subkeys_eq_rfc E K hE
  have hlen0 : (sm_cmac_general_start K L m s).sm_cmac_message_len = L := by rw [e0]
  have hgb0 : (sm_cmac_general_start K L m s).sm_cmac_get_byte = m := by rw [e0]
  have hml : sm_cmac_calc_m_last (sm_cmac_subkey (E K (List.replicate 16 0)))
      (sm_cmac_subkey (sm_cmac_subkey (E K (List.replicate 16 0))))
      (sm_cmac_general_start K L m s) = rfc_m_last E K L m := by
    rw [sm_cmac_calc_m_last_eq_rfc _ _ _ (by rw [hlen0]; omega), hlen0, hgb0, hk2, hk1]
    rfl
  have hinv : calc_inv E K L m s 0 (sm_cmac_handle_encryption_result r tag_message
      (E K (List.replicate 16 0)) (sm_cmac_general_start K L m s)) := by
    rw [e1]
    refine ⟨?_, ?_, ?_, hml, ?_, ?_, ?_, ?_, ?_, ?_⟩
    · show sm_cmac_phase_after_result _ = _
      unfold sm_cmac_phase_after_result
      rw [e0]
    all_goals rw [e0]
    · rfl
  obtain ⟨⟨hd1, hd2, hd3, hd4⟩, hsent⟩ :=
    cmac_drive_from_calc E r tag_message K L m s hK hE hL fuel1 0 _ hinv (by omega) (by omega)
  refine ⟨?_, hd2, hd1, hd3, hd4, ?_⟩
  · rw [hd2]
    exact mem_read_mem_write _ _ _ (hE _ _).1
  · rw [hsent, e1, e0]
    simp only [List.length_append, List.length_singleton]
    omega

/-! ### The test vectors of RFC 4493 -/

theorem aes128_block (k p : List Nat) : (aes128 k p).length = 16 ∧ is_bytes (aes128 k p) := by
  refine ⟨by simp [aes128], ?_⟩
  intro b hb
  simp only [aes128, List.mem_map] at hb
  obtain ⟨i, _, rfl⟩ := hb
  exact Nat.mod_lt _ (by norm_num)

set_option maxRecDepth 1000000 in
/-- RFC 4493, example 1 (`len = 0`). -/
theorem rfc4493_example_1 :
    rfc4493_cmac aes128 rfc4493_key 0 rfc4493_message
      = [0xbb, 0x1d, 0x69, 0x29, 0xe9, 0x59, 0x37, 0x28,
         0x7f, 0xa3, 0x7d, 0x12, 0x9b, 0x75, 0x67, 0x46] := by decide

set_option maxRecDepth 1000000 in
/-- RFC 4493, example 2 (`len = 16`). -/
theorem rfc4493_example_2 :
    rfc4493_cmac aes128 rfc4493_key 16 rfc4493_message
      = [0x07, 0x0a, 0x16, 0xb4, 0x6b, 0x4d, 0x41, 0x44,
         0xf7, 0x9b, 0xdd, 0x9d, 0xd0, 0x4a, 0x28, 0x7c] := by decide

set_option maxRecDepth 1000000 in
/-- RFC 4493, example 3 (`len = 40`). -/
theorem rfc4493_example_3 :
    rfc4493_cmac aes128 rfc4493_key 40 rfc4493_message
      = [0xdf, 0xa6, 0x67, 0x47, 0xde, 0x9a, 0xe6, 0x30,
         0x30, 0xca, 0x32, 0x61, 0x14, 0x97, 0xc8, 0x27] := by decide

set_option maxRecDepth 1000000 in
/-- RFC 4493, example 4 (`len = 64`). -/
theorem rfc4493_example_4 :
    rfc4493_cmac aes128 rfc4493_key 64 rfc4493_message
      = [0x51, 0xf0, 0xbe, 0xbf, 0x7e, 0x3b, 0x9d, 0x92,
         0xfc, 0x49, 0x74, 0x17, 0x79, 0x36, 0x3c, 0xfe] := by decide

/-- Witness of C1: with `E` = AES-128 the engine leaves the CMAC of RFC 4493, example 3
(40 bytes: three blocks, the last one incomplete) in the hash buffer at address 100. -/
theorem C1_cmac_engine_witness :
    mem_read (cmac_drive aes128
        { btstack_crypto := { item := 1, callback := 2, context := 3 }, key := 0, size := 40,
          get_byte_callback := rfc4493_message, generator := 0, generator_arg := 0,
          hash := 100 }
        false 4 (sm_cmac_general_start rfc4493_key 40 rfc4493_message core_init)).mem 100 16
      = [0xdf, 0xa6, 0x67, 0x47, 0xde, 0x9a, 0xe6, 0x30,
         0x30, 0xca, 0x32, 0x61, 0x14, 0x97, 0xc8, 0x27] :=
  ((C1_cmac_engine_computes_rfc4493 aes128
      { btstack_crypto := { item := 1, callback := 2, context := 3 }, key := 0, size := 40,
        get_byte_callback := rfc4493_message, generator := 0, generator_arg := 0,
        hash := 100 }
      false rfc4493_key 40 rfc4493_message core_init 4 (by decide) aes128_block (by decide)
      (by decide)).1).trans rfc4493_example_3

/-! ### What the dispatcher leaves alone -/

theorem engine_ready_frame (s : Core) :
    (sm_cmac_handle_aes_engine_ready s).btstack_crypto_operations = s.btstack_crypto_operations ∧
      (sm_cmac_handle_aes_engine_ready s).fired = s.fired ∧
      (sm_cmac_handle_aes_engine_ready s).mem = s.mem := by
  unfold sm_cmac_handle_aes_engine_ready
  split <;> simp [sm_aes128_start, hci_send_cmd]

theorem run_cmac_eq (c : Bool) (s : Core) (r : btstack_crypto_aes128_cmac_t)
    (rest : List Request)
    (hw : s.btstack_crypto_wait_for_hci_result = false) (hc : c = true)
    (hq : s.btstack_crypto_operations = .cmac_message r :: rest ∨
          s.btstack_crypto_operations = .cmac_generator r :: rest) :
    btstack_crypto_run c s =
      if s.sm_cmac_state = CMAC_IDLE then
        sm_cmac_general_start (mem_read s.mem r.key 16) r.size r.get_byte_callback
          { s with btstack_crypto_wait_for_hci_result := true }
      else
        sm_cmac_handle_aes_engine_ready { s with btstack_crypto_wait_for_hci_result := true } := by
  rcases hq with hq | hq <;> simp [btstack_crypto_run, hw, hc, hq]

theorem run_random_eq (c : Bool) (s : Core) (r : btstack_crypto_random_t)
    (rest : List Request)
    (hw : s.btstack_crypto_wait_for_hci_result = false) (hc : c = true)
    (hq : s.btstack_crypto_operations = .random r :: rest) :
    btstack_crypto_run c s =
      { s with btstack_crypto_wait_for_hci_result := true,
               sent := s.sent ++ [.hci_le_rand] } := by
  simp [btstack_crypto_run, hw, hc, hq, hci_send_cmd]

theorem run_aes128_eq (c : Bool) (s : Core) (r : btstack_crypto_aes128_t)
    (rest : List Request)
    (hw : s.btstack_crypto_wait_for_hci_result = false) (hc : c = true)
    (hq : s.btstack_crypto_operations = .aes128 r :: rest) :
    btstack_crypto_run c s =
      { s with btstack_crypto_wait_for_hci_result := true,
               sent := s.sent ++ [.hci_le_encrypt (reverse_128 (mem_read s.mem r.key 16))
                                   (reverse_128 (mem_read s.mem r.plaintext 16))] } := by
  simp [btstack_crypto_run, hw, hc, hq, hci_send_cmd]

theorem run_of_wait (c : Bool) (s : Core) (h : s.btstack_crypto_wait_for_hci_result = true) :
    btstack_crypto_run c s = s := by
  simp [btstack_crypto_run, h]

theorem run_of_empty (c : Bool) (s : Core) (h : s.btstack_crypto_operations = []) :
    btstack_crypto_run c s = s := by
  unfold btstack_crypto_run
  split
  · rfl
  · simp [h]

theorem run_of_not_ready (s : Core) : btstack_crypto_run false s = s := by
  unfold btstack_crypto_run
  split
  · rfl
  · split <;> simp

/-- The ways a call of the dispatcher can go. -/
theorem run_cases (c : Bool) (s : Core) :
    btstack_crypto_run c s = s ∨
    (s.btstack_crypto_wait_for_hci_result = false ∧ c = true ∧
      ((∃ r rest, s.btstack_crypto_operations = .random r :: rest) ∨
       (∃ r rest, s.btstack_crypto_operations = .aes128 r :: rest) ∨
       (∃ r rest, s.btstack_crypto_operations = .cmac_message r :: rest ∨
          s.btstack_crypto_operations = .cmac_generator r :: rest))) := by
  cases hw : s.btstack_crypto_wait_for_hci_result with
  | true => exact Or.inl (run_of_wait c s hw)
  | false =>
    cases c with
    | false => exact Or.inl (run_of_not_ready s)
    | true =>
      cases hq : s.btstack_crypto_operations with
      | nil => exact Or.inl (run_of_empty _ s hq)
      | cons h rest =>
        right
        refine ⟨rfl, rfl, ?_⟩
        cases h with
        | random r => exact Or.inl ⟨r, rest, rfl⟩
        | aes128 r => exact Or.inr (Or.inl ⟨r, rest, rfl⟩)
        | cmac_generator r => exact Or.inr (Or.inr ⟨r, rest, Or.inr rfl⟩)
        | cmac_message r => exact Or.inr (Or.inr ⟨r, rest, Or.inl rfl⟩)

theorem general_start_frame (key : List Nat) (L : Nat) (m : Nat → Nat) (s : Core) :
    (sm_cmac_general_start key L m s).btstack_crypto_operations = s.btstack_crypto_operations ∧
      (sm_cmac_general_start key L m s).fired = s.fired ∧
      (sm_cmac_general_start key L m s).mem = s.mem := by
  rw [sm_cmac_general_start_eq]; simp

theorem run_frame (c : Bool) (s : Core) :
    (btstack_crypto_run c s).btstack_crypto_operations = s.btstack_crypto_operations ∧
      (btstack_crypto_run c s).fired = s.fired ∧
      (btstack_crypto_run c s).mem = s.mem := by
  rcases run_cases c s with h | ⟨hw, hc, h⟩
  · rw [h]; simp
  · rcases h with ⟨r, rest, hq⟩ | ⟨r, rest, hq⟩ | ⟨r, rest, hq⟩
    · rw [run_random_eq c s r rest hw hc hq]; simp
    · rw [run_aes128_eq c s r rest hw hc hq]; simp
    · rw [run_cmac_eq c s r rest hw hc hq]
      split
      · exact general_start_frame _ _ _ _
      · exact engine_ready_frame _

theorem engine_ready_sends (s : Core) : sends_at_most_one s (sm_cmac_handle_aes_engine_ready s) := by
  unfold sm_cmac_handle_aes_engine_ready sends_at_most_one
  split <;> simp [sm_aes128_start, hci_send_cmd]

theorem run_sends (c : Bool) (s : Core) : sends_at_most_one s (btstack_crypto_run c s) := by
  rcases run_cases c s with h | ⟨hw, hc, h⟩
  · rw [h]; exact Or.inl rfl
  · rcases h with ⟨r, rest, hq⟩ | ⟨r, rest, hq⟩ | ⟨r, rest, hq⟩
    · rw [run_random_eq c s r rest hw hc hq]; right; simp
    · rw [run_aes128_eq c s r rest hw hc hq]; right; simp
    · rw [run_cmac_eq c s r rest hw hc hq]
      split
      · right; rw [sm_cmac_general_start_eq]; simp
      · exact engine_ready_sends { s with btstack_crypto_wait_for_hci_result := true }

/-! ### Queue order -/

theorem pops_of_frame (s t : Core)
    (h1 : t.btstack_crypto_operations = s.btstack_crypto_operations) (h2 : t.fired = s.fired) :
    pops s t :=
  ⟨[], by simp, by simp [h2], by simp [h1]⟩

theorem pops_then_frame (s t u : Core) (h : pops s t)
    (h1 : u.btstack_crypto_operations = t.btstack_crypto_operations) (h2 : u.fired = t.fired) :
    pops s u := by
  obtain ⟨popped, hl, hf, hq⟩ := h
  exact ⟨popped, hl, by rw [h2, hf], by rw [h1, hq]⟩

theorem cmac_result_pops (r : btstack_crypto_aes128_cmac_t) (tag : Bool) (data : List Nat)
    (s : Core) (rest : List Request)
    (hq : s.btstack_crypto_operations
      = (if tag then Request.cmac_message r else Request.cmac_generator r) :: rest) :
    pops s (sm_cmac_handle_encryption_result r tag data s) := by
  unfold sm_cmac_handle_encryption_result
  split
  · exact pops_of_frame _ _ rfl rfl
  · exact pops_of_frame _ _ rfl rfl
  · refine ⟨[if tag then .cmac_message r else .cmac_generator r], by simp, ?_, ?_⟩
    · simp [fire_callback, btstack_linked_list_pop]
    · simp [fire_callback, btstack_linked_list_pop, hq]
  · exact pops_of_frame _ _ rfl rfl

theorem handle_encryption_result_cmac (data : List Nat) (s : Core)
    (r : btstack_crypto_aes128_cmac_t) (tag : Bool) (rest : List Request)
    (hq : s.btstack_crypto_operations
      = (if tag then Request.cmac_message r else Request.cmac_generator r) :: rest) :
    btstack_crypto_handle_encryption_result data s =
      sm_cmac_handle_encryption_result r tag (reverse_128 data)
        { s with btstack_crypto_wait_for_hci_result := false } := by
  cases tag <;> simp at hq <;> simp [btstack_crypto_handle_encryption_result, hq]

theorem handle_encryption_result_aes128 (data : List Nat) (s : Core)
    (r : btstack_crypto_aes128_t) (rest : List Request)
    (hq : s.btstack_crypto_operations = .aes128 r :: rest) :
    btstack_crypto_handle_encryption_result data s =
      { s with btstack_crypto_wait_for_hci_result := false,
               mem := mem_write s.mem r.ciphertext (reverse_128 data) 16,
               btstack_crypto_operations := rest,
               fired := s.fired ++ [.aes128 r] } := by
  simp [btstack_crypto_handle_encryption_result, hq, fire_callback, btstack_linked_list_pop]

theorem handle_encryption_result_other (data : List Nat) (s : Core)
    (hq : s.btstack_crypto_operations = [] ∨
      ∃ r rest, s.btstack_crypto_operations = .random r :: rest) :
    btstack_crypto_handle_encryption_result data s =
      { s with btstack_crypto_wait_for_hci_result := false } := by
  rcases hq with hq | ⟨r, rest, hq⟩ <;> simp [btstack_crypto_handle_encryption_result, hq]

theorem handle_encryption_result_pops (data : List Nat) (s : Core) :
    pops s (btstack_crypto_handle_encryption_result data s) := by
  cases hq : s.btstack_crypto_operations with
  | nil =>
    rw [handle_encryption_result_other data s (Or.inl hq)]
    exact pops_of_frame _ _ rfl rfl
  | cons h rest =>
    cases h with
    | random r =>
      rw [handle_encryption_result_other data s (Or.inr ⟨r, rest, hq⟩)]
      exact pops_of_frame _ _ rfl rfl
    | aes128 r =>
      rw [handle_encryption_result_aes128 data s r rest hq]
      exact ⟨[.aes128 r], by simp, rfl, by simp [hq]⟩
    | cmac_generator r =>
      rw [handle_encryption_result_cmac data s r false rest (by simp [hq])]
      obtain ⟨popped, hl, hf, hp⟩ := cmac_result_pops r false (reverse_128 data)
        { s with btstack_crypto_wait_for_hci_result := false } rest (by simp [hq])
      exact ⟨popped, hl, hf, hp⟩
    | cmac_message r =>
      rw [handle_encryption_result_cmac data s r true rest (by simp [hq])]
      obtain ⟨popped, hl, hf, hp⟩ := cmac_result_pops r true (reverse_128 data)
        { s with btstack_crypto_wait_for_hci_result := false } rest (by simp [hq])
      exact ⟨popped, hl, hf, hp⟩

theorem handle_random_data_random (data : List Nat) (len : Nat) (c : Bool) (s : Core)
    (r : btstack_crypto_random_t) (rest : List Request)
    (hq : s.btstack_crypto_operations = .random r :: rest) :
    btstack_crypto_handle_random_data data len c s =
      btstack_crypto_run c
        (if r.size - min r.size len = 0 then
          { s with btstack_crypto_wait_for_hci_result := false,
                   mem := mem_write s.mem r.buffer data (min r.size len),
                   btstack_crypto_operations := rest,
                   fired := s.fired ++ [.random { r with buffer := r.buffer + min r.size len,
                                                         size := r.size - min r.size len }] }
        else
          { s with btstack_crypto_wait_for_hci_result := false,
                   mem := mem_write s.mem r.buffer data (min r.size len),
                   btstack_crypto_operations :=
                     .random { r with buffer := r.buffer + min r.size len,
                                      size := r.size - min r.size len } :: rest }) := by
  simp only [btstack_crypto_handle_random_data, hq, fire_callback, btstack_linked_list_pop,
    List.tail_cons]

theorem handle_random_data_other (data : List Nat) (len : Nat) (c : Bool) (s : Core)
    (hq : ∀ r rest, s.btstack_crypto_operations ≠ .random r :: rest) :
    btstack_crypto_handle_random_data data len c s =
      { s with btstack_crypto_wait_for_hci_result := false } := by
  cases hs : s.btstack_crypto_operations with
  | nil => simp [btstack_crypto_handle_random_data, hs]
  | cons h rest =>
    cases h with
    | random r => exact absurd hs (hq r rest)
    | aes128 r => simp [btstack_crypto_handle_random_data, hs]
    | cmac_generator r => simp [btstack_crypto_handle_random_data, hs]
    | cmac_message r => simp [btstack_crypto_handle_random_data, hs]

theorem handle_random_data_pops (data : List Nat) (len : Nat) (c : Bool) (s : Core) :
    pops s (btstack_crypto_handle_random_data data len c s) := by
  by_cases hq : ∃ r rest, s.btstack_crypto_operations = .random r :: rest
  · obtain ⟨r, rest, hq⟩ := hq
    rw [handle_random_data_random data len c s r rest hq]
    apply pops_then_frame _ _ _ _ (run_frame _ _).1 (run_frame _ _).2.1
    split
    · exact ⟨[.random { r with buffer := r.buffer + min r.size len,
                               size := r.size - min r.size len }], by simp, rfl,
        by simp [hq, Request.addr, Request.base]⟩
    · exact ⟨[], by simp, by simp, by simp [hq, Request.addr, Request.base]⟩
  · rw [handle_random_data_other data len c s (fun r rest h => hq ⟨r, rest, h⟩)]
    exact pops_of_frame _ _ rfl rfl

theorem event_handler_pops (pt : Nat) (w : Bool) (packet : hci_packet) (c : Bool) (s : Core) :
    pops s (btstack_crypto_event_handler pt w packet c s) := by
  unfold btstack_crypto_event_handler
  split
  · exact pops_of_frame _ _ rfl rfl
  · split
    · exact pops_of_frame _ _ rfl rfl
    · apply pops_then_frame _ _ _ _ (run_frame _ _).1 (run_frame _ _).2.1
      cases packet with
      | le_encrypt_complete data => exact handle_encryption_result_pops data s
      | le_rand_complete data => exact handle_random_data_pops data 8 c s
      | other => exact pops_of_frame _ _ rfl rfl

theorem submit_frame (c : Bool) (req : Request) (s : Core) :
    (btstack_crypto_run c (btstack_linked_list_add_tail req s)).btstack_crypto_operations
        = s.btstack_crypto_operations ++ [req] ∧
      (btstack_crypto_run c (btstack_linked_list_add_tail req s)).fired = s.fired := by
  obtain ⟨h1, h2, _⟩ := run_frame c (btstack_linked_list_add_tail req s)
  rw [h1, h2]
  simp [btstack_linked_list_add_tail]

/-- One call: at most one callback fires, for the record at the head of the list, which
leaves the list; a submitted record is appended at the tail. -/
theorem step_fifo (i : Input) (s : Core) :
    ∃ popped : List Request, popped.length ≤ 1 ∧ (step i s).fired = s.fired ++ popped ∧
      popped.map Request.addr ++ (step i s).btstack_crypto_operations.map Request.addr
        = s.btstack_crypto_operations.map Request.addr ++ i.submitted := by
  cases i with
  | event pt w packet c =>
    obtain ⟨popped, hl, hf, hq⟩ := event_handler_pops pt w packet c s
    exact ⟨popped, hl, hf, by simpa [Input.submitted, step] using hq⟩
  | random_generate request buffer size callback callback_arg c =>
    refine ⟨[], by simp, ?_, ?_⟩
    · simp [step, btstack_crypto_random_generate, (submit_frame _ _ _).2]
    · simp [step, btstack_crypto_random_generate, (submit_frame _ _ _).1, Input.submitted,
        Request.addr, Request.base]
  | aes128_encrypt request key plaintext ciphertext callback callback_arg c =>
    refine ⟨[], by simp, ?_, ?_⟩
    · simp [step, btstack_crypto_aes128_encrypt, (submit_frame _ _ _).2]
    · simp [step, btstack_crypto_aes128_encrypt, (submit_frame _ _ _).1, Input.submitted,
        Request.addr, Request.base]
  | cmac_generator_temp request key size gb hash callback callback_arg c =>
    refine ⟨[], by simp, ?_, ?_⟩
    · simp [step, btstack_crypto_aes128_cmac_generator_temp, (submit_frame _ _ _).2]
    · simp [step, btstack_crypto_aes128_cmac_generator_temp, (submit_frame _ _ _).1,
        Input.submitted, Request.addr, Request.base]
  | cmac_generator request key size g ga hash callback callback_arg c =>
    refine ⟨[], by simp, ?_, ?_⟩
    · simp [step, btstack_crypto_aes128_cmac_generator, (submit_frame _ _ _).2]
    · simp [step, btstack_crypto_aes128_cmac_generator, (submit_frame _ _ _).1,
        Input.submitted, Request.addr, Request.base]
  | cmac_message request key size message hash callback callback_arg c =>
    refine ⟨[], by simp, ?_, ?_⟩
    · simp [step, btstack_crypto_aes128_cmac_message, (submit_frame _ _ _).2]
    · simp [step, btstack_crypto_aes128_cmac_message, (submit_frame _ _ _).1,
        Input.submitted, Request.addr, Request.base]

theorem exec_fifo (inputs : List Input) (s : Core) :
    (exec inputs s).fired.map Request.addr
        ++ (exec inputs s).btstack_crypto_operations.map Request.addr
      = s.fired.map Request.addr ++ s.btstack_crypto_operations.map Request.addr
        ++ submissions inputs := by
  induction inputs generalizing s with
  | nil => simp [exec, submissions]
  | cons i is ih =>
    have e : exec (i :: is) s = exec is (step i s) := rfl
    rw [e, ih (step i s)]
    obtain ⟨popped, _, hf, hq⟩ := step_fifo i s
    rw [hf, List.map_append, List.append_assoc, List.append_assoc, ← List.append_assoc _ _ (submissions is), hq]
    simp [submissions]

/-- C5: for every sequence of submissions (of the five submission functions, in any mix)
and packets, starting from the empty state: the callbacks fired so far, followed by the
records still queued, are the submitted records in submission order; so the fired
callbacks are an initial segment of the submissions, no callback fires before those of
all earlier submissions, and none fires twice. In every state, one call fires at most
one callback, that of the record at the head of the list, which then leaves the list. -/
theorem C5_callbacks_in_submission_order :
    (∀ inputs : List Input,
      (exec inputs core_init).fired.map Request.addr
          ++ (exec inputs core_init).btstack_crypto_operations.map Request.addr
        = submissions inputs) ∧
    (∀ (i : Input) (s : Core),
      ∃ popped : List Request, popped.length ≤ 1 ∧ (step i s).fired = s.fired ++ popped ∧
        popped.map Request.addr ++ (step i s).btstack_crypto_operations.map Request.addr
          = s.btstack_crypto_operations.map Request.addr ++ i.submitted) := by
  refine ⟨?_, step_fifo⟩
  intro inputs
  rw [exec_fifo]
  simp [core_init]

/-! ### At most one command outstanding -/

theorem run_bound (c : Bool) (s : Core) (h : Nat) (hb : outstanding_bound s h) :
    outstanding_bound (btstack_crypto_run c s) h := by
  rcases run_cases c s with e | ⟨hw, _, _⟩
  · rw [e]; exact hb
  · unfold outstanding_bound at hb ⊢
    rw [hw] at hb
    simp only [Bool.false_eq_true, if_false] at hb
    rcases run_sends c s with e | ⟨⟨cmd, e⟩, hset⟩
    · rw [e]; omega
    · rw [e, hset]; simp; omega

theorem run_sent_mono (c : Bool) (s : Core) :
    s.sent.length ≤ (btstack_crypto_run c s).sent.length := by
  rcases run_sends c s with e | ⟨⟨cmd, e⟩, _⟩ <;> rw [e]
  simp

theorem cmac_result_sent (r : btstack_crypto_aes128_cmac_t) (tag : Bool) (data : List Nat)
    (s : Core) :
    (sm_cmac_handle_encryption_result r tag data s).sent = s.sent ∧
      (sm_cmac_handle_encryption_result r tag data s).btstack_crypto_wait_for_hci_result
        = s.btstack_crypto_wait_for_hci_result := by
  unfold sm_cmac_handle_encryption_result
  split <;> simp [fire_callback, btstack_linked_list_pop]

theorem handle_encryption_result_sent (data : List Nat) (s : Core) :
    (btstack_crypto_handle_encryption_result data s).sent = s.sent ∧
      (btstack_crypto_handle_encryption_result data s).btstack_crypto_wait_for_hci_result
        = false := by
  cases hq : s.btstack_crypto_operations with
  | nil => rw [handle_encryption_result_other data s (Or.inl hq)]; simp
  | cons h rest =>
    cases h with
    | random r => rw [handle_encryption_result_other data s (Or.inr ⟨r, rest, hq⟩)]; simp
    | aes128 r => rw [handle_encryption_result_aes128 data s r rest hq]; simp
    | cmac_generator r =>
      rw [handle_encryption_result_cmac data s r false rest (by simp [hq])]
      obtain ⟨h1, h2⟩ := cmac_result_sent r false (reverse_128 data)
        { s with btstack_crypto_wait_for_hci_result := false }
      exact ⟨h1, h2⟩
    | cmac_message r =>
      rw [handle_encryption_result_cmac data s r true rest (by simp [hq])]
      obtain ⟨h1, h2⟩ := cmac_result_sent r true (reverse_128 data)
        { s with btstack_crypto_wait_for_hci_result := false }
      exact ⟨h1, h2⟩

/-- The random-data handler is the dispatcher applied to a state with the flag clear and
nothing more sent. -/
theorem handle_random_data_sent (data : List Nat) (len : Nat) (c : Bool) (s : Core) :
    ∃ t : Core, t.sent = s.sent ∧ t.btstack_crypto_wait_for_hci_result = false ∧
      (btstack_crypto_handle_random_data data len c s = t ∨
        btstack_crypto_handle_random_data data len c s = btstack_crypto_run c t) := by
  by_cases hq : ∃ r rest, s.btstack_crypto_operations = .random r :: rest
  · obtain ⟨r, rest, hq⟩ := hq
    rw [handle_random_data_random data len c s r rest hq]
    split
    · refine ⟨_, ?_, ?_, Or.inr rfl⟩ <;> rfl
    · refine ⟨_, ?_, ?_, Or.inr rfl⟩ <;> rfl
  · rw [handle_random_data_other data len c s (fun r rest h => hq ⟨r, rest, h⟩)]
    refine ⟨_, ?_, ?_, Or.inl rfl⟩ <;> rfl

theorem bound_of_clear (s t : Core) (h : Nat) (hb : outstanding_bound s h)
    (hs : t.sent = s.sent) (hw : t.btstack_crypto_wait_for_hci_result = false) :
    outstanding_bound t (h + 1) := by
  unfold outstanding_bound at hb ⊢
  rw [hs, hw]
  split at hb <;> simp <;> omega

theorem event_handler_bound (pt : Nat) (w : Bool) (packet : hci_packet) (c : Bool) (s : Core)
    (h : Nat) (hb : outstanding_bound s h) :
    outstanding_bound (btstack_crypto_event_handler pt w packet c s)
      (h + (if (Input.event pt w packet c).completion then 1 else 0)) := by
  unfold btstack_crypto_event_handler
  by_cases hpt : pt = HCI_EVENT_PACKET
  · cases w with
    | false => cases packet <;> simpa [hpt, Input.completion] using hb
    | true =>
      cases packet with
      | le_encrypt_complete data =>
        simp only [hpt, Input.completion, ne_eq, not_true_eq_false, if_false, Bool.not_true,
          Bool.false_eq_true, beq_self_eq_true, Bool.and_self, if_true]
        apply run_bound
        obtain ⟨h1, h2⟩ := handle_encryption_result_sent data s
        exact bound_of_clear s _ h hb h1 h2
      | le_rand_complete data =>
        simp only [hpt, Input.completion, ne_eq, not_true_eq_false, if_false, Bool.not_true,
          Bool.false_eq_true, beq_self_eq_true, Bool.and_self, if_true]
        apply run_bound
        obtain ⟨t, h1, h2, e | e⟩ := handle_random_data_sent data 8 c s
        · rw [e]; exact bound_of_clear s t h hb h1 h2
        · rw [e]; exact run_bound c t _ (bound_of_clear s t h hb h1 h2)
      | other =>
        simp only [hpt, Input.completion, ne_eq, not_true_eq_false, if_false, Bool.not_true,
          Bool.false_eq_true, Nat.add_zero]
        exact run_bound c s h hb
  · have hne : (pt == HCI_EVENT_PACKET) = false := by simpa using hpt
    cases packet <;> simpa [hpt, hne, Input.completion] using hb

theorem add_tail_bound (req : Request) (s : Core) (h : Nat) (hb : outstanding_bound s h) :
    outstanding_bound (btstack_linked_list_add_tail req s) h := hb

theorem step_bound (i : Input) (s : Core) (h : Nat) (hb : outstanding_bound s h) :
    outstanding_bound (step i s) (h + (if i.completion then 1 else 0)) := by
  cases i with
  | event pt w packet c => exact event_handler_bound pt w packet c s h hb
  | random_generate request buffer size callback callback_arg c =>
    exact run_bound c _ h (add_tail_bound _ s h hb)
  | aes128_encrypt request key plaintext ciphertext callback callback_arg c =>
    exact run_bound c _ h (add_tail_bound _ s h hb)
  | cmac_generator_temp request key size gb hash callback callback_arg c =>
    exact run_bound c _ h (add_tail_bound _ s h hb)
  | cmac_generator request key size g ga hash callback callback_arg c =>
    exact run_bound c _ h (add_tail_bound _ s h hb)
  | cmac_message request key size message hash callback callback_arg c =>
    exact run_bound c _ h (add_tail_bound _ s h hb)

theorem exec_bound (inputs : List Input) (s : Core) (h : Nat) (hb : outstanding_bound s h) :
    outstanding_bound (exec inputs s) (h + completions inputs) := by
  induction inputs generalizing s h with
  | nil => simpa [exec, completions] using hb
  | cons i is ih =>
    have e : exec (i :: is) s = exec is (step i s) := rfl
    rw [e, completions, ← Nat.add_assoc]
    exact ih _ _ (step_bound i s h hb)

theorem event_handler_sent_mono (pt : Nat) (w : Bool) (packet : hci_packet) (c : Bool)
    (s : Core) : s.sent.length ≤ (btstack_crypto_event_handler pt w packet c s).sent.length := by
  unfold btstack_crypto_event_handler
  split
  · exact Nat.le_refl _
  · split
    · exact Nat.le_refl _
    · apply Nat.le_trans _ (run_sent_mono _ _)
      cases packet with
      | le_encrypt_complete data => rw [(handle_encryption_result_sent data s).1]
      | le_rand_complete data =>
        obtain ⟨t, h1, _, e | e⟩ := handle_random_data_sent data 8 c s
        · simp only [e, h1]; exact Nat.le_refl _
        · simp only [e]; rw [← h1]; exact run_sent_mono c t
      | other => exact Nat.le_refl _

theorem step_sent_mono (i : Input) (s : Core) : s.sent.length ≤ (step i s).sent.length := by
  cases i with
  | event pt w packet c => exact event_handler_sent_mono pt w packet c s
  | random_generate request buffer size callback callback_arg c =>
    exact run_sent_mono c (btstack_linked_list_add_tail _ s)
  | aes128_encrypt request key plaintext ciphertext callback callback_arg c =>
    exact run_sent_mono c (btstack_linked_list_add_tail _ s)
  | cmac_generator_temp request key size gb hash callback callback_arg c =>
    exact run_sent_mono c (btstack_linked_list_add_tail _ s)
  | cmac_generator request key size g ga hash callback callback_arg c =>
    exact run_sent_mono c (btstack_linked_list_add_tail _ s)
  | cmac_message request key size message hash callback callback_arg c =>
    exact run_sent_mono c (btstack_linked_list_add_tail _ s)

theorem exec_answered (inputs : List Input) (s : Core) (h : Nat)
    (ha : answers_commands inputs s h) (hle : h ≤ s.sent.length) :
    h + completions inputs ≤ (exec inputs s).sent.length := by
  induction inputs generalizing s h with
  | nil => simpa [exec, completions] using hle
  | cons i is ih =>
    have e : exec (i :: is) s = exec is (step i s) := rfl
    obtain ⟨h1, h2⟩ := ha
    rw [e, completions, ← Nat.add_assoc]
    apply ih _ _ h2
    have hm := step_sent_mono i s
    cases hc : i.completion with
    | false => simp; omega
    | true => have := h1 hc; simp; omega

theorem answers_commands_of_pending (inputs : List Input) (s : Core) (h : Nat)
    (ha : answers_pending inputs s h) : answers_commands inputs s h := by
  induction inputs generalizing s h with
  | nil => trivial
  | cons i is ih =>
    refine ⟨?_, ih _ _ ha.2⟩
    intro hc
    have h1 := ha.1
    cases i with
    | event pt w packet c =>
      cases packet with
      | le_encrypt_complete data =>
        have := (h1 (by simpa [Input.completion] using hc)).1
        omega
      | le_rand_complete data =>
        have := (h1 (by simpa [Input.completion] using hc)).1
        omega
      | other => simp [Input.completion] at hc
    | random_generate request buffer size callback callback_arg c =>
      simp [Input.completion] at hc
    | aes128_encrypt request key plaintext ciphertext callback callback_arg c =>
      simp [Input.completion] at hc
    | cmac_generator_temp request key size gb hash callback callback_arg c =>
      simp [Input.completion] at hc
    | cmac_generator request key size g ga hash callback callback_arg c =>
      simp [Input.completion] at hc
    | cmac_message request key size message hash callback callback_arg c =>
      simp [Input.completion] at hc

/-- C6 (counterexample): an AES128 request is submitted from the initial state and its
`hci_le_encrypt` is sent; a random-bytes event is then delivered. No block-encrypted event
has been handled and no callback has fired, yet a second `hci_le_encrypt` has been sent:
two commands of the same request are unanswered. And a lone random-bytes event in the
initial state leaves 0 commands sent with 1 completion event handled. -/
theorem C6_counterexample :
    (exec example_unanswered_trace core_init).sent
        = [.hci_le_encrypt (List.replicate 16 0) (List.replicate 16 0),
           .hci_le_encrypt (List.replicate 16 0) (List.replicate 16 0)] ∧
      encrypt_completions example_unanswered_trace = 0 ∧
      (exec example_unanswered_trace core_init).fired.length = 0 ∧
      (exec [.event HCI_EVENT_PACKET true (.le_rand_complete [1, 2, 3, 4, 5, 6, 7, 8]) true]
        core_init).sent.length = 0 ∧
      completions [.event HCI_EVENT_PACKET true (.le_rand_complete [1, 2, 3, 4, 5, 6, 7, 8])
        true] = 1 := by
  refine ⟨by decide, by decide, by decide, by decide, by decide⟩

/-- C6 (amended): in every state reached from the initial state by an interleaving of
submissions and packets for `btstack_crypto_event_handler` in which every completion
event the handler takes up answers the one pending command (one command is unanswered and
the event is of its kind): the number of commands sent minus the number of completion
events handled is 0 or 1, and it is 0 while the flag is clear. A further call that sends
a command sends exactly one, and all commands sent before it have been answered by then:
no command is sent while a previously sent command is unanswered. -/
theorem C6_one_command_outstanding (inputs : List Input)
    (ha : answers_pending inputs core_init 0) :
    ((exec inputs core_init).sent.length = completions inputs ∨
      (exec inputs core_init).sent.length = completions inputs + 1) ∧
    ((exec inputs core_init).btstack_crypto_wait_for_hci_result = false →
      (exec inputs core_init).sent.length = completions inputs) ∧
    (∀ i : Input, i.answers (exec inputs core_init) (completions inputs) →
      (exec inputs core_init).sent.length < (step i (exec inputs core_init)).sent.length →
      (exec inputs core_init).sent.length
          = completions inputs + (if i.completion then 1 else 0) ∧
        (step i (exec inputs core_init)).sent.length
          = (exec inputs core_init).sent.length + 1) := by
  have hb0 := exec_bound inputs core_init 0 (by simp [outstanding_bound, core_init])
  rw [Nat.zero_add] at hb0
  have hb := hb0
  unfold outstanding_bound at hb
  have hlow := exec_answered inputs core_init 0
    (answers_commands_of_pending inputs core_init 0 ha) (Nat.zero_le _)
  rw [Nat.zero_add] at hlow
  refine ⟨?_, ?_, ?_⟩
  · split at hb <;> omega
  · intro hw
    rw [hw] at hb
    simp at hb
    omega
  · intro i hi hgrow
    have hs := step_bound i (exec inputs core_init) (completions inputs) hb0
    unfold outstanding_bound at hs
    have hup : (step i (exec inputs core_init)).sent.length
        ≤ completions inputs + (if i.completion then 1 else 0) + 1 := by
      have hf : (if (step i (exec inputs core_init)).btstack_crypto_wait_for_hci_result
          then 1 else 0) ≤ 1 := by split <;> omega
      omega
    have hpend : i.completion = true →
        completions inputs + 1 = (exec inputs core_init).sent.length := by
      intro hc
      cases i with
      | event pt w packet c =>
        cases packet with
        | le_encrypt_complete data => exact (hi (by simpa [Input.completion] using hc)).1
        | le_rand_complete data => exact (hi (by simpa [Input.completion] using hc)).1
        | other => simp [Input.completion] at hc
      | random_generate request buffer size callback callback_arg c =>
        simp [Input.completion] at hc
      | aes128_encrypt request key plaintext ciphertext callback callback_arg c =>
        simp [Input.completion] at hc
      | cmac_generator_temp request key size gb hash callback callback_arg c =>
        simp [Input.completion] at hc
      | cmac_generator request key size g ga hash callback callback_arg c =>
        simp [Input.completion] at hc
      | cmac_message request key size message hash callback callback_arg c =>
        simp [Input.completion] at hc
    cases hc : i.completion with
    | true =>
      have := hpend hc
      rw [hc] at hup
      simp at hup ⊢
      omega
    | false =>
      rw [hc] at hup
      simp at hup ⊢
      omega

/-- Witness of C6 (amended): the trace `example_random_trace`, two commands, each
answered by its random event. -/
theorem C6_one_command_outstanding_witness :
    answers_pending example_random_trace core_init 0 ∧
      ((exec example_random_trace core_init).sent.length = completions example_random_trace ∨
       (exec example_random_trace core_init).sent.length
         = completions example_random_trace + 1) :=
  have ha : answers_pending example_random_trace core_init 0 :=
    ⟨trivial, fun _ => ⟨by decide, by decide⟩, fun _ => ⟨by decide, by decide⟩, trivial⟩
  ⟨ha, (C6_one_command_outstanding example_random_trace ha).1⟩

/-! ### The dispatcher -/

/-- C9: if the outstanding-command flag is set, or the operation list is empty, or the
transport cannot accept a command, `btstack_crypto_run` sends no command and leaves the
whole state unchanged; calling it twice is then the same as calling it once. -/
theorem C9_run_is_a_no_op (can_send : Bool) (s : Core)
    (h : s.btstack_crypto_wait_for_hci_result = true ∨ s.btstack_crypto_operations = [] ∨
      can_send = false) :
    btstack_crypto_run can_send s = s ∧
      (btstack_crypto_run can_send s).sent = s.sent ∧
      btstack_crypto_run can_send (btstack_crypto_run can_send s)
        = btstack_crypto_run can_send s := by
  have e : btstack_crypto_run can_send s = s := by
    rcases h with h | h | h
    · exact run_of_wait _ s h
    · exact run_of_empty _ s h
    · subst h; exact run_of_not_ready s
  rw [e]
  exact ⟨rfl, rfl, e⟩

/-- Witness of C9: the empty list, with the transport ready. -/
theorem C9_run_is_a_no_op_witness :
    btstack_crypto_run true core_init = core_init ∧
      (btstack_crypto_run true core_init).sent = core_init.sent ∧
      btstack_crypto_run true (btstack_crypto_run true core_init)
        = btstack_crypto_run true core_init :=
  C9_run_is_a_no_op true core_init (Or.inr (Or.inl rfl))

/-- C10 (counterexample): with a CMAC request at the head, the engine in phase
`CMAC_W4_SUBKEYS`, the flag clear and the transport ready, `btstack_crypto_run` sets the
flag and sends nothing. -/
theorem C10_counterexample :
    ({ core_init with btstack_crypto_operations := [.cmac_generator example_cmac_request],
                      sm_cmac_state := CMAC_W4_SUBKEYS } : Core).btstack_crypto_wait_for_hci_result
        = false ∧
      (btstack_crypto_run true
        { core_init with btstack_crypto_operations := [.cmac_generator example_cmac_request],
                         sm_cmac_state := CMAC_W4_SUBKEYS }).btstack_crypto_wait_for_hci_result
        = true ∧
      (btstack_crypto_run true
        { core_init with btstack_crypto_operations := [.cmac_generator example_cmac_request],
                         sm_cmac_state := CMAC_W4_SUBKEYS }).sent = [] := by
  refine ⟨rfl, rfl, rfl⟩

theorem engine_ready_sends_in_calc (s : Core) (h1 : s.sm_cmac_state ≠ CMAC_IDLE)
    (h2 : is_w4 s.sm_cmac_state = false) :
    ∃ cmd, (sm_cmac_handle_aes_engine_ready s).sent = s.sent ++ [cmd] := by
  cases hs : s.sm_cmac_state with
  | CMAC_IDLE => exact absurd hs h1
  | CMAC_CALC_SUBKEYS => rw [engine_ready_calc_subkeys s hs]; exact ⟨_, rfl⟩
  | CMAC_W4_SUBKEYS => rw [hs] at h2; simp [is_w4] at h2
  | CMAC_CALC_MI => rw [engine_ready_calc_mi s hs]; exact ⟨_, rfl⟩
  | CMAC_W4_MI => rw [hs] at h2; simp [is_w4] at h2
  | CMAC_CALC_MLAST => rw [engine_ready_calc_mlast s hs]; exact ⟨_, rfl⟩
  | CMAC_W4_MLAST => rw [hs] at h2; simp [is_w4] at h2

/-- C10 (amended): for every state of the core and either answer of the transport, one
call of `btstack_crypto_run` sends zero or one command, and if it sends one the flag goes
from clear to set; if the head of the list is not a CMAC request, or the CMAC phase is not
one of the three W4 phases, the flag goes from clear to set only if a command is sent. -/
theorem C10_run_sends_at_most_one (can_send : Bool) (s : Core) :
    ((btstack_crypto_run can_send s).sent = s.sent ∨
      ∃ cmd, (btstack_crypto_run can_send s).sent = s.sent ++ [cmd]) ∧
    ((btstack_crypto_run can_send s).sent ≠ s.sent →
      s.btstack_crypto_wait_for_hci_result = false ∧
      (btstack_crypto_run can_send s).btstack_crypto_wait_for_hci_result = true) ∧
    (¬ (head_is_cmac s = true ∧ is_w4 s.sm_cmac_state = true) →
      s.btstack_crypto_wait_for_hci_result = false →
      (btstack_crypto_run can_send s).btstack_crypto_wait_for_hci_result = true →
      ∃ cmd, (btstack_crypto_run can_send s).sent = s.sent ++ [cmd]) := by
  refine ⟨?_, ?_, ?_⟩
  · rcases run_sends can_send s with e | ⟨e, _⟩
    · exact Or.inl e
    · exact Or.inr e
  · intro hne
    rcases run_cases can_send s with e | ⟨hw, _, _⟩
    · rw [e] at hne; exact absurd rfl hne
    · rcases run_sends can_send s with e | ⟨_, hset⟩
      · exact absurd e hne
      · exact ⟨hw, hset⟩
  · intro hn hclear hset
    rcases run_cases can_send s with e | ⟨hw, hc, h⟩
    · rw [e, hclear] at hset; exact absurd hset (by simp)
    · rcases h with ⟨r, rest, hq⟩ | ⟨r, rest, hq⟩ | ⟨r, rest, hq⟩
      · rw [run_random_eq can_send s r rest hw hc hq]; exact ⟨_, rfl⟩
      · rw [run_aes128_eq can_send s r rest hw hc hq]; exact ⟨_, rfl⟩
      · rw [run_cmac_eq can_send s r rest hw hc hq]
        have hhead : head_is_cmac s = true := by
          rcases hq with hq | hq <;> simp [head_is_cmac, hq]
        have hw4 : is_w4 s.sm_cmac_state = false := by
          cases hv : is_w4 s.sm_cmac_state with
          | false => rfl
          | true => exact absurd ⟨hhead, hv⟩ hn
        split
        · rw [sm_cmac_general_start_eq]; exact ⟨_, rfl⟩
        · rename_i hidle
          exact engine_ready_sends_in_calc
            { s with btstack_crypto_wait_for_hci_result := true } hidle hw4

/-- Witness of C10 (amended): a Random request at the head, flag clear, transport
ready: one `hci_le_rand` is sent and the flag is set. -/
theorem C10_run_sends_at_most_one_witness :
    ∃ cmd, (btstack_crypto_run true
        { core_init with btstack_crypto_operations :=
            [.random { btstack_crypto := { item := 1, callback := 2, context := 3 },
                       buffer := 100, size := 10 }] }).sent
      = ({ core_init with btstack_crypto_operations :=
            [.random { btstack_crypto := { item := 1, callback := 2, context := 3 },
                       buffer := 100, size := 10 }] } : Core).sent ++ [cmd] :=
  (C10_run_sends_at_most_one true
    { core_init with btstack_crypto_operations :=
        [.random { btstack_crypto := { item := 1, callback := 2, context := 3 },
                   buffer := 100, size := 10 }] }).2.2
    (by simp [head_is_cmac]) rfl rfl

/-! ### Random bytes -/

theorem payloads_eq (p : Nat → List Nat) (hp : ∀ k, (p k).length = 8) (n : Nat) :
    payloads p n = (List.range (8 * n)).map (payload_byte p) := by
  induction n with
  | zero => simp [payloads]
  | succ n ih =>
    rw [payloads, ih, Nat.mul_succ, List.range_add, List.map_append, List.map_map]
    congr 1
    rw [← range_map_getD (p n) 8 (hp n)]
    apply List.map_congr_left
    intro k hk
    have hk8 : k < 8 := List.mem_range.mp hk
    simp only [Function.comp, payload_byte]
    rw [show (8 * n + k) / 8 = n by omega, show (8 * n + k) % 8 = k by omega]

theorem payloads_take (p : Nat → List Nat) (hp : ∀ k, (p k).length = 8) (n N : Nat)
    (h : N ≤ 8 * n) : (payloads p n).take N = (List.range N).map (payload_byte p) := by
  rw [payloads_eq p hp, ← List.map_take, List.take_range, Nat.min_eq_left h]

theorem event_handler_rand (data : List Nat) (c : Bool) (s : Core) :
    btstack_crypto_event_handler HCI_EVENT_PACKET true (.le_rand_complete data) c s =
      btstack_crypto_run c (btstack_crypto_handle_random_data data 8 c s) := by
  simp [btstack_crypto_event_handler]

theorem event_handler_encrypt (data : List Nat) (c : Bool) (s : Core) :
    btstack_crypto_event_handler HCI_EVENT_PACKET true (.le_encrypt_complete data) c s =
      btstack_crypto_run c (btstack_crypto_handle_encryption_result data s) := by
  simp [btstack_crypto_event_handler]

theorem engine_ready_wait (s : Core) (h : s.btstack_crypto_wait_for_hci_result = true) :
    (sm_cmac_handle_aes_engine_ready s).btstack_crypto_wait_for_hci_result = true := by
  unfold sm_cmac_handle_aes_engine_ready
  split <;> simp [sm_aes128_start, hci_send_cmd, h]

/-- After a call of the dispatcher the flag is set, or the call changed nothing. -/
theorem run_same_or_wait (c : Bool) (s : Core) :
    btstack_crypto_run c s = s ∨
      (btstack_crypto_run c s).btstack_crypto_wait_for_hci_result = true := by
  rcases run_cases c s with e | ⟨hw, hc, h⟩
  · exact Or.inl e
  · right
    rcases h with ⟨r, rest, hq⟩ | ⟨r, rest, hq⟩ | ⟨r, rest, hq⟩
    · rw [run_random_eq c s r rest hw hc hq]
    · rw [run_aes128_eq c s r rest hw hc hq]
    · rw [run_cmac_eq c s r rest hw hc hq]
      split
      · rw [sm_cmac_general_start_eq]
      · exact engine_ready_wait _ rfl

theorem run_run (c : Bool) (s : Core) :
    btstack_crypto_run c (btstack_crypto_run c s) = btstack_crypto_run c s := by
  rcases run_same_or_wait c s with e | e
  · rw [e, e]
  · exact run_of_wait c _ e

theorem random_events_inv (p : Nat → List Nat) (s : Core) (r : btstack_crypto_random_t)
    (rest : List Request)
    (hq : s.btstack_crypto_operations = .random r :: rest)
    (hw : s.btstack_crypto_wait_for_hci_result = false) :
    ∀ j, 8 * j < r.size → random_inv p s r rest j (random_events p j s) := by
  intro j
  induction j with
  | zero =>
    intro _
    rw [random_events, run_random_eq true s r rest hw rfl hq]
    refine ⟨by simpa using hq, rfl, rfl, rfl, ?_, ?_⟩
    · intro i hi; omega
    · intro a _; rfl
  | succ j ih =>
    intro hj
    obtain ⟨h1, h2, h3, h4, h5, h6⟩ := ih (by omega)
    rw [random_events, event_handler_rand, handle_random_data_random _ 8 true _ _ rest h1]
    have hmin : min (r.size - 8 * j) 8 = 8 := by omega
    simp only [hmin]
    rw [if_neg (by omega)]
    rw [run_run, run_random_eq true _ _ rest rfl rfl rfl]
    refine ⟨?_, h2, ?_, rfl, ?_, ?_⟩
    · show Request.random _ :: rest = Request.random _ :: rest
      congr 2
    · show (random_events p j s).sent ++ [hci_cmd.hci_le_rand] = _
      rw [h3, List.replicate_succ' (j + 1), List.append_assoc]
    · intro i hi
      show mem_write _ _ _ _ _ = _
      unfold mem_write
      by_cases hlt : i < 8 * j
      · rw [if_neg (by omega)]; exact h5 i hlt
      · rw [if_pos (by omega)]
        unfold payload_byte
        rw [show i / 8 = j by omega, show r.buffer + i - (r.buffer + 8 * j) = i % 8 by omega]
    · intro a ha
      show mem_write _ _ _ _ _ = _
      unfold mem_write
      rw [if_neg (by omega)]
      exact h6 a (by omega)

/-- C7: a Random request for `N >= 1` bytes at the head of the list, the flag clear, the
transport always ready, and random events with payloads `p 0, p 1, ...` of 8 bytes each.
After the dispatch and `j < ceil(N/8)` events the request is still at the head (with
`N - 8j` bytes to go), no callback has fired and `j + 1` commands `hci_le_rand` have been
sent. The event number `ceil(N/8)` removes the request and fires its callback once, with
`ceil(N/8)` commands `hci_le_rand` sent for it (the dispatcher then runs for the rest of
the list); the bytes `0..N-1` of the buffer are the first `N` bytes of
`p 0 ++ p 1 ++ ...`, and no other byte of memory has changed. -/
theorem C7_random_request (p : Nat → List Nat) (s : Core) (r : btstack_crypto_random_t)
    (rest : List Request)
    (hq : s.btstack_crypto_operations = .random r :: rest)
    (hw : s.btstack_crypto_wait_for_hci_result = false)
    (hN : 1 ≤ r.size) (hp : ∀ k, (p k).length = 8) :
    (∀ j, j < (r.size + 7) / 8 →
      (random_events p j s).btstack_crypto_operations
          = .random { r with buffer := r.buffer + 8 * j, size := r.size - 8 * j } :: rest ∧
        (random_events p j s).fired = s.fired ∧
        (random_events p j s).sent = s.sent ++ List.replicate (j + 1) hci_cmd.hci_le_rand) ∧
    (∃ T : Core, random_events p ((r.size + 7) / 8) s = btstack_crypto_run true T ∧
      T.btstack_crypto_operations = rest ∧
      T.btstack_crypto_wait_for_hci_result = false ∧
      T.sent = s.sent ++ List.replicate ((r.size + 7) / 8) hci_cmd.hci_le_rand) ∧
    (random_events p ((r.size + 7) / 8) s).fired
        = s.fired ++ [.random { r with buffer := r.buffer + r.size, size := 0 }] ∧
    (random_events p ((r.size + 7) / 8) s).btstack_crypto_operations = rest ∧
    mem_read (random_events p ((r.size + 7) / 8) s).mem r.buffer r.size
        = (payloads p ((r.size + 7) / 8)).take r.size ∧
    (∀ a, a < r.buffer ∨ r.buffer + r.size ≤ a →
      (random_events p ((r.size + 7) / 8) s).mem a = s.mem a) ∧
    (rest = [] →
      (random_events p ((r.size + 7) / 8) s).sent
        = s.sent ++ List.replicate ((r.size + 7) / 8) hci_cmd.hci_le_rand) := by
  have hinv := random_events_inv p s r rest hq hw
  obtain ⟨n, hn⟩ : ∃ n, (r.size + 7) / 8 = n + 1 := ⟨(r.size + 7) / 8 - 1, by omega⟩
  obtain ⟨h1, h2, h3, h4, h5, h6⟩ := hinv n (by omega)
  have hmin : min (r.size - 8 * n) 8 = r.size - 8 * n := by omega
  have hfin : random_events p (n + 1) s = btstack_crypto_run true
      { random_events p n s with
        btstack_crypto_wait_for_hci_result := false,
        mem := mem_write (random_events p n s).mem (r.buffer + 8 * n) (p n) (r.size - 8 * n),
        btstack_crypto_operations := rest,
        fired := (random_events p n s).fired ++
          [.random { r with buffer := r.buffer + 8 * n + (r.size - 8 * n),
                            size := r.size - 8 * n - (r.size - 8 * n) }] } := by
    rw [random_events, event_handler_rand, handle_random_data_random _ 8 true _ _ rest h1]
    simp only [hmin]
    rw [if_pos (by omega), run_run]
  have hmem : ∀ i, i < r.size →
      (random_events p (n + 1) s).mem (r.buffer + i) = payload_byte p i := by
    intro i hi
    rw [hfin, (run_frame _ _).2.2]
    show mem_write _ _ _ _ _ = _
    unfold mem_write
    by_cases hlt : i < 8 * n
    · rw [if_neg (by omega)]; exact h5 i hlt
    · rw [if_pos (by omega)]
      unfold payload_byte
      rw [show i / 8 = n by omega, show r.buffer + i - (r.buffer + 8 * n) = i % 8 by omega]
  rw [hn]
  refine ⟨?_, ?_, ?_, ?_, ?_, ?_, ?_⟩
  · intro j hj
    obtain ⟨g1, g2, g3, _, _, _⟩ := hinv j (by omega)
    exact ⟨g1, g2, g3⟩
  · refine ⟨_, hfin, rfl, rfl, ?_⟩
    show (random_events p n s).sent = _
    rw [h3]
  · rw [hfin, (run_frame _ _).2.1]
    show (random_events p n s).fired ++ _ = _
    have e1 : r.buffer + 8 * n + (r.size - 8 * n) = r.buffer + r.size := by omega
    have e2 : r.size - 8 * n - (r.size - 8 * n) = 0 := by omega
    rw [h2, e1, e2]
  · rw [hfin, (run_frame _ _).1]
  · rw [payloads_take p hp (n + 1) r.size (by omega)]
    unfold mem_read
    apply List.map_congr_left
    intro i hi
    exact hmem i (List.mem_range.mp hi)
  · intro a ha
    rw [hfin, (run_frame _ _).2.2]
    show mem_write _ _ _ _ _ = _
    unfold mem_write
    rw [if_neg (by omega)]
    exact h6 a (by omega)
  · intro hrest
    rw [hfin, run_of_empty _ _ (by simpa using hrest)]
    show (random_events p n s).sent = _
    rw [h3]

/-- Witness of C7: 10 bytes to address 100, two events. -/
theorem C7_random_request_witness :
    mem_read (random_events (fun k => List.replicate 8 (k + 1)) 2
        { core_init with btstack_crypto_operations :=
            [.random { btstack_crypto := { item := 1, callback := 2, context := 3 },
                       buffer := 100, size := 10 }] }).mem 100 10
      = [1, 1, 1, 1, 1, 1, 1, 1, 2, 2] :=
  (C7_random_request (fun k => List.replicate 8 (k + 1))
    { core_init with btstack_crypto_operations :=
        [.random { btstack_crypto := { item := 1, callback := 2, context := 3 },
                   buffer := 100, size := 10 }] }
    { btstack_crypto := { item := 1, callback := 2, context := 3 }, buffer := 100, size := 10 }
    [] rfl rfl (by decide) (fun k => by simp)).2.2.2.2.1

/-! ### One AES-128 block -/

/-- C8: for an AES128 request at the head of the list (flag clear, transport ready),
`btstack_crypto_run` sends one `hci_le_encrypt` whose arguments are `reverse_128` of the
key and of the plaintext; when the block-encrypted event with payload `data` is handled, the
ciphertext buffer holds `reverse_128 data`, the request has left the list and its callback
has fired once (the dispatcher then runs for the rest of the list). So for a peripheral
computing `P` on the blocks it is sent, the ciphertext is
`reverse_128 (P (reverse_128 key) (reverse_128 plaintext))`. The CMAC engine sees the same
function: `sm_aes128_start key plaintext` sends the same command, and with a CMAC request
at the head the event hands `reverse_128 data` to `sm_cmac_handle_encryption_result`. -/
theorem C8_aes128_request (s : Core) (r : btstack_crypto_aes128_t) (rest : List Request)
    (can_send : Bool)
    (hq : s.btstack_crypto_operations = .aes128 r :: rest)
    (hw : s.btstack_crypto_wait_for_hci_result = false) :
    btstack_crypto_run true s =
        { s with btstack_crypto_wait_for_hci_result := true,
                 sent := s.sent ++ [.hci_le_encrypt (reverse_128 (mem_read s.mem r.key 16))
                                     (reverse_128 (mem_read s.mem r.plaintext 16))] } ∧
    (∀ data : List Nat,
      btstack_crypto_event_handler HCI_EVENT_PACKET true (.le_encrypt_complete data) can_send
          (btstack_crypto_run true s)
        = btstack_crypto_run can_send
            { s with btstack_crypto_wait_for_hci_result := false,
                     sent := s.sent ++ [.hci_le_encrypt (reverse_128 (mem_read s.mem r.key 16))
                                         (reverse_128 (mem_read s.mem r.plaintext 16))],
                     mem := mem_write s.mem r.ciphertext (reverse_128 data) 16,
                     btstack_crypto_operations := rest,
                     fired := s.fired ++ [.aes128 r] } ∧
      mem_read (btstack_crypto_event_handler HCI_EVENT_PACKET true (.le_encrypt_complete data)
          can_send (btstack_crypto_run true s)).mem r.ciphertext 16 = reverse_128 data ∧
      (btstack_crypto_event_handler HCI_EVENT_PACKET true (.le_encrypt_complete data)
          can_send (btstack_crypto_run true s)).btstack_crypto_operations = rest ∧
      (btstack_crypto_event_handler HCI_EVENT_PACKET true (.le_encrypt_complete data)
          can_send (btstack_crypto_run true s)).fired = s.fired ++ [.aes128 r]) ∧
    (∀ P : List Nat → List Nat → List Nat,
      mem_read (btstack_crypto_event_handler HCI_EVENT_PACKET true
          (.le_encrypt_complete (P (reverse_128 (mem_read s.mem r.key 16))
            (reverse_128 (mem_read s.mem r.plaintext 16))))
          can_send (btstack_crypto_run true s)).mem r.ciphertext 16
        = reverse_128 (P (reverse_128 (mem_read s.mem r.key 16))
            (reverse_128 (mem_read s.mem r.plaintext 16)))) ∧
    (∀ (key plaintext : List Nat) (t : Core),
      (sm_aes128_start key plaintext t).sent
        = t.sent ++ [.hci_le_encrypt (reverse_128 key) (reverse_128 plaintext)]) ∧
    (∀ (t : Core) (rc : btstack_crypto_aes128_cmac_t) (tag : Bool) (rest2 : List Request)
        (data : List Nat),
      t.btstack_crypto_operations
          = (if tag then Request.cmac_message rc else Request.cmac_generator rc) :: rest2 →
      btstack_crypto_handle_encryption_result data t
        = sm_cmac_handle_encryption_result rc tag (reverse_128 data)
            { t with btstack_crypto_wait_for_hci_result := false }) := by
  have e1 := run_aes128_eq true s r rest hw rfl hq
  have e2 : ∀ data : List Nat,
      btstack_crypto_event_handler HCI_EVENT_PACKET true (.le_encrypt_complete data) can_send
          (btstack_crypto_run true s)
        = btstack_crypto_run can_send
            { s with btstack_crypto_wait_for_hci_result := false,
                     sent := s.sent ++ [.hci_le_encrypt (reverse_128 (mem_read s.mem r.key 16))
                                         (reverse_128 (mem_read s.mem r.plaintext 16))],
                     mem := mem_write s.mem r.ciphertext (reverse_128 data) 16,
                     btstack_crypto_operations := rest,
                     fired := s.fired ++ [.aes128 r] } := by
    intro data
    have e := handle_encryption_result_aes128 data (btstack_crypto_run true s) r rest
      (by rw [e1]; exact hq)
    rw [event_handler_encrypt, e]
    congr 1
    rw [e1]
  have e3 : ∀ data : List Nat,
      mem_read (btstack_crypto_event_handler HCI_EVENT_PACKET true (.le_encrypt_complete data)
          can_send (btstack_crypto_run true s)).mem r.ciphertext 16 = reverse_128 data := by
    intro data
    rw [e2, (run_frame _ _).2.2]
    exact mem_read_mem_write _ _ _ (reverse_128_length _)
  refine ⟨e1, ?_, ?_, ?_, ?_⟩
  · intro data
    refine ⟨e2 data, e3 data, ?_, ?_⟩
    · rw [e2, (run_frame _ _).1]
    · rw [e2, (run_frame _ _).2.1]
  · intro P
    exact e3 _
  · intro key plaintext t
    rfl
  · intro t rc tag rest2 data ht
    exact handle_encryption_result_cmac data t rc tag rest2 ht

/-- Witness of C8: key at address 0, plaintext at 16, ciphertext at 32, in a memory
holding the byte `a` at address `a`; the event payload is 16 times `7`. -/
theorem C8_aes128_request_witness :
    (btstack_crypto_run true
        { core_init with
            mem := fun a => a,
            btstack_crypto_operations :=
              [.aes128 { btstack_crypto := { item := 1, callback := 2, context := 3 },
                         key := 0, plaintext := 16, ciphertext := 32 }] }).sent
      = [.hci_le_encrypt [15, 14, 13, 12, 11, 10, 9, 8, 7, 6, 5, 4, 3, 2, 1, 0]
          [31, 30, 29, 28, 27, 26, 25, 24, 23, 22, 21, 20, 19, 18, 17, 16]] := by
  rw [(C8_aes128_request
    { core_init with
        mem := fun a => a,
        btstack_crypto_operations :=
          [.aes128 { btstack_crypto := { item := 1, callback := 2, context := 3 },
                     key := 0, plaintext := 16, ciphertext := 32 }] }
    { btstack_crypto := { item := 1, callback := 2, context := 3 },
      key := 0, plaintext := 16, ciphertext := 32 } [] true rfl rfl).1]
  decide

/-! ### Events no request takes up -/

/-- C11 (counterexample): an AES128 request is submitted from the initial state, which
sends its `hci_le_encrypt`; a random-bytes event (kind not matching the head) is then
handled: the flag is cleared, the dispatcher runs and a second `hci_le_encrypt` is sent
while the first is unanswered. -/
theorem C11_counterexample :
    (btstack_crypto_aes128_encrypt example_aes128_request 0 16 32 2 3 true core_init).sent
        = [.hci_le_encrypt (List.replicate 16 0) (List.replicate 16 0)] ∧
      (btstack_crypto_event_handler HCI_EVENT_PACKET true
        (.le_rand_complete [1, 2, 3, 4, 5, 6, 7, 8]) true
        (btstack_crypto_aes128_encrypt example_aes128_request 0 16 32 2 3 true core_init)).sent
        = [.hci_le_encrypt (List.replicate 16 0) (List.replicate 16 0),
           .hci_le_encrypt (List.replicate 16 0) (List.replicate 16 0)] := by
  constructor <;> decide

theorem event_handler_unmatched (packet : hci_packet) (c : Bool) (s : Core)
    (h : event_unmatched packet s) :
    btstack_crypto_event_handler HCI_EVENT_PACKET true packet c s =
      btstack_crypto_run c { s with btstack_crypto_wait_for_hci_result := false } := by
  cases packet with
  | le_rand_complete data =>
    rw [event_handler_rand, handle_random_data_other data 8 c s h]
  | le_encrypt_complete data =>
    rw [event_handler_encrypt, handle_encryption_result_other data s h]
  | other => exact absurd h (by simp [event_unmatched])

/-- C11 (amended): a completion event that arrives when the list is empty, or whose kind
does not match the head request, is taken up by no request: handling it through
`btstack_crypto_event_handler` clears the outstanding-command flag and runs the
dispatcher, and nothing else; the list, the request records and caller memory are
unchanged and no callback fires. If the list is empty or the transport cannot accept a
command, nothing is sent and only the flag may change; with the list empty and the flag
already clear nothing changes. -/
theorem C11_unmatched_event (packet : hci_packet) (can_send : Bool) (s : Core)
    (h : event_unmatched packet s) :
    btstack_crypto_event_handler HCI_EVENT_PACKET true packet can_send s =
        btstack_crypto_run can_send { s with btstack_crypto_wait_for_hci_result := false } ∧
      (btstack_crypto_event_handler HCI_EVENT_PACKET true packet can_send s).btstack_crypto_operations
        = s.btstack_crypto_operations ∧
      (btstack_crypto_event_handler HCI_EVENT_PACKET true packet can_send s).fired = s.fired ∧
      (btstack_crypto_event_handler HCI_EVENT_PACKET true packet can_send s).mem = s.mem ∧
      (s.btstack_crypto_operations = [] ∨ can_send = false →
        btstack_crypto_event_handler HCI_EVENT_PACKET true packet can_send s =
          { s with btstack_crypto_wait_for_hci_result := false }) ∧
      (s.btstack_crypto_operations = [] → s.btstack_crypto_wait_for_hci_result = false →
        btstack_crypto_event_handler HCI_EVENT_PACKET true packet can_send s = s) := by
  have e := event_handler_unmatched packet can_send s h
  have hf := run_frame can_send { s with btstack_crypto_wait_for_hci_result := false }
  have h5 : s.btstack_crypto_operations = [] ∨ can_send = false →
      btstack_crypto_event_handler HCI_EVENT_PACKET true packet can_send s =
        { s with btstack_crypto_wait_for_hci_result := false } := by
    intro hc
    rw [e]
    rcases hc with hc | hc
    · exact run_of_empty _ _ hc
    · subst hc; exact run_of_not_ready _
  refine ⟨e, ?_, ?_, ?_, h5, ?_⟩
  · rw [e]; exact hf.1
  · rw [e]; exact hf.2.1
  · rw [e]; exact hf.2.2
  · intro hq hw
    rw [h5 (Or.inl hq)]
    cases s
    simp only at hw
    subst hw
    rfl

/-- Witness of C11 (amended): a random event in the initial state changes nothing. -/
theorem C11_unmatched_event_witness :
    btstack_crypto_event_handler HCI_EVENT_PACKET true
        (.le_rand_complete [1, 2, 3, 4, 5, 6, 7, 8]) true core_init = core_init :=
  (C11_unmatched_event (.le_rand_complete [1, 2, 3, 4, 5, 6, 7, 8]) true core_init
    (by intro r rest; simp [core_init])).2.2.2.2.2 rfl rfl

/-! ### The message variant of the CMAC submission -/

/-- C12 (the code at a failing input): `btstack_crypto_aes128_cmac_message` leaves the
length field of the record as it was before the call, whatever `size` is passed: the
queued record and, when the dispatcher starts the engine, `sm_cmac_message_len` hold the
old value. For a record whose field was 0 and a call with `size = 16` the engine is
started with length 0 and one block. -/
theorem C12_cmac_message_keeps_old_size :
    (∀ (request : btstack_crypto_aes128_cmac_t) (key size message hash callback
        callback_arg : Nat),
      (btstack_crypto_aes128_cmac_message request key size message hash callback callback_arg
          true core_init).btstack_crypto_operations
        = [.cmac_message
            { request with
              btstack_crypto := { item := request.btstack_crypto.item,
                                  callback := callback, context := callback_arg },
              key := key, hash := hash, generator := 0, generator_arg := message }] ∧
      (btstack_crypto_aes128_cmac_message request key size message hash callback callback_arg
          true core_init).sm_cmac_message_len = request.size) ∧
    (btstack_crypto_aes128_cmac_message { example_cmac_request with size := 0 } 0 16 200 100
        2 3 true core_init).sm_cmac_message_len = 0 ∧
    (btstack_crypto_aes128_cmac_message { example_cmac_request with size := 0 } 0 16 200 100
        2 3 true core_init).sm_cmac_block_count = 1 := by
  refine ⟨?_, rfl, rfl⟩
  intro request key size message hash callback callback_arg
  constructor
  · rw [btstack_crypto_aes128_cmac_message, (submit_frame _ _ _).1]
    rfl
  · rfl

/-! ### Results for a CMAC request, and the idle engine -/

/-- C13: with a CMAC request at the head of the list, handling a block-encrypted event
removes the request and fires its callback if and only if the engine is in phase
`CMAC_W4_MLAST`; then the byte-reversed 16-byte result is written to the hash buffer and
the phase becomes `CMAC_IDLE`. In every other phase (`CMAC_W4_SUBKEYS` and `CMAC_W4_MI`
among them) the list is unchanged, no byte of memory is written and no callback fires.
The same holds for list, callbacks and memory after the dispatcher call that ends
`btstack_crypto_event_handler`. -/
theorem C13_cmac_result (s : Core) (r : btstack_crypto_aes128_cmac_t) (tag_message : Bool)
    (rest : List Request) (data : List Nat) (can_send : Bool)
    (hq : s.btstack_crypto_operations
      = (if tag_message then Request.cmac_message r else Request.cmac_generator r) :: rest) :
    (s.sm_cmac_state = CMAC_W4_MLAST →
      (btstack_crypto_handle_encryption_result data s).btstack_crypto_operations = rest ∧
      (btstack_crypto_handle_encryption_result data s).fired
        = s.fired ++ [if tag_message then .cmac_message r else .cmac_generator r] ∧
      (btstack_crypto_handle_encryption_result data s).mem
        = mem_write s.mem r.hash (reverse_128 data) 16 ∧
      mem_read (btstack_crypto_handle_encryption_result data s).mem r.hash 16
        = reverse_128 data ∧
      (btstack_crypto_handle_encryption_result data s).sm_cmac_state = CMAC_IDLE) ∧
    (s.sm_cmac_state ≠ CMAC_W4_MLAST →
      (btstack_crypto_handle_encryption_result data s).btstack_crypto_operations
        = s.btstack_crypto_operations ∧
      (btstack_crypto_handle_encryption_result data s).fired = s.fired ∧
      (btstack_crypto_handle_encryption_result data s).mem = s.mem) ∧
    (btstack_crypto_event_handler HCI_EVENT_PACKET true (.le_encrypt_complete data) can_send
        s).btstack_crypto_operations
      = (btstack_crypto_handle_encryption_result data s).btstack_crypto_operations ∧
    (btstack_crypto_event_handler HCI_EVENT_PACKET true (.le_encrypt_complete data) can_send
        s).fired = (btstack_crypto_handle_encryption_result data s).fired ∧
    (btstack_crypto_event_handler HCI_EVENT_PACKET true (.le_encrypt_complete data) can_send
        s).mem = (btstack_crypto_handle_encryption_result data s).mem := by
  have e := handle_encryption_result_cmac data s r tag_message rest hq
  refine ⟨?_, ?_, ?_, ?_, ?_⟩
  · intro hs
    rw [e, result_w4_mlast r tag_message (reverse_128 data)
      { s with btstack_crypto_wait_for_hci_result := false } hs]
    refine ⟨?_, rfl, rfl, ?_, rfl⟩
    · show s.btstack_crypto_operations.tail = rest
      rw [hq]; rfl
    · exact mem_read_mem_write _ _ _ (reverse_128_length _)
  · intro hs
    rw [e]
    unfold sm_cmac_handle_encryption_result
    split
    · exact ⟨rfl, rfl, rfl⟩
    · exact ⟨rfl, rfl, rfl⟩
    · rename_i h3; exact absurd h3 hs
    · exact ⟨rfl, rfl, rfl⟩
  · rw [event_handler_encrypt, (run_frame _ _).1]
  · rw [event_handler_encrypt, (run_frame _ _).2.1]
  · rw [event_handler_encrypt, (run_frame _ _).2.2]

/-- Witness of C13: the last result of a CMAC computation. -/
theorem C13_cmac_result_witness :
    (btstack_crypto_handle_encryption_result (List.replicate 16 7)
        { core_init with btstack_crypto_operations := [.cmac_generator example_cmac_request],
                         sm_cmac_state := CMAC_W4_MLAST }).btstack_crypto_operations = [] :=
  ((C13_cmac_result
    { core_init with btstack_crypto_operations := [.cmac_generator example_cmac_request],
                     sm_cmac_state := CMAC_W4_MLAST }
    example_cmac_request false [] (List.replicate 16 7) true rfl).1 rfl).1

/-- C17: in phase `CMAC_IDLE` both advance handlers of the engine leave the whole state
as it is: `sm_cmac_handle_aes_engine_ready` sends nothing, and
`sm_cmac_handle_encryption_result`, for every result, writes no hash, pops nothing and
fires no callback. -/
theorem C17_idle_engine_ignores_advance (s : Core) (r : btstack_crypto_aes128_cmac_t)
    (tag_message : Bool) (data : List Nat) (h : s.sm_cmac_state = CMAC_IDLE) :
    sm_cmac_handle_aes_engine_ready s = s ∧
      sm_cmac_handle_encryption_result r tag_message data s = s := by
  constructor
  · simp [sm_cmac_handle_aes_engine_ready, h]
  · simp [sm_cmac_handle_encryption_result, h]

/-- Witness of C17: the initial state. -/
theorem C17_idle_engine_ignores_advance_witness :
    sm_cmac_handle_aes_engine_ready core_init = core_init ∧
      sm_cmac_handle_encryption_result example_cmac_request true (List.replicate 16 7) core_init
        = core_init :=
  C17_idle_engine_ignores_advance core_init example_cmac_request true (List.replicate 16 7) rfl

/-! ### Initialisation -/

theorem init_init (s : Core) : btstack_crypto_init (btstack_crypto_init s) = btstack_crypto_init s := by
  unfold btstack_crypto_init
  cases h : s.btstack_crypto_initialized <;> simp [h]

theorem init_iterate (n : Nat) (s : Core) :
    Nat.iterate btstack_crypto_init (n + 1) s = btstack_crypto_init s := by
  induction n with
  | zero => rfl
  | succ n ih =>
    rw [Function.iterate_succ_apply', ih, init_init]

/-- C14: `btstack_crypto_init` is idempotent: in every state, calling it twice, or any
number of times, leaves the state of one call; it registers the handler with the
transport when the file was not yet initialised and never again. From the initial state,
any number `n + 1` of calls leaves exactly one registered handler, so that a delivered
event is handled by `btstack_crypto_event_handler` once. -/
theorem C14_init_idempotent :
    (∀ s : Core, btstack_crypto_init (btstack_crypto_init s) = btstack_crypto_init s) ∧
    (∀ (n : Nat) (s : Core), Nat.iterate btstack_crypto_init (n + 1) s = btstack_crypto_init s) ∧
    (∀ s : Core, (btstack_crypto_init s).hci_event_handlers
      = if s.btstack_crypto_initialized then s.hci_event_handlers
        else s.hci_event_handlers + 1) ∧
    (∀ n : Nat, (Nat.iterate btstack_crypto_init (n + 1) core_init).hci_event_handlers = 1) ∧
    (∀ (n : Nat) (packet_type : Nat) (hci_working : Bool) (packet : hci_packet)
        (can_send : Bool),
      hci_emit_event packet_type hci_working packet can_send
          (Nat.iterate btstack_crypto_init (n + 1) core_init)
        = btstack_crypto_event_handler packet_type hci_working packet can_send
            (Nat.iterate btstack_crypto_init (n + 1) core_init)) := by
  refine ⟨init_init, init_iterate, ?_, ?_, ?_⟩
  · intro s
    unfold btstack_crypto_init
    cases h : s.btstack_crypto_initialized <;> simp [h]
  · intro n
    rw [init_iterate]
    rfl
  · intro n pt w packet c
    rw [init_iterate]
    rfl

/-! ### The shift, for every length -/

theorem shift_loop_getD (l : List Nat) (h : is_bytes l) (i : Nat) (hi : i < l.length) :
    (shift_loop l).2.getD i 0 = 2 * l.getD i 0 % 256 + l.getD (i + 1) 0 / 128 := by
  induction l generalizing i with
  | nil => simp at hi
  | cons d ds ih =>
    have hd : d < 256 := h d (List.mem_cons_self _ _)
    have hds : is_bytes ds := fun b hb => h b (List.mem_cons_of_mem _ hb)
    cases i with
    | zero =>
      have hc := shift_loop_carry ds
      have hn : ds.getD 0 0 < 256 := by
        cases ds with
        | nil => simp
        | cons e es => simpa using hds e (List.mem_cons_self _ _)
      have hc1 : (shift_loop ds).1 ≤ 1 := by
        rw [hc, Nat.shiftRight_eq_div_pow]; omega
      obtain ⟨e1, _, _⟩ := shift_byte d (shift_loop ds).1 hd hc1
      have h7 : d >>> 7 = d / 128 := by rw [Nat.shiftRight_eq_div_pow]
      have h8 : (shift_loop ds).1 = ds.getD 0 0 / 128 := by
        rw [hc, Nat.shiftRight_eq_div_pow]
      simp only [shift_loop, List.getD_cons_zero, List.getD_cons_succ, Nat.zero_add]
      rw [h7] at e1
      rw [← h8]
      omega
    | succ j =>
      simp only [shift_loop, List.getD_cons_succ]
      exact ih hds j (by simpa using hi)

/-- C16: for every byte array `data` (of length `len`),
`sm_shift_left_by_one_bit_inplace(len, data)` leaves the `len`-byte big-endian encoding
of `(2*v) mod 2^(8*len)`, `v` the big-endian value of `data` before the call; the length
is kept. Byte by byte: the new byte `i` is the old one shifted left within eight bits
(its top bit dropped), with the top bit of the old byte `i + 1` as its low bit, and 0 as
the low bit of the last byte. -/
theorem C16_shift_left_by_one_bit (data : List Nat) (h : is_bytes data) :
    sm_shift_left_by_one_bit_inplace data.length data
        = be_bytes data.length (2 * be_value data % 2 ^ (8 * data.length)) ∧
      (sm_shift_left_by_one_bit_inplace data.length data).length = data.length ∧
      be_value (sm_shift_left_by_one_bit_inplace data.length data)
        = 2 * be_value data % 2 ^ (8 * data.length) ∧
      (∀ i, i < data.length →
        (sm_shift_left_by_one_bit_inplace data.length data).getD i 0
          = 2 * data.getD i 0 % 256 + data.getD (i + 1) 0 / 128) := by
  have e : sm_shift_left_by_one_bit_inplace data.length data = (shift_loop data).2 := by
    simp [sm_shift_left_by_one_bit_inplace]
  obtain ⟨hl, hb, hc, hv⟩ := shift_loop_spec data h
  have hlt := be_value_lt _ hb
  rw [hl] at hlt
  have hp : (2 : Nat) ^ (8 * data.length) = 256 ^ data.length := by
    rw [show (256 : Nat) = 2 ^ 8 by norm_num, ← pow_mul]
  have hval : be_value (shift_loop data).2 = 2 * be_value data % 256 ^ data.length := by
    have hpos : 0 < 256 ^ data.length := pow_pos (by norm_num) _
    have h2 : 2 * be_value data
        = be_value (shift_loop data).2 + 256 ^ data.length * (shift_loop data).1 := by
      rw [← hv, Nat.mul_comm (256 ^ data.length)]
    rw [h2, Nat.add_mul_mod_self_left, Nat.mod_eq_of_lt hlt]
  rw [e, hp]
  refine ⟨?_, hl, hval, ?_⟩
  · apply be_value_inj _ _ (by rw [hl, be_bytes_length]) hb (be_bytes_is_bytes _ _)
    rw [be_value_be_bytes, Nat.mod_mod, hval]
  · intro i hi
    exact shift_loop_getD data h i hi

/-- Witness of C16: three bytes, with a carry out of each. -/
theorem C16_shift_left_by_one_bit_witness :
    sm_shift_left_by_one_bit_inplace 3 [0x81, 0x80, 0xff]
      = be_bytes 3 (2 * be_value [0x81, 0x80, 0xff] % 2 ^ (8 * 3)) :=
  (C16_shift_left_by_one_bit [0x81, 0x80, 0xff] (by unfold is_bytes; decide)).1

/-! ### A Random request for no bytes -/

theorem mem_write_zero (mem : Nat → Nat) (dst : Nat) (src : List Nat) :
    mem_write mem dst src 0 = mem := by
  funext a
  unfold mem_write
  rw [if_neg (by omega)]

/-- C20: a Random request submitted with size 0 is queued, not completed: the submission
fires no callback, and into an empty list with the flag clear and the transport ready it
sends one `hci_le_rand`. With such a request at the head, the dispatcher sends one
`hci_le_rand`, and the request leaves the list and its callback fires when that random
event is handled; no byte is copied: memory is as before. -/
theorem C20_random_request_of_size_zero :
    (∀ (request : btstack_crypto_random_t) (buffer callback callback_arg : Nat)
        (can_send : Bool) (s : Core),
      (btstack_crypto_random_generate request buffer 0 callback callback_arg can_send s).fired
          = s.fired ∧
        (btstack_crypto_random_generate request buffer 0 callback callback_arg can_send
            s).btstack_crypto_operations
          = s.btstack_crypto_operations ++
            [.random { btstack_crypto := { item := request.btstack_crypto.item,
                                           callback := callback, context := callback_arg },
                       buffer := buffer, size := 0 }]) ∧
    (∀ (request : btstack_crypto_random_t) (buffer callback callback_arg : Nat) (s : Core),
      s.btstack_crypto_operations = [] → s.btstack_crypto_wait_for_hci_result = false →
      (btstack_crypto_random_generate request buffer 0 callback callback_arg true s).sent
        = s.sent ++ [.hci_le_rand]) ∧
    (∀ (s : Core) (r : btstack_crypto_random_t) (rest : List Request) (data : List Nat)
        (can_send : Bool),
      s.btstack_crypto_operations = .random r :: rest →
      s.btstack_crypto_wait_for_hci_result = false → r.size = 0 →
      (btstack_crypto_run true s).sent = s.sent ++ [.hci_le_rand] ∧
        (btstack_crypto_run true s).fired = s.fired ∧
        (btstack_crypto_run true s).btstack_crypto_operations = .random r :: rest ∧
        (btstack_crypto_event_handler HCI_EVENT_PACKET true (.le_rand_complete data) can_send
            (btstack_crypto_run true s)).fired = s.fired ++ [.random r] ∧
        (btstack_crypto_event_handler HCI_EVENT_PACKET true (.le_rand_complete data) can_send
            (btstack_crypto_run true s)).btstack_crypto_operations = rest ∧
        (btstack_crypto_event_handler HCI_EVENT_PACKET true (.le_rand_complete data) can_send
            (btstack_crypto_run true s)).mem = s.mem) := by
  refine ⟨?_, ?_, ?_⟩
  · intro request buffer callback callback_arg can_send s
    rw [btstack_crypto_random_generate]
    exact ⟨(submit_frame _ _ _).2, (submit_frame _ _ _).1⟩
  · intro request buffer callback callback_arg s hq hw
    rw [btstack_crypto_random_generate,
      run_random_eq true (btstack_linked_list_add_tail _ s)
        { btstack_crypto := { item := request.btstack_crypto.item,
                              callback := callback, context := callback_arg },
          buffer := buffer, size := 0 } [] hw rfl
        (by simp [btstack_linked_list_add_tail, hq])]
    rfl
  · intro s r rest data can_send hq hw h0
    obtain ⟨base, buf, sz⟩ := r
    simp only at h0
    subst h0
    have e1 := run_random_eq true s _ rest hw rfl hq
    have e2 := handle_random_data_random data 8 can_send (btstack_crypto_run true s) _ rest
      (by rw [e1]; exact hq)
    have hmin : min 0 8 = 0 := by decide
    simp only [hmin, Nat.sub_zero, Nat.add_zero, if_true] at e2
    rw [event_handler_rand, e2, run_run]
    refine ⟨by rw [e1], by rw [e1], by rw [e1]; exact hq, ?_, ?_, ?_⟩
    · rw [(run_frame _ _).2.1, e1]
    · rw [(run_frame _ _).1]
    · rw [(run_frame _ _).2.2]
      show mem_write _ _ _ 0 = _
      rw [mem_write_zero, e1]

/-- Witness of C20: a request for 0 bytes submitted in the initial state, then the
random event. -/
theorem C20_random_request_of_size_zero_witness :
    (btstack_crypto_event_handler HCI_EVENT_PACKET true
        (.le_rand_complete [1, 2, 3, 4, 5, 6, 7, 8]) true
        (btstack_crypto_run true
          { core_init with btstack_crypto_operations :=
              [.random { btstack_crypto := { item := 1, callback := 2, context := 3 },
                         buffer := 100, size := 0 }] })).mem = core_init.mem :=
  (C20_random_request_of_size_zero.2.2
    { core_init with btstack_crypto_operations :=
        [.random { btstack_crypto := { item := 1, callback := 2, context := 3 },
                   buffer := 100, size := 0 }] }
    { btstack_crypto := { item := 1, callback := 2, context := 3 }, buffer := 100, size := 0 }
    [] [1, 2, 3, 4, 5, 6, 7, 8] true rfl rfl rfl).2.2.2.2.2

/-! ### The commands of one CMAC computation -/

theorem cmac_drive_sent_from_calc (E : List Nat → List Nat → List Nat)
    (r : btstack_crypto_aes128_cmac_t) (tag : Bool) (K : List Nat) (L : Nat) (m : Nat → Nat)
    (s : Core) (hK : K.length = 16)
    (hE : ∀ k p, (E k p).length = 16 ∧ is_bytes (E k p)) (hL : L ≤ 4080) :
    ∀ (fuel i : Nat) (t : Core), calc_inv E K L m s i t → i + 1 ≤ rfc_n L →
      rfc_n L - i ≤ fuel →
      (cmac_drive E r tag fuel (sm_cmac_handle_aes_engine_ready t)).sent
        = t.sent ++ (List.range' i (rfc_n L - 1 - i)).map (cmac_block_cmd E K m)
            ++ [cmac_last_cmd E K L m] := by
  obtain ⟨hn1, hn255⟩ := rfc_n_bounds L hL
  intro fuel
  induction fuel with
  | zero => intro i t _ h1 h2; omega
  | succ fuel ih =>
    intro i t hinv h1 h2
    obtain ⟨hst, hk, hx, hml, hcur, hcnt, hgb, hmem, hfired, hops⟩ := hinv
    by_cases hi : i + 1 < rfc_n L
    · rw [if_pos hi] at hst
      have e1 := engine_ready_calc_mi t hst
      have hy : (List.range 16).map (fun j => t.sm_cmac_x.getD j 0 ^^^
          t.sm_cmac_get_byte ((t.sm_cmac_block_current * 16 + j) % 65536))
          = xor_block (rfc_cbc E K m i) (rfc_block m i) := by
        unfold xor_block rfc_block
        apply List.map_congr_left
        intro j hj
        have hj16 : j < 16 := List.mem_range.mp hj
        rw [getD_range_map _ 16 j hj16, hx, hgb, hcur, Nat.mod_eq_of_lt (by omega),
          Nat.mul_comm i 16]
      have hsent : (sm_cmac_handle_aes_engine_ready t).sent
          = t.sent ++ [cmac_block_cmd E K m i] := by
        rw [e1, hk, hy]; rfl
      have hle : last_encryption (sm_cmac_handle_aes_engine_ready t)
          = some (K, xor_block (rfc_cbc E K m i) (rfc_block m i)) :=
        last_encryption_append _ t.sent _ _ hsent hK (xor_block_length _ _)
      have hs1 : (sm_cmac_handle_aes_engine_ready t).sm_cmac_state = CMAC_W4_MI := by rw [e1]
      have e2 := result_w4_mi r tag
        (E K (xor_block (rfc_cbc E K m i) (rfc_block m i))) _ hs1
      have hne : (sm_cmac_handle_encryption_result r tag
          (E K (xor_block (rfc_cbc E K m i) (rfc_block m i)))
          (sm_cmac_handle_aes_engine_ready t)).sm_cmac_state ≠ CMAC_IDLE := by
        rw [e2]; exact phase_after_result_ne_idle _
      rw [cmac_drive_step E r tag fuel _ _ _ hle hne]
      have hmod : (i + 1) % 256 = i + 1 := Nat.mod_eq_of_lt (by omega)
      have hinv2 : calc_inv E K L m s (i + 1) (sm_cmac_handle_encryption_result r tag
          (E K (xor_block (rfc_cbc E K m i) (rfc_block m i)))
          (sm_cmac_handle_aes_engine_ready t)) := by
        rw [e2, e1]
        refine ⟨?_, hk, ?_, hml, ?_, hcnt, hgb, hmem, hfired, hops⟩
        · simp only [sm_cmac_phase_after_result, hcur, hcnt, hmod]
        · show List.take 16 _ = rfc_cbc E K m (i + 1)
          rw [rfc_cbc, ← (hE _ _).1, List.take_length]
        · show (t.sm_cmac_block_current + 1) % 256 = i + 1
          rw [hcur, hmod]
      rw [ih (i + 1) _ hinv2 (by omega) (by omega)]
      have hs2 : (sm_cmac_handle_encryption_result r tag
          (E K (xor_block (rfc_cbc E K m i) (rfc_block m i)))
          (sm_cmac_handle_aes_engine_ready t)).sent = t.sent ++ [cmac_block_cmd E K m i] := by
        rw [e2]; exact hsent
      rw [hs2, show rfc_n L - 1 - i = (rfc_n L - 1 - (i + 1)) + 1 by omega, List.range'_succ]
      simp
    · rw [if_neg hi] at hst
      have hin : i + 1 = rfc_n L := by omega
      have hi1 : rfc_n L - 1 = i := by omega
      have e1 := engine_ready_calc_mlast t hst
      have hsent : (sm_cmac_handle_aes_engine_ready t).sent
          = t.sent ++ [cmac_last_cmd E K L m] := by
        rw [e1, hk, hx, hml, cmac_last_cmd, hi1]; rfl
      have hle : last_encryption (sm_cmac_handle_aes_engine_ready t)
          = some (K, xor_block (rfc_cbc E K m i) (rfc_m_last E K L m)) := by
        apply last_encryption_append _ t.sent
        · rw [hsent, cmac_last_cmd, hi1]; rfl
        · exact hK
        · exact xor_block_length _ _
      have hs1 : (sm_cmac_handle_aes_engine_ready t).sm_cmac_state = CMAC_W4_MLAST := by
        rw [e1]
      have e2 := result_w4_mlast r tag
        (E K (xor_block (rfc_cbc E K m i) (rfc_m_last E K L m))) _ hs1
      have he : (sm_cmac_handle_encryption_result r tag
          (E K (xor_block (rfc_cbc E K m i) (rfc_m_last E K L m)))
          (sm_cmac_handle_aes_engine_ready t)).sm_cmac_state = CMAC_IDLE := by
        rw [e2]
      rw [cmac_drive_stop E r tag fuel _ _ _ hle he, e2]
      show (sm_cmac_handle_aes_engine_ready t).sent = _
      rw [hsent, show rfc_n L - 1 - i = 0 by omega]
      simp

theorem cmac_start_step (E : List Nat → List Nat → List Nat)
    (r : btstack_crypto_aes128_cmac_t) (tag : Bool) (K : List Nat) (L : Nat) (m : Nat → Nat)
    (s : Core) (fuel : Nat) (hK : K.length = 16)
    (hE : ∀ k p, (E k p).length = 16 ∧ is_bytes (E k p)) (hL : L ≤ 4080) :
    cmac_drive E r tag (fuel + 1) (sm_cmac_general_start K L m s)
        = cmac_drive E r tag fuel (sm_cmac_handle_aes_engine_ready
            (sm_cmac_handle_encryption_result r tag (E K (List.replicate 16 0))
              (sm_cmac_general_start K L m s))) ∧
      calc_inv E K L m s 0 (sm_cmac_handle_encryption_result r tag (E K (List.replicate 16 0))
        (sm_cmac_general_start K L m s)) ∧
      (sm_cmac_handle_encryption_result r tag (E K (List.replicate 16 0))
        (sm_cmac_general_start K L m s)).sent
        = s.sent ++ [aes128_cmd K (List.replicate 16 0)] := by
  obtain ⟨hn1, hn255⟩ := rfc_n_bounds L hL
  have hcount : (if ((L + 15) / 16) % 256 = 0 then 1 else ((L + 15) / 16) % 256) = rfc_n L := by
    unfold rfc_n; split <;> split <;> omega
  have e0 := sm_cmac_general_start_eq K L m s
  have hKt : K.take 16 = K := by rw [← hK]; exact List.take_length _
  rw [hKt, hcount] at e0
  have hle : last_encryption (sm_cmac_general_start K L m s)
      = some (K, List.replicate 16 0) := by
    apply last_encryption_append _ s.sent
    · rw [e0]
    · exact hK
    · simp
  have hs0 : (sm_cmac_general_start K L m s).sm_cmac_state = CMAC_W4_SUBKEYS := by rw [e0]
  have e1 := result_w4_subkeys r tag (E K (List.replicate 16 0)) _ hs0
  have hne : (sm_cmac_handle_encryption_result r tag (E K (List.replicate 16 0))
      (sm_cmac_general_start K L m s)).sm_cmac_state ≠ CMAC_IDLE := by
    rw [e1]; exact phase_after_result_ne_idle _
  obtain ⟨hk1, hk2⟩ := sm_cmac_subkeys_eq_rfc E K hE
  have hlen0 : (sm_cmac_general_start K L m s).sm_cmac_message_len = L := by rw [e0]
  have hgb0 : (sm_cmac_general_start K L m s).sm_cmac_get_byte = m := by rw [e0]
  have hml : sm_cmac_calc_m_last (sm_cmac_subkey (E K (List.replicate 16 0)))
      (sm_cmac_subkey (sm_cmac_subkey (E K (List.replicate 16 0))))
      (sm_cmac_general_start K L m s) = rfc_m_last E K L m := by
    rw [sm_cmac_calc_m_last_eq_rfc _ _ _ (by rw [hlen0]; omega), hlen0, hgb0, hk2, hk1]
    rfl
  refine ⟨cmac_drive_step E r tag fuel _ _ _ hle hne, ?_, ?_⟩
  · rw [e1]
    refine ⟨?_, ?_, ?_, hml, ?_, ?_, ?_, ?_, ?_, ?_⟩
    · show sm_cmac_phase_after_result _ = _
      unfold sm_cmac_phase_after_result
      rw [e0]
    all_goals rw [e0]
    · rfl
  · rw [e1]
    show (sm_cmac_general_start K L m s).sent = _
    rw [e0]
    rfl

/-- C15: for every message length `0 <= L <= 4080` (block function `E` with 16-byte
outputs, 16-byte key `K`, byte source `m`), the commands a CMAC computation sends until
its callback fires are, in this order: one with the all-zero plaintext, then for
`i = 0 .. n-2` one with plaintext `X XOR block_i`, then one with plaintext
`X XOR M_last`, all under the key `K`: `n + 1` commands, `n = max(1, ceil(L/16))` the
block count. Each issue leaves the engine in the W4 phase of the CALC phase it was in. -/
theorem C15_cmac_commands (E : List Nat → List Nat → List Nat)
    (r : btstack_crypto_aes128_cmac_t) (tag_message : Bool) (K : List Nat) (L : Nat)
    (m : Nat → Nat) (s : Core) (fuel : Nat)
    (hK : K.length = 16)
    (hE : ∀ k p, (E k p).length = 16 ∧ is_bytes (E k p))
    (hL : L ≤ 4080) (hfuel : max 1 ((L + 15) / 16) + 1 ≤ fuel) :
    (cmac_drive E r tag_message fuel (sm_cmac_general_start K L m s)).sent
        = s.sent ++ aes128_cmd K (List.replicate 16 0) ::
            ((List.range (max 1 ((L + 15) / 16) - 1)).map (cmac_block_cmd E K m)
              ++ [cmac_last_cmd E K L m]) ∧
      (aes128_cmd K (List.replicate 16 0) ::
            ((List.range (max 1 ((L + 15) / 16) - 1)).map (cmac_block_cmd E K m)
              ++ [cmac_last_cmd E K L m])).length = max 1 ((L + 15) / 16) + 1 ∧
      (sm_cmac_general_start K L m s).sm_cmac_block_count = max 1 ((L + 15) / 16) ∧
      (cmac_drive E r tag_message fuel (sm_cmac_general_start K L m s)).fired
        = s.fired ++ [if tag_message then .cmac_message r else .cmac_generator r] ∧
      (∀ t : Core, t.sm_cmac_state = CMAC_CALC_SUBKEYS →
        (sm_cmac_handle_aes_engine_ready t).sm_cmac_state = CMAC_W4_SUBKEYS ∧
        (sm_cmac_handle_aes_engine_ready t).sent
          = t.sent ++ [aes128_cmd t.sm_cmac_k (List.replicate 16 0)]) ∧
      (∀ t : Core, t.sm_cmac_state = CMAC_CALC_MI →
        (sm_cmac_handle_aes_engine_ready t).sm_cmac_state = CMAC_W4_MI ∧
        (sm_cmac_handle_aes_engine_ready t).sm_cmac_block_current
          = (t.sm_cmac_block_current + 1) % 256 ∧
        (sm_cmac_handle_aes_engine_ready t).sent
          = t.sent ++ [aes128_cmd t.sm_cmac_k
              (xor_block t.sm_cmac_x
                ((List.range 16).map (fun j =>
                  t.sm_cmac_get_byte ((t.sm_cmac_block_current * 16 + j) % 65536))))]) ∧
      (∀ t : Core, t.sm_cmac_state = CMAC_CALC_MLAST →
        (sm_cmac_handle_aes_engine_ready t).sm_cmac_state = CMAC_W4_MLAST ∧
        (sm_cmac_handle_aes_engine_ready t).sent
          = t.sent ++ [aes128_cmd t.sm_cmac_k (xor_block t.sm_cmac_x t.sm_cmac_m_last)]) := by
  have hn : rfc_n L = max 1 ((L + 15) / 16) := by
    unfold rfc_n; split <;> omega
  obtain ⟨hn1, hn255⟩ := rfc_n_bounds L hL
  rw [← hn] at hfuel ⊢
  obtain ⟨fuel1, rfl⟩ : ∃ f, fuel = f + 1 := ⟨fuel - 1, by omega⟩
  obtain ⟨hstep, hinv, hsent⟩ := cmac_start_step E r tag_message K L m s fuel1 hK hE hL
  refine ⟨?_, ?_, ?_, ?_, ?_, ?_, ?_⟩
  · rw [hstep, cmac_drive_sent_from_calc E r tag_message K L m s hK hE hL fuel1 0 _ hinv
      (by omega) (by omega), hsent, Nat.sub_zero, ← List.range_eq_range']
    simp
  · simp
    omega
  · rw [sm_cmac_general_start_block_count_small K L m s hL, hn]
  · rw [hstep]
    exact (cmac_drive_from_calc E r tag_message K L m s hK hE hL fuel1 0 _ hinv
      (by omega) (by omega)).1.2.2.1
  · intro t ht
    rw [engine_ready_calc_subkeys t ht]
    exact ⟨rfl, rfl⟩
  · intro t ht
    rw [engine_ready_calc_mi t ht]
    refine ⟨rfl, rfl, ?_⟩
    show t.sent ++ _ = t.sent ++ _
    congr 3
  · intro t ht
    rw [engine_ready_calc_mlast t ht]
    exact ⟨rfl, rfl⟩

/-- Witness of C15: 40 bytes, three blocks, four commands, with `E` = AES-128. -/
theorem C15_cmac_commands_witness :
    (cmac_drive aes128 example_cmac_request false 4
        (sm_cmac_general_start rfc4493_key 40 rfc4493_message core_init)).sent.length = 4 := by
  rw [(C15_cmac_commands aes128 example_cmac_request false rfc4493_key 40 rfc4493_message
    core_init 4 (by decide) aes128_block (by decide) (by decide)).1]
  rfl

/-! ### The offsets handed to the byte source -/

/-- The engine reads the byte source at the listed offsets only (advance). -/
theorem engine_ready_reads (s : Core) (m2 : Nat → Nat)
    (h : ∀ o ∈ sm_cmac_get_byte_offsets_ready s, m2 o = s.sm_cmac_get_byte o) :
    sm_cmac_handle_aes_engine_ready { s with sm_cmac_get_byte := m2 }
      = { sm_cmac_handle_aes_engine_ready s with sm_cmac_get_byte := m2 } := by
  obtain ⟨st, hs⟩ : ∃ st, s.sm_cmac_state = st := ⟨_, rfl⟩
  cases st with
  | CMAC_CALC_MI =>
    have hs2 : ({ s with sm_cmac_get_byte := m2 } : Core).sm_cmac_state = CMAC_CALC_MI := hs
    rw [engine_ready_calc_mi _ hs2, engine_ready_calc_mi s hs]
    have hy : (List.range 16).map (fun j => s.sm_cmac_x.getD j 0 ^^^
          m2 ((s.sm_cmac_block_current * 16 + j) % 65536))
        = (List.range 16).map (fun j => s.sm_cmac_x.getD j 0 ^^^
          s.sm_cmac_get_byte ((s.sm_cmac_block_current * 16 + j) % 65536)) := by
      apply List.map_congr_left
      intro j hj
      rw [h _ (by
        simp only [sm_cmac_get_byte_offsets_ready, hs]
        exact List.mem_map.mpr ⟨j, hj, rfl⟩)]
    show Core.mk _ _ _ _ _ _ _ _ _ _ _ _ _ _ _ = Core.mk _ _ _ _ _ _ _ _ _ _ _ _ _ _ _
    simp only [hy]
  | CMAC_IDLE => simp [sm_cmac_handle_aes_engine_ready, hs]
  | CMAC_CALC_SUBKEYS =>
    simp [sm_cmac_handle_aes_engine_ready, hs, sm_aes128_start, hci_send_cmd]
  | CMAC_W4_SUBKEYS => simp [sm_cmac_handle_aes_engine_ready, hs]
  | CMAC_W4_MI => simp [sm_cmac_handle_aes_engine_ready, hs]
  | CMAC_CALC_MLAST =>
    simp [sm_cmac_handle_aes_engine_ready, hs, sm_aes128_start, hci_send_cmd]
  | CMAC_W4_MLAST => simp [sm_cmac_handle_aes_engine_ready, hs]

theorem calc_m_last_reads (k1 k2 : List Nat) (s : Core) (m2 : Nat → Nat)
    (hs : s.sm_cmac_state = CMAC_W4_SUBKEYS)
    (h : ∀ o ∈ sm_cmac_get_byte_offsets_result s, m2 o = s.sm_cmac_get_byte o) :
    sm_cmac_calc_m_last k1 k2 { s with sm_cmac_get_byte := m2 }
      = sm_cmac_calc_m_last k1 k2 s := by
  simp only [sm_cmac_get_byte_offsets_result, hs] at h
  unfold sm_cmac_calc_m_last
  have hc : sm_cmac_last_block_complete { s with sm_cmac_get_byte := m2 }
      = sm_cmac_last_block_complete s := rfl
  rw [hc]
  cases hcomp : sm_cmac_last_block_complete s with
  | true =>
    rw [hcomp] at h
    simp only [if_true] at h ⊢
    apply List.map_congr_left
    intro i hi
    show m2 _ ^^^ _ = _
    rw [h _ (List.mem_map.mpr ⟨i, hi, rfl⟩)]
  | false =>
    rw [hcomp] at h
    simp only [Bool.false_eq_true, if_false] at h ⊢
    apply List.map_congr_left
    intro i hi
    by_cases hlt : i < s.sm_cmac_message_len &&& 0x0f
    · show (if i < s.sm_cmac_message_len &&& 0x0f then m2 _ ^^^ _ else _) = _
      rw [if_pos hlt, if_pos hlt,
        h _ (List.mem_map.mpr ⟨i, List.mem_filter.mpr ⟨hi, by simpa using hlt⟩, rfl⟩)]
    · show (if i < s.sm_cmac_message_len &&& 0x0f then m2 _ ^^^ _ else _) = _
      rw [if_neg hlt, if_neg hlt]

/-- The engine reads the byte source at the listed offsets only (result). -/
theorem result_reads (r : btstack_crypto_aes128_cmac_t) (tag : Bool) (data : List Nat)
    (s : Core) (m2 : Nat → Nat)
    (h : ∀ o ∈ sm_cmac_get_byte_offsets_result s, m2 o = s.sm_cmac_get_byte o) :
    sm_cmac_handle_encryption_result r tag data { s with sm_cmac_get_byte := m2 }
      = { sm_cmac_handle_encryption_result r tag data s with sm_cmac_get_byte := m2 } := by
  obtain ⟨st, hs⟩ : ∃ st, s.sm_cmac_state = st := ⟨_, rfl⟩
  cases st with
  | CMAC_W4_SUBKEYS =>
    have hs2 : ({ s with sm_cmac_get_byte := m2 } : Core).sm_cmac_state = CMAC_W4_SUBKEYS := hs
    rw [result_w4_subkeys r tag data _ hs2, result_w4_subkeys r tag data s hs,
      calc_m_last_reads _ _ s m2 hs h]
    rfl
  | CMAC_IDLE => simp [sm_cmac_handle_encryption_result, hs]
  | CMAC_CALC_SUBKEYS => simp [sm_cmac_handle_encryption_result, hs]
  | CMAC_CALC_MI => simp [sm_cmac_handle_encryption_result, hs]
  | CMAC_W4_MI =>
    simp [sm_cmac_handle_encryption_result, hs, sm_cmac_phase_after_result]
  | CMAC_CALC_MLAST => simp [sm_cmac_handle_encryption_result, hs]
  | CMAC_W4_MLAST =>
    simp [sm_cmac_handle_encryption_result, hs, fire_callback, btstack_linked_list_pop]

theorem offsets_inv_start (K : List Nat) (L : Nat) (m : Nat → Nat) (s : Core) :
    offsets_inv L (sm_cmac_general_start K L m s) := by
  rw [sm_cmac_general_start_eq]
  refine ⟨rfl, ?_, ?_⟩
  · show 16 * ((if ((L + 15) / 16) % 256 = 0 then 1 else ((L + 15) / 16) % 256) - 1) ≤ L
    split <;> omega
  · intro h
    exact absurd h (by simp)

theorem offsets_inv_result (L : Nat) (r : btstack_crypto_aes128_cmac_t) (tag : Bool)
    (data : List Nat) (t : Core) (h : offsets_inv L t) :
    offsets_inv L (sm_cmac_handle_encryption_result r tag data t) := by
  obtain ⟨h1, h2, h3⟩ := h
  have hp : sm_cmac_phase_after_result t = CMAC_CALC_MI →
      t.sm_cmac_block_current + 1 < t.sm_cmac_block_count := by
    unfold sm_cmac_phase_after_result
    split
    · intro _; assumption
    · intro hc; exact absurd hc (by simp)
  unfold sm_cmac_handle_encryption_result
  split
  · exact ⟨h1, h2, hp⟩
  · exact ⟨h1, h2, hp⟩
  · exact ⟨h1, h2, fun hc => absurd hc (by simp [fire_callback, btstack_linked_list_pop])⟩
  · exact ⟨h1, h2, h3⟩

theorem offsets_inv_ready (L : Nat) (t : Core) (h : offsets_inv L t) :
    offsets_inv L (sm_cmac_handle_aes_engine_ready t) := by
  obtain ⟨h1, h2, h3⟩ := h
  unfold sm_cmac_handle_aes_engine_ready
  split
  · rename_i hs
    exact ⟨h1, h2, fun hc => absurd hc (by
      simp [sm_aes128_start, hci_send_cmd, hs, sm_cmac_next_state])⟩
  · rename_i hs
    exact ⟨h1, h2, fun hc => absurd hc (by
      simp [sm_aes128_start, hci_send_cmd, hs, sm_cmac_next_state])⟩
  · rename_i hs
    exact ⟨h1, h2, fun hc => absurd hc (by
      simp [sm_aes128_start, hci_send_cmd, hs, sm_cmac_next_state])⟩
  · exact ⟨h1, h2, h3⟩

theorem offsets_result_lt (L : Nat) (hL : L < 65536) (t : Core) (h : offsets_inv L t) :
    ∀ o ∈ sm_cmac_get_byte_offsets_result t, o < L := by
  obtain ⟨h1, _, _⟩ := h
  subst h1
  intro o ho
  unfold sm_cmac_get_byte_offsets_result at ho
  split at ho
  · unfold sm_cmac_last_block_complete at ho
    simp only [land_0x0f, land_0xfff0 _ hL] at ho
    by_cases h0 : t.sm_cmac_message_len = 0
    · simp [h0] at ho
    · by_cases h16 : t.sm_cmac_message_len % 16 = 0
      · simp only [h0, h16, if_false, beq_self_eq_true, if_true] at ho
        obtain ⟨i, hi, rfl⟩ := List.mem_map.mp ho
        have hi16 : i < 16 := List.mem_range.mp hi
        omega
      · have hb : (t.sm_cmac_message_len % 16 == 0) = false := by simpa using h16
        simp only [h0, hb, if_false, Bool.false_eq_true] at ho
        obtain ⟨i, hi, rfl⟩ := List.mem_map.mp ho
        have hlt : i < t.sm_cmac_message_len % 16 := by simpa using (List.mem_filter.mp hi).2
        omega
  · simp at ho

theorem offsets_ready_lt (L : Nat) (t : Core) (h : offsets_inv L t) :
    ∀ o ∈ sm_cmac_get_byte_offsets_ready t, o < L := by
  obtain ⟨_, h2, h3⟩ := h
  intro o ho
  unfold sm_cmac_get_byte_offsets_ready at ho
  split at ho
  · rename_i hs
    have := h3 hs
    obtain ⟨j, hj, rfl⟩ := List.mem_map.mp ho
    have hj16 : j < 16 := List.mem_range.mp hj
    omega
  · simp at ho

theorem cmac_drive_offsets_lt (E : List Nat → List Nat → List Nat)
    (r : btstack_crypto_aes128_cmac_t) (tag : Bool) (L : Nat) (hL : L < 65536) :
    ∀ (fuel : Nat) (t : Core), offsets_inv L t →
      ∀ o ∈ cmac_drive_offsets E r tag fuel t, o < L := by
  intro fuel
  induction fuel with
  | zero => intro t _ o ho; simp [cmac_drive_offsets] at ho
  | succ fuel ih =>
    intro t ht o ho
    unfold cmac_drive_offsets at ho
    split at ho
    · simp at ho
    · rename_i k p _
      simp only [List.mem_append] at ho
      rcases ho with ho | ho
      · exact offsets_result_lt L hL t ht o ho
      · split at ho
        · simp at ho
        · have ht1 := offsets_inv_result L r tag (E k p) t ht
          simp only [List.mem_append] at ho
          rcases ho with ho | ho
          · exact offsets_ready_lt L _ ht1 o ho
          · exact ih _ (offsets_inv_ready L _ ht1) o ho

theorem result_get_byte (r : btstack_crypto_aes128_cmac_t) (tag : Bool) (data : List Nat)
    (t : Core) :
    (sm_cmac_handle_encryption_result r tag data t).sm_cmac_get_byte = t.sm_cmac_get_byte := by
  unfold sm_cmac_handle_encryption_result
  split <;> simp [fire_callback, btstack_linked_list_pop]

theorem engine_ready_get_byte (t : Core) :
    (sm_cmac_handle_aes_engine_ready t).sm_cmac_get_byte = t.sm_cmac_get_byte := by
  unfold sm_cmac_handle_aes_engine_ready
  split <;> simp [sm_aes128_start, hci_send_cmd]

theorem cmac_drive_reads (E : List Nat → List Nat → List Nat)
    (r : btstack_crypto_aes128_cmac_t) (tag : Bool) (L : Nat) (hL : L < 65536)
    (m2 : Nat → Nat) :
    ∀ (fuel : Nat) (t : Core), offsets_inv L t → (∀ o, o < L → m2 o = t.sm_cmac_get_byte o) →
      cmac_drive E r tag fuel { t with sm_cmac_get_byte := m2 }
        = { cmac_drive E r tag fuel t with sm_cmac_get_byte := m2 } := by
  intro fuel
  induction fuel with
  | zero => intro t _ _; rfl
  | succ fuel ih =>
    intro t ht hm
    have hle : last_encryption { t with sm_cmac_get_byte := m2 } = last_encryption t := rfl
    cases hl : last_encryption t with
    | none => simp [cmac_drive, hle, hl]
    | some kp =>
      obtain ⟨k, p⟩ := kp
      have e1 := result_reads r tag (E k p) t m2
        (fun o ho => hm o (offsets_result_lt L hL t ht o ho))
      have ht1 := offsets_inv_result L r tag (E k p) t ht
      have hg1 := result_get_byte r tag (E k p) t
      by_cases hidle : (sm_cmac_handle_encryption_result r tag (E k p) t).sm_cmac_state
          = CMAC_IDLE
      · have hidle2 : (sm_cmac_handle_encryption_result r tag (E k p)
            { t with sm_cmac_get_byte := m2 }).sm_cmac_state = CMAC_IDLE := by
          rw [e1]; exact hidle
        rw [cmac_drive_stop E r tag fuel _ k p (hle.trans hl) hidle2,
          cmac_drive_stop E r tag fuel _ k p hl hidle, e1]
      · have hidle2 : (sm_cmac_handle_encryption_result r tag (E k p)
            { t with sm_cmac_get_byte := m2 }).sm_cmac_state ≠ CMAC_IDLE := by
          rw [e1]; exact hidle
        rw [cmac_drive_step E r tag fuel _ k p (hle.trans hl) hidle2,
          cmac_drive_step E r tag fuel _ k p hl hidle, e1,
          engine_ready_reads _ m2 (fun o ho => by
            rw [hg1]; exact hm o (offsets_ready_lt L _ ht1 o ho))]
        exact ih _ (offsets_inv_ready L _ ht1) (fun o ho => by
          rw [engine_ready_get_byte, hg1]; exact hm o ho)

/-- C18: for every 16-bit message length `L` and every run of a CMAC computation started
by `sm_cmac_general_start` (any block function, any number of answers), every offset
handed to the byte source is below `L`; for `L = 0` the byte source is not called. The
engine reads the byte source at the listed offsets only, so the run (hash buffer,
commands, callback, phase) is the same for two byte sources that agree below `L`. -/
theorem C18_byte_source_offsets (E : List Nat → List Nat → List Nat)
    (r : btstack_crypto_aes128_cmac_t) (tag_message : Bool) (K : List Nat) (L : Nat)
    (m : Nat → Nat) (s : Core) (fuel : Nat) (hL : L < 65536) :
    (∀ o ∈ cmac_drive_offsets E r tag_message fuel (sm_cmac_general_start K L m s), o < L) ∧
    (L = 0 → cmac_drive_offsets E r tag_message fuel (sm_cmac_general_start K L m s) = []) ∧
    (∀ m2 : Nat → Nat, (∀ o, o < L → m2 o = m o) →
      cmac_drive E r tag_message fuel (sm_cmac_general_start K L m2 s)
        = { cmac_drive E r tag_message fuel (sm_cmac_general_start K L m s) with
            sm_cmac_get_byte := m2 } ∧
      (cmac_drive E r tag_message fuel (sm_cmac_general_start K L m2 s)).mem
        = (cmac_drive E r tag_message fuel (sm_cmac_general_start K L m s)).mem ∧
      (cmac_drive E r tag_message fuel (sm_cmac_general_start K L m2 s)).sent
        = (cmac_drive E r tag_message fuel (sm_cmac_general_start K L m s)).sent) ∧
    (∀ (t : Core) (m2 : Nat → Nat),
      (∀ o ∈ sm_cmac_get_byte_offsets_ready t, m2 o = t.sm_cmac_get_byte o) →
      sm_cmac_handle_aes_engine_ready { t with sm_cmac_get_byte := m2 }
        = { sm_cmac_handle_aes_engine_ready t with sm_cmac_get_byte := m2 }) ∧
    (∀ (t : Core) (data : List Nat) (m2 : Nat → Nat),
      (∀ o ∈ sm_cmac_get_byte_offsets_result t, m2 o = t.sm_cmac_get_byte o) →
      sm_cmac_handle_encryption_result r tag_message data { t with sm_cmac_get_byte := m2 }
        = { sm_cmac_handle_encryption_result r tag_message data t with
            sm_cmac_get_byte := m2 }) := by
  have hinv := offsets_inv_start K L m s
  have hlt := cmac_drive_offsets_lt E r tag_message L hL fuel _ hinv
  have hdep : ∀ m2 : Nat → Nat, (∀ o, o < L → m2 o = m o) →
      cmac_drive E r tag_message fuel (sm_cmac_general_start K L m2 s)
        = { cmac_drive E r tag_message fuel (sm_cmac_general_start K L m s) with
            sm_cmac_get_byte := m2 } := by
    intro m2 hm
    have e : sm_cmac_general_start K L m2 s
        = { sm_cmac_general_start K L m s with sm_cmac_get_byte := m2 } := by
      rw [sm_cmac_general_start_eq, sm_cmac_general_start_eq]
    rw [e]
    apply cmac_drive_reads E r tag_message L hL m2 fuel _ hinv
    intro o ho
    rw [sm_cmac_general_start_eq]
    exact hm o ho
  refine ⟨hlt, ?_, ?_, ?_, ?_⟩
  · intro h0
    apply List.eq_nil_iff_forall_not_mem.mpr
    intro o ho
    have := hlt o ho
    omega
  · intro m2 hm
    refine ⟨hdep m2 hm, ?_, ?_⟩
    · rw [hdep m2 hm]
    · rw [hdep m2 hm]
  · intro t m2 h
    exact engine_ready_reads t m2 h
  · intro t data m2 h
    exact result_reads r tag_message data t m2 h

/-- Witness of C18: 40 bytes; all offsets of the run are below 40 (they are 32..39, then
0..31). -/
theorem C18_byte_source_offsets_witness :
    (cmac_drive_offsets aes128 example_cmac_request false 4
        (sm_cmac_general_start rfc4493_key 40 rfc4493_message core_init)).all
      (fun o => decide (o < 40)) = true :=
  List.all_eq_true.mpr (fun o ho => decide_eq_true
    ((C18_byte_source_offsets aes128 example_cmac_request false rfc4493_key 40 rfc4493_message
      core_init 4 (by decide)).1 o ho))

/-! ### Flag, phase and head of the list -/

theorem last_is_rand_append (s : Core) (snt : List hci_cmd)
    (h : s.sent = snt ++ [hci_cmd.hci_le_rand]) : last_is_rand s = true := by
  simp [last_is_rand, h]

theorem last_is_encrypt_append (s : Core) (snt : List hci_cmd) (k p : List Nat)
    (h : s.sent = snt ++ [hci_cmd.hci_le_encrypt k p]) : last_is_encrypt s = true := by
  simp [last_is_encrypt, h]

theorem last_not_both (s : Core) (h1 : last_is_rand s = true) (h2 : last_is_encrypt s = true) :
    False := by
  unfold last_is_rand at h1
  unfold last_is_encrypt at h2
  cases hl : s.sent.getLast? with
  | none => simp [hl] at h1
  | some c =>
    cases c with
    | hci_le_rand => simp [hl] at h2
    | hci_le_encrypt k p => simp [hl] at h1

theorem idle_of_head_not_cmac (s : Core) (h : phase_inv s) (hh : head_is_cmac s = false) :
    s.sm_cmac_state = CMAC_IDLE := by
  by_contra hne
  rw [h.2.2 hne] at hh
  exact absurd hh (by simp)

theorem run_phase_inv (c : Bool) (s : Core) (h : phase_inv s) :
    phase_inv (btstack_crypto_run c s) := by
  rcases run_cases c s with e | ⟨hw, hc, hcase⟩
  · rw [e]; exact h
  · rcases hcase with ⟨r, rest, hq⟩ | ⟨r, rest, hq⟩ | ⟨r, rest, hq⟩
    · have hidle := idle_of_head_not_cmac s h (by simp [head_is_cmac, hq])
      rw [run_random_eq c s r rest hw hc hq]
      refine ⟨fun _ => ?_, fun hf => absurd hf (by simp), fun hne => absurd hidle hne⟩
      simp only [pending_matches, hq]
      exact ⟨last_is_rand_append _ s.sent rfl, hidle⟩
    · have hidle := idle_of_head_not_cmac s h (by simp [head_is_cmac, hq])
      rw [run_aes128_eq c s r rest hw hc hq]
      refine ⟨fun _ => ?_, fun hf => absurd hf (by simp), fun hne => absurd hidle hne⟩
      simp only [pending_matches, hq]
      exact ⟨last_is_encrypt_append _ s.sent _ _ rfl, hidle⟩
    · have hhead : head_is_cmac s = true := by
        rcases hq with hq | hq <;> simp [head_is_cmac, hq]
      have hpm : ∀ t : Core, t.btstack_crypto_operations = s.btstack_crypto_operations →
          last_is_encrypt t = true → is_w4 t.sm_cmac_state = true → pending_matches t := by
        intro t ht h1 h2
        unfold pending_matches
        rw [ht]
        rcases hq with hq | hq <;> simp only [hq] <;> exact ⟨h1, h2⟩
      have hhd : ∀ t : Core, t.btstack_crypto_operations = s.btstack_crypto_operations →
          head_is_cmac t = true := by
        intro t ht
        unfold head_is_cmac at hhead ⊢
        rw [ht]; exact hhead
      rw [run_cmac_eq c s r rest hw hc hq]
      rcases h.2.1 hw with hst | hst | hst
      · rw [if_pos hst, sm_cmac_general_start_eq]
        exact ⟨fun _ => hpm _ rfl (last_is_encrypt_append _ s.sent _ _ rfl) rfl,
          fun hf => absurd hf (by simp), fun _ => hhd _ rfl⟩
      · rw [if_neg (by rw [hst]; simp), engine_ready_calc_mi
          { s with btstack_crypto_wait_for_hci_result := true } hst]
        exact ⟨fun _ => hpm _ rfl (last_is_encrypt_append _ s.sent _ _ rfl) rfl,
          fun hf => absurd hf (by simp), fun _ => hhd _ rfl⟩
      · rw [if_neg (by rw [hst]; simp), engine_ready_calc_mlast
          { s with btstack_crypto_wait_for_hci_result := true } hst]
        exact ⟨fun _ => hpm _ rfl (last_is_encrypt_append _ s.sent _ _ rfl) rfl,
          fun hf => absurd hf (by simp), fun _ => hhd _ rfl⟩

theorem add_tail_phase_inv (req : Request) (s : Core) (h : phase_inv s) :
    phase_inv (btstack_linked_list_add_tail req s) := by
  cases hq : s.btstack_crypto_operations with
  | nil =>
    have hw : s.btstack_crypto_wait_for_hci_result = false := by
      cases hv : s.btstack_crypto_wait_for_hci_result with
      | false => rfl
      | true =>
        have := h.1 hv
        simp [pending_matches, hq] at this
    have hidle := idle_of_head_not_cmac s h (by simp [head_is_cmac, hq])
    refine ⟨fun hf => ?_, fun _ => Or.inl hidle, fun hne => absurd hidle hne⟩
    rw [show (btstack_linked_list_add_tail req s).btstack_crypto_wait_for_hci_result
      = s.btstack_crypto_wait_for_hci_result from rfl, hw] at hf
    exact absurd hf (by simp)
  | cons hd tl =>
    have e : (btstack_linked_list_add_tail req s).btstack_crypto_operations
        = hd :: (tl ++ [req]) := by
      simp [btstack_linked_list_add_tail, hq]
    have hpm : pending_matches (btstack_linked_list_add_tail req s) ↔ pending_matches s := by
      unfold pending_matches
      rw [e, hq]
      cases hd <;> exact Iff.rfl
    have hhd : head_is_cmac (btstack_linked_list_add_tail req s) = head_is_cmac s := by
      unfold head_is_cmac
      rw [e, hq]
      cases hd <;> rfl
    exact ⟨fun hf => hpm.mpr (h.1 hf), fun hf => h.2.1 hf, fun hne => hhd ▸ h.2.2 hne⟩

theorem phase_inv_of_idle (t : Core) (hw : t.btstack_crypto_wait_for_hci_result = false)
    (hidle : t.sm_cmac_state = CMAC_IDLE) : phase_inv t :=
  ⟨fun hf => absurd (hw ▸ hf) (by simp), fun _ => Or.inl hidle, fun hne => absurd hidle hne⟩

theorem handle_encryption_result_phase_inv (data : List Nat) (s : Core) (h : phase_inv s)
    (hw : s.btstack_crypto_wait_for_hci_result = true) (hl : last_is_encrypt s = true) :
    phase_inv (btstack_crypto_handle_encryption_result data s) := by
  have hpm := h.1 hw
  have hcmac : ∀ (r : btstack_crypto_aes128_cmac_t) (tag : Bool) (rest : List Request),
      s.btstack_crypto_operations
        = (if tag then Request.cmac_message r else Request.cmac_generator r) :: rest →
      is_w4 s.sm_cmac_state = true →
      phase_inv (btstack_crypto_handle_encryption_result data s) := by
    intro r tag rest hq hw4
    have hhead : head_is_cmac s = true := by
      cases tag <;> simp at hq <;> simp [head_is_cmac, hq]
    rw [handle_encryption_result_cmac data s r tag rest hq]
    obtain ⟨st, hs⟩ : ∃ st, s.sm_cmac_state = st := ⟨_, rfl⟩
    have hph : ∀ t : Core, sm_cmac_phase_after_result t = CMAC_IDLE ∨
        sm_cmac_phase_after_result t = CMAC_CALC_MI ∨
        sm_cmac_phase_after_result t = CMAC_CALC_MLAST := by
      intro t
      unfold sm_cmac_phase_after_result
      split
      · exact Or.inr (Or.inl rfl)
      · exact Or.inr (Or.inr rfl)
    cases st with
    | CMAC_W4_SUBKEYS =>
      rw [result_w4_subkeys r tag _ { s with btstack_crypto_wait_for_hci_result := false } hs]
      exact ⟨fun hf => absurd hf (by simp), fun _ => hph _, fun _ => hhead⟩
    | CMAC_W4_MI =>
      rw [result_w4_mi r tag _ { s with btstack_crypto_wait_for_hci_result := false } hs]
      exact ⟨fun hf => absurd hf (by simp), fun _ => hph _, fun _ => hhead⟩
    | CMAC_W4_MLAST =>
      rw [result_w4_mlast r tag _ { s with btstack_crypto_wait_for_hci_result := false } hs]
      exact phase_inv_of_idle _ rfl rfl
    | CMAC_IDLE => rw [hs] at hw4; simp [is_w4] at hw4
    | CMAC_CALC_SUBKEYS => rw [hs] at hw4; simp [is_w4] at hw4
    | CMAC_CALC_MI => rw [hs] at hw4; simp [is_w4] at hw4
    | CMAC_CALC_MLAST => rw [hs] at hw4; simp [is_w4] at hw4
  cases hq : s.btstack_crypto_operations with
  | nil => simp [pending_matches, hq] at hpm
  | cons hd rest =>
    cases hd with
    | random r =>
      simp only [pending_matches, hq] at hpm
      exact (last_not_both s hpm.1 hl).elim
    | aes128 r =>
      simp only [pending_matches, hq] at hpm
      rw [handle_encryption_result_aes128 data s r rest hq]
      exact phase_inv_of_idle _ rfl hpm.2
    | cmac_generator r =>
      simp only [pending_matches, hq] at hpm
      exact hcmac r false rest (by simp [hq]) hpm.2
    | cmac_message r =>
      simp only [pending_matches, hq] at hpm
      exact hcmac r true rest (by simp [hq]) hpm.2

theorem handle_random_data_phase_inv (data : List Nat) (c : Bool) (s : Core)
    (h : phase_inv s) (hw : s.btstack_crypto_wait_for_hci_result = true)
    (hl : last_is_rand s = true) :
    phase_inv (btstack_crypto_handle_random_data data 8 c s) := by
  have hpm := h.1 hw
  cases hq : s.btstack_crypto_operations with
  | nil => simp [pending_matches, hq] at hpm
  | cons hd rest =>
    cases hd with
    | random r =>
      simp only [pending_matches, hq] at hpm
      rw [handle_random_data_random data 8 c s r rest hq]
      apply run_phase_inv
      split
      · exact phase_inv_of_idle _ rfl hpm.2
      · exact phase_inv_of_idle _ rfl hpm.2
    | aes128 r =>
      simp only [pending_matches, hq] at hpm
      exact (last_not_both s hl hpm.1).elim
    | cmac_generator r =>
      simp only [pending_matches, hq] at hpm
      exact (last_not_both s hl hpm.1).elim
    | cmac_message r =>
      simp only [pending_matches, hq] at hpm
      exact (last_not_both s hl hpm.1).elim

theorem wait_of_pending (s : Core) (handled : Nat) (hb : outstanding_bound s handled)
    (hp : handled + 1 = s.sent.length) : s.btstack_crypto_wait_for_hci_result = true := by
  unfold outstanding_bound at hb
  cases hv : s.btstack_crypto_wait_for_hci_result with
  | true => rfl
  | false => rw [hv] at hb; simp at hb; omega

theorem step_phase_inv (i : Input) (s : Core) (handled : Nat) (h : phase_inv s)
    (hb : outstanding_bound s handled) (ha : i.answers s handled) :
    phase_inv (step i s) := by
  cases i with
  | event pt w packet c =>
    show phase_inv (btstack_crypto_event_handler pt w packet c s)
    by_cases hpt : pt = HCI_EVENT_PACKET
    · subst hpt
      cases w with
      | false => simpa [btstack_crypto_event_handler] using h
      | true =>
        cases packet with
        | le_encrypt_complete data =>
          rw [event_handler_encrypt]
          obtain ⟨hp, hl⟩ := ha (by simp)
          exact run_phase_inv _ _
            (handle_encryption_result_phase_inv data s h (wait_of_pending s handled hb hp) hl)
        | le_rand_complete data =>
          rw [event_handler_rand]
          obtain ⟨hp, hl⟩ := ha (by simp)
          exact run_phase_inv _ _
            (handle_random_data_phase_inv data c s h (wait_of_pending s handled hb hp) hl)
        | other =>
          have e : btstack_crypto_event_handler HCI_EVENT_PACKET true .other c s
              = btstack_crypto_run c s := by simp [btstack_crypto_event_handler]
          rw [e]
          exact run_phase_inv _ _ h
    · simpa [btstack_crypto_event_handler, hpt] using h
  | random_generate request buffer size callback callback_arg c =>
    exact run_phase_inv c _ (add_tail_phase_inv _ s h)
  | aes128_encrypt request key plaintext ciphertext callback callback_arg c =>
    exact run_phase_inv c _ (add_tail_phase_inv _ s h)
  | cmac_generator_temp request key size gb hash callback callback_arg c =>
    exact run_phase_inv c _ (add_tail_phase_inv _ s h)
  | cmac_generator request key size g ga hash callback callback_arg c =>
    exact run_phase_inv c _ (add_tail_phase_inv _ s h)
  | cmac_message request key size message hash callback callback_arg c =>
    exact run_phase_inv c _ (add_tail_phase_inv _ s h)

theorem exec_phase_inv (inputs : List Input) (s : Core) (handled : Nat)
    (ha : answers_pending inputs s handled) (h : phase_inv s)
    (hb : outstanding_bound s handled) : phase_inv (exec inputs s) := by
  induction inputs generalizing s handled with
  | nil => exact h
  | cons i is ih =>
    have e : exec (i :: is) s = exec is (step i s) := rfl
    rw [e]
    exact ih _ _ ha.2 (step_phase_inv i s handled h hb ha.1) (step_bound i s handled hb)

/-- C19: in every state reached from the initial state by submissions and by completion
events that each answer the one pending command (packets the handler does not take up
are allowed as well): when the outstanding-command flag is clear the CMAC phase is
`CMAC_IDLE`, `CMAC_CALC_MI` or `CMAC_CALC_MLAST`, never a W4 phase; and when the phase is
not `CMAC_IDLE` the head of the list is a CMAC request, so the engine is idle when the
list is empty or a Random or AES128 request is at its head. -/
theorem C19_flag_phase_and_head (inputs : List Input)
    (ha : answers_pending inputs core_init 0) :
    ((exec inputs core_init).btstack_crypto_wait_for_hci_result = false →
      (exec inputs core_init).sm_cmac_state = CMAC_IDLE ∨
      (exec inputs core_init).sm_cmac_state = CMAC_CALC_MI ∨
      (exec inputs core_init).sm_cmac_state = CMAC_CALC_MLAST) ∧
    ((exec inputs core_init).btstack_crypto_wait_for_hci_result = false →
      is_w4 (exec inputs core_init).sm_cmac_state = false) ∧
    ((exec inputs core_init).sm_cmac_state ≠ CMAC_IDLE →
      head_is_cmac (exec inputs core_init) = true) ∧
    (head_is_cmac (exec inputs core_init) = false →
      (exec inputs core_init).sm_cmac_state = CMAC_IDLE) := by
  have h := exec_phase_inv inputs core_init 0 ha (phase_inv_of_idle core_init rfl rfl)
    (by simp [outstanding_bound, core_init])
  refine ⟨h.2.1, ?_, h.2.2, idle_of_head_not_cmac _ h⟩
  intro hw
  rcases h.2.1 hw with e | e | e <;> rw [e] <;> rfl

/-- Witness of C19: after `example_cmac_trace` the flag is clear, the phase is
`CMAC_CALC_MLAST` and the CMAC request is at the head. -/
theorem C19_flag_phase_and_head_witness :
    answers_pending example_cmac_trace core_init 0 ∧
      (exec example_cmac_trace core_init).btstack_crypto_wait_for_hci_result = false ∧
      (exec example_cmac_trace core_init).sm_cmac_state = CMAC_CALC_MLAST ∧
      head_is_cmac (exec example_cmac_trace core_init) = true :=
  have ha : answers_pending example_cmac_trace core_init 0 :=
    ⟨trivial, fun _ => ⟨by decide, by decide⟩, trivial⟩
  ⟨ha, by decide, by decide,
    (C19_flag_phase_and_head example_cmac_trace ha).2.2.1 (by decide)⟩

end BtstackCrypto
